import Mathlib

/-! A verification development for the software rasterizer.

Shallow embedding of `Vec3.h`, `Matrix4x4.h`, `Framebuffer.h`, `Shader.h`, `Model.h` (without
the file parser) and `Renderer.h`.

Modelling conventions.

* A C++ `float` is modelled by an exact rational (`ℚ`): every finite `float` is a
  rational, and the arithmetic of the model is exact, so rounding, infinities and NaN are
  outside the model.  `std::numeric_limits<float>::max()` is the rational `FLT_MAX`.
* A C++ `int` is modelled by `Int`.  Where an `int` operation can leave the 32-bit range
  its stored result is `wrap32` of the mathematical result: the product `width * height` of
  the constructor of `Framebuffer`, and every operation of `drawLine` (`drawLine32`).  The
  functions `drawLineLoop` and `drawLine` are the same loop over the mathematical integers;
  `drawLine32_eq_drawLine` shows that the two agree where nothing overflows.  The index
  `y * width + x` is only formed after the bounds test, where it does not overflow when
  `width * height` does not.
* An `unsigned char` is a `Nat` below 256.  An `int → unsigned char` conversion is reduction
  modulo 256.  A `float → unsigned char` conversion truncates and is *undefined* in C++ when
  the truncated value does not fit; the model returns `none` there.
* `std::vector` is a `List`; an element write is `List.set`.
* The `while (true)` loop of `drawLine` is a fuelled recursion that returns `none` when the
  fuel runs out; it also records the coordinates of its `setPixel` calls, in call order.
* A counting `for (P.x = lo; P.x <= hi; P.x++)` loop over `float`s is a fold over the list
  `lo, lo+1, …` of the values not exceeding `hi` (`forRange`).
* The library functions `std::sqrt` and `std::pow` are not code of the repository: they are
  parameters `sqrt` and `pow` of every function that calls them.  The functions `sqrtQ` and
  `powQ` stand for them when the model is evaluated on concrete inputs.
* A method that converts a `float` to `unsigned char` returns an `Option`; so do the methods
  of `Renderer` that call it.  Console output is not modelled.
-/

namespace RenderEngine

/-! ## Vec3.h -/

/-- The value of `std::numeric_limits<float>::max()`, that is `(2^24 - 1) * 2^104`. -/
def FLT_MAX : ℚ := 340282346638528859811704183484516925440

/-- Class `Vec3` with its `float` components taken from a scalar type `K`.  The development
uses `K = ℚ` (the type `Vec3` below); the scalar type is left open so that facts about
`length` and `normalize`, which need square roots, can also be stated over `ℝ`. -/
structure Vec3Of (K : Type) where
  x : K
  y : K
  z : K
deriving DecidableEq

/-- Class `Vec3`: three `float` components. -/
abbrev Vec3 : Type := Vec3Of ℚ

namespace Vec3Of

variable {K : Type} [LinearOrderedField K]

/-- Method `Vec3::operator+`. -/
def add (a v : Vec3Of K) : Vec3Of K := ⟨a.x + v.x, a.y + v.y, a.z + v.z⟩

/-- Method `Vec3::operator-`. -/
def sub (a v : Vec3Of K) : Vec3Of K := ⟨a.x - v.x, a.y - v.y, a.z - v.z⟩

/-- Method `Vec3::operator*(float scalar)`. -/
def scale (a : Vec3Of K) (scalar : K) : Vec3Of K := ⟨a.x * scalar, a.y * scalar, a.z * scalar⟩

/-- Method `Vec3::operator*(const Vec3& v)`: the component-wise product. -/
def mul (a v : Vec3Of K) : Vec3Of K := ⟨a.x * v.x, a.y * v.y, a.z * v.z⟩

/-- Method `Vec3::operator/(float scalar)`. -/
def div (a : Vec3Of K) (scalar : K) : Vec3Of K := ⟨a.x / scalar, a.y / scalar, a.z / scalar⟩

/-- Method `Vec3::dot`. -/
def dot (a v : Vec3Of K) : K := a.x * v.x + a.y * v.y + a.z * v.z

/-- Method `Vec3::cross`. -/
def cross (a v : Vec3Of K) : Vec3Of K :=
  ⟨a.y * v.z - a.z * v.y, a.z * v.x - a.x * v.z, a.x * v.y - a.y * v.x⟩

/-- Method `Vec3::length`.  The library function `std::sqrt` is not part of the repository
and is a parameter. -/
def length (sqrt : K → K) (a : Vec3Of K) : K := sqrt (a.x * a.x + a.y * a.y + a.z * a.z)

/-- Method `Vec3::normalize`: `len > 0 ? *this / len : Vec3(0, 0, 0)`. -/
def normalize (sqrt : K → K) (a : Vec3Of K) : Vec3Of K :=
  if length sqrt a > 0 then a.div (length sqrt a) else ⟨0, 0, 0⟩

end Vec3Of

/-- The integer square root, by search. -/
def isqrt (n : Nat) : Nat := ((List.range (n + 1)).filter (fun k => k * k ≤ n)).length - 1

/-- A computable stand-in for `std::sqrt` used to evaluate the model on concrete inputs: it is
the exact square root on squares of rationals. -/
def sqrtQ (q : ℚ) : ℚ := (isqrt q.num.toNat : ℚ) / (isqrt q.den : ℚ)

/-- A computable stand-in for `std::pow` used to evaluate the model on concrete inputs: it is
the exact power for exponents that are natural numbers. -/
def powQ (b e : ℚ) : ℚ := b ^ ⌊e⌋.toNat

/-- Class `Vec2`: two `float` components. -/
structure Vec2 where
  x : ℚ
  y : ℚ
deriving DecidableEq

/-- Class `Color`: four `unsigned char` channels. -/
structure Color where
  r : Nat
  g : Nat
  b : Nat
  a : Nat
deriving DecidableEq

/-- A colour is valid when every channel fits an `unsigned char`. -/
def Color.Valid (c : Color) : Prop :=
  c.r < 256 ∧ c.g < 256 ∧ c.b < 256 ∧ c.a < 256

instance (c : Color) : Decidable c.Valid := by
  unfold Color.Valid; infer_instance

/-- Conversion `int → unsigned char`: reduction modulo 256. -/
def toUChar (n : Int) : Nat := (n % 256).toNat

/-- Conversion `float → int`, `(int)q`: truncation toward zero. -/
def truncToInt (q : ℚ) : Int := if 0 ≤ q then ⌊q⌋ else ⌈q⌉

/-- Conversion `float → unsigned char`, `(unsigned char)q`: the fractional part is discarded;
the behaviour is undefined (`none`) when the truncated value is not in `0..255`. -/
def floatToUChar (q : ℚ) : Option Nat :=
  let t := truncToInt q
  if 0 ≤ t ∧ t ≤ 255 then some t.toNat else none

/-- The constructor `Color(r_, g_, b_)` with the default `a_ = 255`. -/
def Color.rgb (r g b : Nat) : Color := ⟨r, g, b, 255⟩

/-- The default constructor `Color()`. -/
def Color.default : Color := ⟨0, 0, 0, 255⟩

/-- Method `Color::operator*(float intensity)`: each of `r`, `g`, `b` is promoted to `float`,
multiplied and converted back to `unsigned char`; `a` is copied. -/
def Color.mul (c : Color) (intensity : ℚ) : Option Color :=
  match floatToUChar ((c.r : ℚ) * intensity), floatToUChar ((c.g : ℚ) * intensity),
      floatToUChar ((c.b : ℚ) * intensity) with
  | some r, some g, some b => some ⟨r, g, b, c.a⟩
  | _, _, _ => none

/-- Method `Color::operator+(const Color& c)`: `std::min(255, (int)r + (int)c.r)` per channel,
converted to `unsigned char` by the constructor; `a` is copied from the left operand. -/
def Color.add (c1 c2 : Color) : Color :=
  ⟨toUChar (min 255 ((c1.r : Int) + (c2.r : Int))),
   toUChar (min 255 ((c1.g : Int) + (c2.g : Int))),
   toUChar (min 255 ((c1.b : Int) + (c2.b : Int))),
   c1.a⟩

/-! ## Matrix4x4.h -/

/-- Class `Matrix4x4` with its `float` entries taken from a scalar type `K`: the array
`float m[4][4]`, row index first.  The development uses `K = ℚ` (the type `Matrix4x4` below);
the scalar type is left open so that facts about `lookAt`, which needs square roots, can also
be stated over `ℝ`. -/
structure Matrix4x4Of (K : Type) where
  m : Fin 4 → Fin 4 → K

/-- Class `Matrix4x4`: the array `float m[4][4]`, row index first. -/
abbrev Matrix4x4 : Type := Matrix4x4Of ℚ

/-- The default constructor `Matrix4x4()`: `m[i][j] = (i == j) ? 1.0f : 0.0f`. -/
def Matrix4x4.default : Matrix4x4 :=
  ⟨fun i j => if i = j then 1 else 0⟩

/-- Method `Matrix4x4::transform(v, w)`: the homogeneous product followed by the perspective divide
when `wResult` is neither `0` nor `1`. -/
def Matrix4x4.transform (M : Matrix4x4) (v : Vec3) (w : ℚ) : Vec3 :=
  let x := M.m 0 0 * v.x + M.m 0 1 * v.y + M.m 0 2 * v.z + M.m 0 3 * w
  let y := M.m 1 0 * v.x + M.m 1 1 * v.y + M.m 1 2 * v.z + M.m 1 3 * w
  let z := M.m 2 0 * v.x + M.m 2 1 * v.y + M.m 2 2 * v.z + M.m 2 3 * w
  let wResult := M.m 3 0 * v.x + M.m 3 1 * v.y + M.m 3 2 * v.z + M.m 3 3 * w
  if wResult ≠ 0 ∧ wResult ≠ 1 then ⟨x / wResult, y / wResult, z / wResult⟩
  else ⟨x, y, z⟩

/-- Coordinate `i` of the homogeneous product of `M` with `(v, w)`; the four locals `x`, `y`,
`z`, `wResult` of `transform` are the coordinates `0`, `1`, `2`, `3`. -/
def Matrix4x4.row (M : Matrix4x4) (i : Fin 4) (v : Vec3) (w : ℚ) : ℚ :=
  M.m i 0 * v.x + M.m i 1 * v.y + M.m i 2 * v.z + M.m i 3 * w

/-- Call `transform(v)` with the default argument `w = 1.0f`. -/
def Matrix4x4.transformPoint (M : Matrix4x4) (v : Vec3) : Vec3 := M.transform v 1

/-- Method `Matrix4x4::operator*`: `result.m[i][j] = 0` followed by the four additions of
`m[i][k] * other.m[k][j]`, `k = 0, 1, 2, 3`. -/
def Matrix4x4.mul (A other : Matrix4x4) : Matrix4x4 :=
  ⟨fun i j => 0 + A.m i 0 * other.m 0 j + A.m i 1 * other.m 1 j + A.m i 2 * other.m 2 j +
    A.m i 3 * other.m 3 j⟩

/-- The assignment `result.m[i][j] = v`. -/
def Matrix4x4.set (M : Matrix4x4) (i j : Fin 4) (v : ℚ) : Matrix4x4 :=
  ⟨fun a b => if a = i ∧ b = j then v else M.m a b⟩

/-- Factory `Matrix4x4::translation(x, y, z)`. -/
def Matrix4x4.translation (x y z : ℚ) : Matrix4x4 :=
  ((Matrix4x4.default.set 0 3 x).set 1 3 y).set 2 3 z

/-- Factory `Matrix4x4::scaling(x, y, z)`. -/
def Matrix4x4.scaling (x y z : ℚ) : Matrix4x4 :=
  ((Matrix4x4.default.set 0 0 x).set 1 1 y).set 2 2 z

/-- An affine matrix: the bottom row is `0, 0, 0, 1`. -/
def Matrix4x4.Affine (M : Matrix4x4) : Prop :=
  M.m 3 0 = 0 ∧ M.m 3 1 = 0 ∧ M.m 3 2 = 0 ∧ M.m 3 3 = 1

instance (M : Matrix4x4) : Decidable M.Affine := by
  unfold Matrix4x4.Affine; infer_instance

/-- Factory `Matrix4x4::perspective(fov, aspect, near, far)`.  The library function `std::tan`
is a parameter. -/
def Matrix4x4.perspective (tan : ℚ → ℚ) (fov aspect near far : ℚ) : Matrix4x4 :=
  (((((Matrix4x4.default.set 0 0 (1 / tan (fov * (1 / 2)) / aspect)).set 1 1
    (1 / tan (fov * (1 / 2)))).set 2 2 ((far + near) / (near - far))).set 2 3
    (2 * far * near / (near - far))).set 3 2 (-1)).set 3 3 0

namespace Matrix4x4Of

variable {K : Type} [LinearOrderedField K]

/-- Method `Matrix4x4::transform(v, w)` over the scalar type `K`; at `K = ℚ` it is
`Matrix4x4.transform`. -/
def transform (M : Matrix4x4Of K) (v : Vec3Of K) (w : K) : Vec3Of K :=
  let x := M.m 0 0 * v.x + M.m 0 1 * v.y + M.m 0 2 * v.z + M.m 0 3 * w
  let y := M.m 1 0 * v.x + M.m 1 1 * v.y + M.m 1 2 * v.z + M.m 1 3 * w
  let z := M.m 2 0 * v.x + M.m 2 1 * v.y + M.m 2 2 * v.z + M.m 2 3 * w
  let wResult := M.m 3 0 * v.x + M.m 3 1 * v.y + M.m 3 2 * v.z + M.m 3 3 * w
  if wResult ≠ 0 ∧ wResult ≠ 1 then ⟨x / wResult, y / wResult, z / wResult⟩
  else ⟨x, y, z⟩

/-- Factory `Matrix4x4::lookAt(eye, target, up)` over the scalar type `K`: all sixteen entries
of `result` are assigned, row by row. -/
def lookAt (sqrt : K → K) (eye target up : Vec3Of K) : Matrix4x4Of K :=
  let forward := (target.sub eye).normalize sqrt
  let right := (forward.cross up).normalize sqrt
  let newUp := right.cross forward
  ⟨![![right.x, right.y, right.z, -right.dot eye],
     ![newUp.x, newUp.y, newUp.z, -newUp.dot eye],
     ![-forward.x, -forward.y, -forward.z, forward.dot eye],
     ![0, 0, 0, 1]]⟩

end Matrix4x4Of

/-- Factory `Matrix4x4::lookAt(eye, target, up)`. -/
def Matrix4x4.lookAt (sqrt : ℚ → ℚ) (eye target up : Vec3) : Matrix4x4 :=
  Matrix4x4Of.lookAt sqrt eye target up

/-! ## Framebuffer.h -/

/-- The value stored in a 32-bit `int` by an arithmetic operation whose mathematical result is
`n`: the representative of `n` modulo `2^32` in `[-2^31, 2^31)`.  (Signed overflow is
undefined behaviour in C++; this is the two's complement result of the usual targets.) -/
def wrap32 (n : Int) : Int := (n + 2147483648) % 4294967296 - 2147483648

/-- The values of the type `int`: `-2^31 <= n < 2^31`. -/
def Int32Range (n : Int) : Prop := -2147483648 ≤ n ∧ n < 2147483648

instance (n : Int) : Decidable (Int32Range n) := by
  unfold Int32Range; infer_instance

/-- Class `Framebuffer`: `width`, `height`, and the two `std::vector`s. -/
structure Framebuffer where
  width : Int
  height : Int
  colorBuffer : List Color
  depthBuffer : List ℚ
deriving DecidableEq

namespace Framebuffer

/-- Both vectors hold `width * height` entries, as after the `resize` calls of the constructor. -/
def WF (fb : Framebuffer) : Prop :=
  fb.colorBuffer.length = (fb.width * fb.height).toNat ∧
  fb.depthBuffer.length = (fb.width * fb.height).toNat

instance (fb : Framebuffer) : Decidable fb.WF := by
  unfold WF; infer_instance

/-- The bounds test `x >= 0 && x < width && y >= 0 && y < height`. -/
def inBounds (fb : Framebuffer) (x y : Int) : Prop :=
  0 ≤ x ∧ x < fb.width ∧ 0 ≤ y ∧ y < fb.height

instance (fb : Framebuffer) (x y : Int) : Decidable (fb.inBounds x y) := by
  unfold inBounds; infer_instance

/-- The linear index `y * width + x` used by `setPixel`, `getPixel` and `getDepth`. -/
def index (fb : Framebuffer) (x y : Int) : Nat := (y * fb.width + x).toNat

/-- Method `clear(color)`: `std::fill` of both vectors. -/
def clear (fb : Framebuffer) (color : Color) : Framebuffer :=
  { fb with
    colorBuffer := List.replicate fb.colorBuffer.length color
    depthBuffer := List.replicate fb.depthBuffer.length FLT_MAX }

/-- The constructor `Framebuffer(w, h)`: both vectors are resized to `width * height`
value-initialised entries, then `clear()` runs with its default colour `Color(0, 0, 0)`.  The
product is a 32-bit `int` product, `wrap32 (w * h)`.  (When that `int` is negative the C++
`resize` throws; the model then has empty vectors.) -/
def new (w h : Int) : Framebuffer :=
  clear ⟨w, h, List.replicate (wrap32 (w * h)).toNat Color.default,
    List.replicate (wrap32 (w * h)).toNat 0⟩
    (Color.rgb 0 0 0)

/-- Method `setPixel(x, y, color, depth)`.  The read `depthBuffer[index]` is in range for a
well-formed framebuffer; the default of `getD` is never used there. -/
def setPixel (fb : Framebuffer) (x y : Int) (color : Color) (depth : ℚ) : Framebuffer :=
  if fb.inBounds x y then
    if depth < fb.depthBuffer.getD (fb.index x y) 0 then
      { fb with
        colorBuffer := fb.colorBuffer.set (fb.index x y) color
        depthBuffer := fb.depthBuffer.set (fb.index x y) depth }
    else fb
  else fb

/-- Method `getPixel(x, y)`. -/
def getPixel (fb : Framebuffer) (x y : Int) : Color :=
  if fb.inBounds x y then fb.colorBuffer.getD (fb.index x y) Color.default
  else Color.rgb 0 0 0

/-- Method `getDepth(x, y)`. -/
def getDepth (fb : Framebuffer) (x y : Int) : ℚ :=
  if fb.inBounds x y then fb.depthBuffer.getD (fb.index x y) 0
  else FLT_MAX

/-- One pass of the body of the `while (true)` loop of `drawLine`, iterated, over the
mathematical integers (machine overflow ignored; `drawLineLoop32` is the loop on 32-bit
`int`s): the current point is `(x0, y0)`, the running error is `err`.  The result is the
framebuffer after the loop together with the coordinates of the `setPixel` calls made, in
call order; `none` when the fuel is exhausted before the `break`. -/
def drawLineLoop (color : Color) (x1 y1 dx dy sx sy : Int) :
    Nat → Framebuffer → Int → Int → Int → Option (Framebuffer × List (Int × Int))
  | 0, _, _, _, _ => none
  | fuel + 1, fb, x0, y0, err =>
    let fb1 := fb.setPixel x0 y0 color 0
    if x0 = x1 ∧ y0 = y1 then some (fb1, [(x0, y0)])
    else
      let e2 := 2 * err
      let errA := if e2 > -dy then err - dy else err
      let xA := if e2 > -dy then x0 + sx else x0
      let errB := if e2 < dx then errA + dx else errA
      let yB := if e2 < dx then y0 + sy else y0
      (drawLineLoop color x1 y1 dx dy sx sy fuel fb1 xA yB errB).map
        (fun r => (r.1, (x0, y0) :: r.2))

/-- Method `drawLine(x0, y0, x1, y1, color)` over the mathematical integers (machine overflow
ignored; `drawLine32` is the method on 32-bit `int`s), with the fuel of the loop as first
argument. -/
def drawLine (fuel : Nat) (fb : Framebuffer) (x0 y0 x1 y1 : Int) (color : Color) :
    Option (Framebuffer × List (Int × Int)) :=
  let dx := |x1 - x0|
  let dy := |y1 - y0|
  let sx : Int := if x0 < x1 then 1 else -1
  let sy : Int := if y0 < y1 then 1 else -1
  let err := dx - dy
  drawLineLoop color x1 y1 dx dy sx sy fuel fb x0 y0 err

/-- The loop of `drawLine` on 32-bit `int`s: every arithmetic operation of the body (`2 * err`,
`-dy`, `err -= dy`, `x0 += sx`, `err += dx`, `y0 += sy`) stores `wrap32` of its mathematical
result.  The result is the framebuffer after the loop together with the coordinates of the
`setPixel` calls made, in call order; `none` when the fuel is exhausted before the `break`. -/
def drawLineLoop32 (color : Color) (x1 y1 dx dy sx sy : Int) :
    Nat → Framebuffer → Int → Int → Int → Option (Framebuffer × List (Int × Int))
  | 0, _, _, _, _ => none
  | fuel + 1, fb, x0, y0, err =>
    let fb1 := fb.setPixel x0 y0 color 0
    if x0 = x1 ∧ y0 = y1 then some (fb1, [(x0, y0)])
    else
      let e2 := wrap32 (2 * err)
      let errA := if e2 > wrap32 (-dy) then wrap32 (err - dy) else err
      let xA := if e2 > wrap32 (-dy) then wrap32 (x0 + sx) else x0
      let errB := if e2 < dx then wrap32 (errA + dx) else errA
      let yB := if e2 < dx then wrap32 (y0 + sy) else y0
      (drawLineLoop32 color x1 y1 dx dy sx sy fuel fb1 xA yB errB).map
        (fun r => (r.1, (x0, y0) :: r.2))

/-- Method `drawLine(x0, y0, x1, y1, color)` on 32-bit `int`s, with the fuel of the loop as
first argument: the differences, `abs` and `dx - dy` store `wrap32` of their mathematical
results. -/
def drawLine32 (fuel : Nat) (fb : Framebuffer) (x0 y0 x1 y1 : Int) (color : Color) :
    Option (Framebuffer × List (Int × Int)) :=
  let dx := wrap32 |wrap32 (x1 - x0)|
  let dy := wrap32 |wrap32 (y1 - y0)|
  let sx : Int := if x0 < x1 then 1 else -1
  let sy : Int := if y0 < y1 then 1 else -1
  let err := wrap32 (dx - dy)
  drawLineLoop32 color x1 y1 dx dy sx sy fuel fb x0 y0 err

/-- Method `barycentric(p, a, b, c)`; the tolerance `0.001f` is the rational `1/1000`. -/
def barycentric (p a b c : Vec2) : Vec3 :=
  let denom := (b.y - c.y) * (a.x - c.x) + (c.x - b.x) * (a.y - c.y)
  if |denom| < 1 / 1000 then ⟨-1, 0, 0⟩
  else
    let w0 := ((b.y - c.y) * (p.x - c.x) + (c.x - b.x) * (p.y - c.y)) / denom
    let w1 := ((c.y - a.y) * (p.x - c.x) + (a.x - c.x) * (p.y - c.y)) / denom
    let w2 := 1 - w0 - w1
    ⟨w0, w1, w2⟩

/-- The values taken by the loop variable of `for (t = lo; t <= hi; t++)`, in order. -/
def forRange (lo hi : ℚ) : List ℚ :=
  if lo ≤ hi then (List.range (⌊hi - lo⌋.toNat + 1)).map (fun (k : Nat) => lo + (k : ℚ)) else []

/-- The body of the inner loop of `drawTriangle` at the sample point `P = (px, py)`. -/
def drawTriangleStep (v0 v1 v2 : Vec3) (color : Color) (px : ℚ) (fb : Framebuffer) (py : ℚ) :
    Framebuffer :=
  let bc_screen := barycentric ⟨px, py⟩ ⟨v0.x, v0.y⟩ ⟨v1.x, v1.y⟩ ⟨v2.x, v2.y⟩
  if bc_screen.x < 0 ∨ bc_screen.y < 0 ∨ bc_screen.z < 0 then fb
  else
    let z := v0.z * bc_screen.x + v1.z * bc_screen.y + v2.z * bc_screen.z
    fb.setPixel (truncToInt px) (truncToInt py) color z

/-- Lower corner of the bounding box along one axis:
`std::max(0.0f, std::min({FLT_MAX, a, b, c}))`. -/
def bboxmin (a b c : ℚ) : ℚ := max 0 (min (min (min FLT_MAX a) b) c)

/-- Upper corner of the bounding box along one axis:
`std::min(clamp, std::max({-FLT_MAX, a, b, c}))`. -/
def bboxmax (clamp a b c : ℚ) : ℚ := min clamp (max (max (max (-FLT_MAX) a) b) c)

/-- Method `drawTriangle(v0, v1, v2, color)`: the bounding box clamped by
`clamp = (width - 1, height - 1)`, then the two nested loops (`P.x` outer, `P.y` inner). -/
def drawTriangle (fb : Framebuffer) (v0 v1 v2 : Vec3) (color : Color) : Framebuffer :=
  (forRange (bboxmin v0.x v1.x v2.x) (bboxmax ((fb.width - 1 : Int) : ℚ) v0.x v1.x v2.x)).foldl
    (fun fbx px =>
      (forRange (bboxmin v0.y v1.y v2.y)
        (bboxmax ((fb.height - 1 : Int) : ℚ) v0.y v1.y v2.y)).foldl
        (drawTriangleStep v0 v1 v2 color px) fbx)
    fb

/-! ### Auxiliary definitions used in the proofs

A triangle is drawn by a sequence of `setPixel` calls that does not depend on the contents of
the two vectors.  The definitions below name that sequence and its effect on one pixel. -/

/-- Twice the signed area of the 2-D projection of the triangle `v0 v1 v2`; it is zero exactly
when the three projected points are collinear or coincide. -/
def twiceArea (v0 v1 v2 : Vec3) : ℚ :=
  (v1.x - v0.x) * (v2.y - v0.y) - (v2.x - v0.x) * (v1.y - v0.y)

/-- All three barycentric weights of the point `(px, py)` with respect to the 2-D projection of
the triangle are non-negative: the test that `drawTriangle` negates. -/
def insideTriangle (v0 v1 v2 : Vec3) (px py : ℚ) : Prop :=
  0 ≤ (barycentric ⟨px, py⟩ ⟨v0.x, v0.y⟩ ⟨v1.x, v1.y⟩ ⟨v2.x, v2.y⟩).x ∧
  0 ≤ (barycentric ⟨px, py⟩ ⟨v0.x, v0.y⟩ ⟨v1.x, v1.y⟩ ⟨v2.x, v2.y⟩).y ∧
  0 ≤ (barycentric ⟨px, py⟩ ⟨v0.x, v0.y⟩ ⟨v1.x, v1.y⟩ ⟨v2.x, v2.y⟩).z

instance (v0 v1 v2 : Vec3) (px py : ℚ) : Decidable (insideTriangle v0 v1 v2 px py) := by
  unfold insideTriangle; infer_instance

/-- A sequence of `setPixel` calls with one colour; a call is `(x, y, depth)`. -/
def paint (color : Color) (fb : Framebuffer) (frags : List (Int × Int × ℚ)) : Framebuffer :=
  frags.foldl (fun acc f => acc.setPixel f.1 f.2.1 color f.2.2) fb

/-- The `setPixel` call made by the inner loop body of `drawTriangle` at the sample point
`(px, py)`, if any. -/
def triangleFragment (v0 v1 v2 : Vec3) (px py : ℚ) : Option (Int × Int × ℚ) :=
  if (barycentric ⟨px, py⟩ ⟨v0.x, v0.y⟩ ⟨v1.x, v1.y⟩ ⟨v2.x, v2.y⟩).x < 0 ∨
      (barycentric ⟨px, py⟩ ⟨v0.x, v0.y⟩ ⟨v1.x, v1.y⟩ ⟨v2.x, v2.y⟩).y < 0 ∨
      (barycentric ⟨px, py⟩ ⟨v0.x, v0.y⟩ ⟨v1.x, v1.y⟩ ⟨v2.x, v2.y⟩).z < 0 then none
  else some (truncToInt px, truncToInt py,
    v0.z * (barycentric ⟨px, py⟩ ⟨v0.x, v0.y⟩ ⟨v1.x, v1.y⟩ ⟨v2.x, v2.y⟩).x +
    v1.z * (barycentric ⟨px, py⟩ ⟨v0.x, v0.y⟩ ⟨v1.x, v1.y⟩ ⟨v2.x, v2.y⟩).y +
    v2.z * (barycentric ⟨px, py⟩ ⟨v0.x, v0.y⟩ ⟨v1.x, v1.y⟩ ⟨v2.x, v2.y⟩).z)

/-- All `setPixel` calls of `drawTriangle` on a `w × h` framebuffer, in call order. -/
def triangleFragments (w h : Int) (v0 v1 v2 : Vec3) : List (Int × Int × ℚ) :=
  (forRange (bboxmin v0.x v1.x v2.x) (bboxmax ((w - 1 : Int) : ℚ) v0.x v1.x v2.x)).flatMap
    (fun px =>
      (forRange (bboxmin v0.y v1.y v2.y) (bboxmax ((h - 1 : Int) : ℚ) v0.y v1.y v2.y)).filterMap
        (triangleFragment v0 v1 v2 px))

/-- The least depth among the calls of a sequence that address the pixel `(x, y)`. -/
def nearest (x y : Int) : List (Int × Int × ℚ) → Option ℚ
  | [] => none
  | f :: fs =>
    if f.1 = x ∧ f.2.1 = y then
      some (match nearest x y fs with
        | none => f.2.2
        | some m => min f.2.2 m)
    else nearest x y fs

/-- The effect on one pixel, a pair (colour, depth), of a depth-tested write of colour `c`
with depth `m`, or of no write. -/
def applyNearest (m : Option ℚ) (c : Color) (cell : Color × ℚ) : Color × ℚ :=
  match m with
  | none => cell
  | some z => if z < cell.2 then (c, z) else cell

/-- Invariant of the loop of `drawLine` at the current point `(x, y)` with error term `err`:
the point is `rx` steps of `sx` and `ry` steps of `sy` away from the end point `(x1, y1)`, and
the error term is `dx - dy + rx * dy - ry * dx`. -/
def LineInv (x1 y1 dx dy sx sy x y err rx ry : Int) : Prop :=
  0 ≤ dx ∧ 0 ≤ dy ∧ (sx = 1 ∨ sx = -1) ∧ (sy = 1 ∨ sy = -1) ∧
  0 ≤ rx ∧ rx ≤ dx ∧ 0 ≤ ry ∧ ry ≤ dy ∧
  x1 - x = sx * rx ∧ y1 - y = sy * ry ∧ err = dx - dy + rx * dy - ry * dx

/-- Two successive points of a line differ by at most `1` in each coordinate. -/
def Adjacent (p q : Int × Int) : Prop := |q.1 - p.1| ≤ 1 ∧ |q.2 - p.2| ≤ 1

/-- The pair (colour, depth) read at `(x, y)` by `getPixel` and `getDepth`. -/
def cell (fb : Framebuffer) (x y : Int) : Color × ℚ := (fb.getPixel x y, fb.getDepth x y)

end Framebuffer

/-! ## Shader.h -/

/-- Struct `Vertex`: vertex shader output and fragment shader input. -/
structure Vertex where
  position : Vec3
  normal : Vec3
  texCoord : Vec2
  worldPos : Vec3
  color : Vec3

/-- Struct `Light`; `type` is `0` for a directional light, anything else is treated as a point
light by `fragmentShader`. -/
structure Light where
  position : Vec3
  direction : Vec3
  color : Color
  intensity : ℚ
  type : Int

/-- Struct `Material`. -/
structure Material where
  diffuse : Color
  specular : Color
  ambient : Color
  shininess : ℚ
  roughness : ℚ

/-- Class `Shader`: the matrices, the camera position, the lights, the material and the
shadow and ambient-occlusion settings. -/
structure Shader where
  modelMatrix : Matrix4x4
  viewMatrix : Matrix4x4
  projectionMatrix : Matrix4x4
  mvpMatrix : Matrix4x4
  cameraPos : Vec3
  lights : List Light
  material : Material
  lightSpaceMatrix : Matrix4x4
  enableShadows : Bool
  enableAO : Bool
  aoRadius : ℚ
  aoSamples : Int

/-- The constructor `Material()`. -/
def Material.default : Material :=
  ⟨Color.rgb 128 128 128, Color.rgb 255 255 255, Color.rgb 32 32 32, 32, 1 / 2⟩

namespace Shader

/-- Method `updateMVP`: `mvpMatrix = projectionMatrix * viewMatrix * modelMatrix`. -/
def updateMVP (sh : Shader) : Shader :=
  { sh with mvpMatrix := (sh.projectionMatrix.mul sh.viewMatrix).mul sh.modelMatrix }

/-- Method `vertexShader(vertex, normal, texCoord)`; the field `color` of the output keeps
its default value. -/
def vertexShader (sqrt : ℚ → ℚ) (sh : Shader) (vertex normal : Vec3) (texCoord : Vec2) :
    Vertex :=
  { position := sh.mvpMatrix.transform vertex 1
    normal := (sh.modelMatrix.transform normal 0).normalize sqrt
    texCoord := texCoord
    worldPos := sh.modelMatrix.transform vertex 1
    color := ⟨0, 0, 0⟩ }

/-- Method `calculateAmbientOcclusion`: `std::max(0.1f, occlusion)` with `occlusion = 1`. -/
def calculateAmbientOcclusion (_sh : Shader) (_vertex : Vertex) : ℚ :=
  let occlusion : ℚ := 1
  max (1 / 10) occlusion

/-- Method `calculateShadow`. -/
def calculateShadow (sh : Shader) (vertex : Vertex) : ℚ :=
  if ¬ sh.enableShadows = true then 1
  else
    let lightSpacePos := sh.lightSpaceMatrix.transform vertex.worldPos 1
    let _lx := lightSpacePos.x * (1 / 2) + 1 / 2
    let _ly := lightSpacePos.y * (1 / 2) + 1 / 2
    1

/-- The channels of a colour as a vector, `Vec3(c.r, c.g, c.b)`. -/
def colorVec (c : Color) : Vec3 := ⟨(c.r : ℚ), (c.g : ℚ), (c.b : ℚ)⟩

/-- The body of the loop over the lights in `fragmentShader`: the value of `finalColor` after
the contribution of one light.  The library function `std::pow` is a parameter. -/
def addLight (sqrt : ℚ → ℚ) (pow : ℚ → ℚ → ℚ) (sh : Shader) (vertex : Vertex)
    (finalColor : Vec3) (light : Light) : Vec3 :=
  let lightDir : Vec3 :=
    if light.type = 0 then light.direction.scale (-1)
    else (light.position.sub vertex.worldPos).normalize sqrt
  let attenuation : ℚ :=
    if light.type = 0 then 1
    else
      let distance := (light.position.sub vertex.worldPos).length sqrt
      1 / (1 + 9 / 100 * distance + 32 / 1000 * distance * distance)
  let diff := max 0 (vertex.normal.dot lightDir)
  let diffuse := ((colorVec sh.material.diffuse).scale (1 / 255)).scale diff
  let viewDir := (sh.cameraPos.sub vertex.worldPos).normalize sqrt
  let halfwayDir := (lightDir.add viewDir).normalize sqrt
  let spec := pow (max 0 (vertex.normal.dot halfwayDir)) sh.material.shininess
  let specular := ((colorVec sh.material.specular).scale (1 / 255)).scale spec
  let lightColor := (colorVec light.color).scale (1 / 255)
  finalColor.add ((((diffuse.add specular).mul lightColor).scale light.intensity).scale
    attenuation)

/-- The value of `finalColor` in `fragmentShader` after the three `std::min(1.0f, …)`
assignments, immediately before the conversion to 8-bit channels. -/
def fragmentFinal (sqrt : ℚ → ℚ) (pow : ℚ → ℚ → ℚ) (sh : Shader) (vertex : Vertex) : Vec3 :=
  let ambient := (colorVec sh.material.ambient).scale (1 / 255)
  let lit := sh.lights.foldl (addLight sqrt pow sh vertex) ((⟨0, 0, 0⟩ : Vec3).add ambient)
  let shaded := if sh.enableAO = true then lit.scale (calculateAmbientOcclusion sh vertex) else lit
  ⟨min 1 shaded.x, min 1 shaded.y, min 1 shaded.z⟩

/-- Method `fragmentShader(vertex)`: the clamped `finalColor` converted by
`Color((unsigned char)(x * 255), (unsigned char)(y * 255), (unsigned char)(z * 255))`. -/
def fragmentShader (sqrt : ℚ → ℚ) (pow : ℚ → ℚ → ℚ) (sh : Shader) (vertex : Vertex) :
    Option Color :=
  match floatToUChar ((fragmentFinal sqrt pow sh vertex).x * 255),
      floatToUChar ((fragmentFinal sqrt pow sh vertex).y * 255),
      floatToUChar ((fragmentFinal sqrt pow sh vertex).z * 255) with
  | some r, some g, some b => some (Color.rgb r g b)
  | _, _, _ => none

end Shader

/-! ## Model.h and Renderer.h -/

/-- Struct `Face`: the arrays `v[3]`, `vt[3]`, `vn[3]` of indices. -/
structure Face where
  v : Fin 3 → Int
  vt : Fin 3 → Int
  vn : Fin 3 → Int

/-- Class `Model`, without the file parser: the four vectors. -/
structure Model where
  vertices : List Vec3
  texCoords : List Vec2
  normals : List Vec3
  faces : List Face

namespace Model

/-- Method `getVertex(index)`. -/
def getVertex (model : Model) (index : Int) : Vec3 :=
  if 0 ≤ index ∧ index.toNat < model.vertices.length then
    model.vertices.getD index.toNat ⟨0, 0, 0⟩
  else ⟨0, 0, 0⟩

/-- Method `getNormal(index)`. -/
def getNormal (model : Model) (index : Int) : Vec3 :=
  if 0 ≤ index ∧ index.toNat < model.normals.length then
    model.normals.getD index.toNat ⟨0, 0, 1⟩
  else ⟨0, 0, 1⟩

/-- Method `getTexCoord(index)`. -/
def getTexCoord (model : Model) (index : Int) : Vec2 :=
  if 0 ≤ index ∧ index.toNat < model.texCoords.length then
    model.texCoords.getD index.toNat ⟨0, 0⟩
  else ⟨0, 0⟩

end Model

/-- Class `Renderer`: `width`, `height`, the framebuffer and the shader. -/
structure Renderer where
  width : Int
  height : Int
  framebuffer : Framebuffer
  shader : Shader

namespace Renderer

/-- The value of `worldVerts[i]` in `renderModel`: the mesh vertex `model.getVertex(face.v[i])`
as stored, not transformed. -/
def worldVert (model : Model) (face : Face) (i : Fin 3) : Vec3 := model.getVertex (face.v i)

/-- The value of `shaderVerts[i]` in `renderModel`: the vertex shader applied to corner `i`,
with the normal `(0, 0, 1)` and the texture coordinate `(0, 0)` when the face has no index. -/
def shaderVert (sqrt : ℚ → ℚ) (r : Renderer) (model : Model) (face : Face) (i : Fin 3) :
    Vertex :=
  r.shader.vertexShader sqrt (worldVert model face i)
    (if face.vn i ≥ 0 then model.getNormal (face.vn i) else ⟨0, 0, 1⟩)
    (if face.vt i ≥ 0 then model.getTexCoord (face.vt i) else ⟨0, 0⟩)

/-- The clip test of one corner: `position.z < -1.0f || position.z > 1.0f`. -/
def cornerClipped (vert : Vertex) : Prop := vert.position.z < -1 ∨ vert.position.z > 1

instance (vert : Vertex) : Decidable (cornerClipped vert) := by
  unfold cornerClipped; infer_instance

/-- The value of `screenVerts[i]` computed from `shaderVerts[i]`. -/
def screenVert (r : Renderer) (vert : Vertex) : Vec3 :=
  ⟨(vert.position.x + 1) * (r.width : ℚ) * (1 / 2),
   (vert.position.y + 1) * (r.height : ℚ) * (1 / 2),
   vert.position.z⟩

/-- The test of one screen vertex in the `onScreen` loop. -/
def vertOnScreen (r : Renderer) (s : Vec3) : Prop :=
  s.x ≥ -50 ∧ s.x < ((r.width + 50 : Int) : ℚ) ∧ s.y ≥ -50 ∧ s.y < ((r.height + 50 : Int) : ℚ)

instance (r : Renderer) (s : Vec3) : Decidable (vertOnScreen r s) := by
  unfold vertOnScreen; infer_instance

/-- Method `Renderer::drawTriangle(v0, v1, v2, shaderVert)`; `none` when the conversion of the
fragment colour to 8-bit channels is undefined. -/
def drawTriangle (sqrt : ℚ → ℚ) (pow : ℚ → ℚ → ℚ) (r : Renderer) (v0 v1 v2 : Vec3)
    (vert : Vertex) : Option Renderer :=
  (r.shader.fragmentShader sqrt pow vert).map
    (fun pixelColor => { r with framebuffer := r.framebuffer.drawTriangle v0 v1 v2 pixelColor })

/-- The body of the loop over the faces in `renderModel`, on the state made of the renderer
and the counter `trianglesRendered`.  The first inner loop fills `shaderVerts` and
`screenVerts` corner by corner and leaves with `clipped = true` at the first corner that
fails the clip test; its iterations have no other effect, so `clipped` is the disjunction of
the three clip tests.  Console output is not modelled. -/
def renderFace (sqrt : ℚ → ℚ) (pow : ℚ → ℚ → ℚ) (model : Model) (st : Renderer × Nat)
    (face : Face) : Option (Renderer × Nat) :=
  if cornerClipped (shaderVert sqrt st.1 model face 0) ∨
      cornerClipped (shaderVert sqrt st.1 model face 1) ∨
      cornerClipped (shaderVert sqrt st.1 model face 2) then some st
  else
    let worldEdge1 := (worldVert model face 1).sub (worldVert model face 0)
    let worldEdge2 := (worldVert model face 2).sub (worldVert model face 0)
    let faceNormal := worldEdge1.cross worldEdge2
    let viewDir := st.1.shader.cameraPos.sub (worldVert model face 0)
    if faceNormal.dot viewDir > 0 then
      if vertOnScreen st.1 (screenVert st.1 (shaderVert sqrt st.1 model face 0)) ∨
          vertOnScreen st.1 (screenVert st.1 (shaderVert sqrt st.1 model face 1)) ∨
          vertOnScreen st.1 (screenVert st.1 (shaderVert sqrt st.1 model face 2)) then
        (drawTriangle sqrt pow st.1
          (screenVert st.1 (shaderVert sqrt st.1 model face 0))
          (screenVert st.1 (shaderVert sqrt st.1 model face 1))
          (screenVert st.1 (shaderVert sqrt st.1 model face 2))
          (shaderVert sqrt st.1 model face 0)).map (fun r => (r, st.2 + 1))
      else some st
    else some st

/-- The loop over the faces, from a given state. -/
def renderFaces (sqrt : ℚ → ℚ) (pow : ℚ → ℚ → ℚ) (model : Model) :
    List Face → Renderer × Nat → Option (Renderer × Nat)
  | [], st => some st
  | face :: faces, st =>
    match renderFace sqrt pow model st face with
    | some st1 => renderFaces sqrt pow model faces st1
    | none => none

/-- Method `renderModel(model)`: the renderer after the loop and the final value of
`trianglesRendered`. -/
def renderModel (sqrt : ℚ → ℚ) (pow : ℚ → ℚ → ℚ) (r : Renderer) (model : Model) :
    Option (Renderer × Nat) :=
  renderFaces sqrt pow model model.faces (r, 0)

end Renderer

/-- The constructor `Light()`. -/
def Light.default : Light := ⟨⟨0, 0, 0⟩, ⟨0, -1, 0⟩, Color.rgb 255 255 255, 1, 0⟩

/-- The constructor `Shader()`: identity matrices, camera at the origin, the default material
and one default light with direction `Vec3(0, -1, -1).normalize()`. -/
def Shader.new (sqrt : ℚ → ℚ) : Shader :=
  { modelMatrix := Matrix4x4.default
    viewMatrix := Matrix4x4.default
    projectionMatrix := Matrix4x4.default
    mvpMatrix := Matrix4x4.default
    cameraPos := ⟨0, 0, 0⟩
    lights := [{ Light.default with
      direction := (⟨0, -1, -1⟩ : Vec3).normalize sqrt
      intensity := 1 }]
    material := Material.default
    lightSpaceMatrix := Matrix4x4.default
    enableShadows := false
    enableAO := false
    aoRadius := 1
    aoSamples := 16 }

/-- The constructor `Renderer(w, h)`. -/
def Renderer.new (sqrt : ℚ → ℚ) (w h : Int) : Renderer :=
  ⟨w, h, Framebuffer.new w h, Shader.new sqrt⟩

/-- A face as the parser builds it from three vertex indices without texture or normal
indices: the constructor `Face()` sets every index to `-1`, then `v` is filled. -/
def Face.ofVertices (a b c : Int) : Face := ⟨![a, b, c], fun _ => -1, fun _ => -1⟩

/-- A small scene used to evaluate the model: a `4 × 4` renderer whose model matrix is
`translation(0, 0, 1)`, with identity view and projection, `updateMVP` applied, the camera at
the origin and one directional light shining along `-z`. -/
def sceneRenderer : Renderer :=
  { Renderer.new sqrtQ 4 4 with
    shader := Shader.updateMVP
      { Shader.new sqrtQ with
        modelMatrix := Matrix4x4.translation 0 0 1
        lights := [{ Light.default with direction := ⟨0, 0, -1⟩ }] } }

/-- The mesh of the small scene: one triangle in the plane `z = -1/2` of model space, wound
so that its normal is `(0, 0, 1)`. -/
def sceneModel : Model :=
  ⟨[⟨0, 0, -1 / 2⟩, ⟨1, 0, -1 / 2⟩, ⟨0, 1, -1 / 2⟩], [], [], [Face.ofVertices 0 1 2]⟩

/-- A mesh whose single triangle has a corner beyond the far plane of the small scene. -/
def sceneModelFar : Model :=
  ⟨[⟨0, 0, -1 / 2⟩, ⟨1, 0, -1 / 2⟩, ⟨0, 1, 1 / 2⟩], [], [], [Face.ofVertices 0 1 2]⟩

/-- A mesh whose single triangle is drawn by the small scene at the screen vertices
`(-60, -60)`, `(200, -60)`, `(-60, 200)`: each of them is more than 50 pixels away from the
`4 × 4` image, and the triangle contains the whole image. -/
def sceneModelCovering : Model :=
  ⟨[⟨-31, -31, -1 / 2⟩, ⟨99, -31, -1 / 2⟩, ⟨-31, 99, -1 / 2⟩], [], [], [Face.ofVertices 0 1 2]⟩

/-! ## Sequences of calls on a framebuffer -/

/-- A call of one of the four mutating methods of `Framebuffer`; a call of `drawLine` carries
the fuel of its loop. -/
inductive FbCall where
  | clear (color : Color)
  | setPixel (x y : Int) (color : Color) (depth : ℚ)
  | drawLine (fuel : Nat) (x0 y0 x1 y1 : Int) (color : Color)
  | drawTriangle (v0 v1 v2 : Vec3) (color : Color)

/-- The framebuffer after one call; `drawLine` is the method on 32-bit `int`s, and the result
is `none` when its loop does not reach the `break` within the fuel. -/
def Framebuffer.call (fb : Framebuffer) : FbCall → Option Framebuffer
  | .clear color => some (fb.clear color)
  | .setPixel x y color depth => some (fb.setPixel x y color depth)
  | .drawLine fuel x0 y0 x1 y1 color =>
    (Framebuffer.drawLine32 fuel fb x0 y0 x1 y1 color).map Prod.fst
  | .drawTriangle v0 v1 v2 color => some (fb.drawTriangle v0 v1 v2 color)

/-- The arguments of a `drawLine` call for which no operation of the method overflows and the
fuel suffices: the four coordinates are `int` values, `|x1 - x0|` and `|y1 - y0|` are below
`2^29`, and the fuel exceeds `max(|x1 - x0|, |y1 - y0|)`.  Calls of the other methods carry no
condition. -/
def FbCall.InRange : FbCall → Prop
  | .drawLine fuel x0 y0 x1 y1 _ =>
    Int32Range x0 ∧ Int32Range y0 ∧ Int32Range x1 ∧ Int32Range y1 ∧
    |x1 - x0| < 536870912 ∧ |y1 - y0| < 536870912 ∧
    (max |x1 - x0| |y1 - y0|).toNat < fuel
  | _ => True

instance (c : FbCall) : Decidable c.InRange := by
  cases c <;> unfold FbCall.InRange <;> infer_instance

/-- The framebuffer after a sequence of calls. -/
def Framebuffer.calls : Framebuffer → List FbCall → Option Framebuffer
  | fb, [] => some fb
  | fb, c :: cs =>
    match fb.call c with
    | some fb1 => fb1.calls cs
    | none => none

end RenderEngine

/-! ## Basic facts about the pixel grid -/

namespace RenderEngine

namespace Framebuffer

theorem index_lt {fb : Framebuffer} {x y : Int} (h : fb.inBounds x y) :
    fb.index x y < (fb.width * fb.height).toNat := by
  obtain ⟨hx0, hxw, hy0, hyh⟩ := h
  unfold index
  have h1 : y * fb.width + x < fb.width * fb.height := by nlinarith
  have h2 : 0 ≤ y * fb.width + x := by nlinarith
  omega

theorem index_inj {fb : Framebuffer} {x y x' y' : Int} (h : fb.inBounds x y)
    (h' : fb.inBounds x' y') (he : fb.index x y = fb.index x' y') : x = x' ∧ y = y' := by
  obtain ⟨hx0, hxw, hy0, hyh⟩ := h
  obtain ⟨hx0', hxw', hy0', hyh'⟩ := h'
  unfold index at he
  have h2 : 0 ≤ y * fb.width + x := by nlinarith
  have h2' : 0 ≤ y' * fb.width + x' := by nlinarith
  have he' : y * fb.width + x = y' * fb.width + x' := by omega
  have hy : y = y' := by
    rcases lt_trichotomy y y' with hlt | heq | hgt
    · exfalso
      have : (y' - y) * fb.width ≥ 1 * fb.width := by
        apply Int.mul_le_mul_of_nonneg_right <;> omega
      nlinarith
    · exact heq
    · exfalso
      have : (y - y') * fb.width ≥ 1 * fb.width := by
        apply Int.mul_le_mul_of_nonneg_right <;> omega
      nlinarith
  subst hy
  exact ⟨by omega, rfl⟩

/-- The stored depth read by the depth test of `setPixel` is `getDepth` for an in-bounds
coordinate. -/
theorem getDepth_of_inBounds {fb : Framebuffer} {x y : Int} (h : fb.inBounds x y) :
    fb.getDepth x y = fb.depthBuffer.getD (fb.index x y) 0 := by
  unfold getDepth; rw [if_pos h]

theorem getPixel_of_inBounds {fb : Framebuffer} {x y : Int} (h : fb.inBounds x y) :
    fb.getPixel x y = fb.colorBuffer.getD (fb.index x y) Color.default := by
  unfold getPixel; rw [if_pos h]

/-- The two tests of `setPixel` as one condition. -/
theorem setPixel_eq (fb : Framebuffer) (x y : Int) (c : Color) (d : ℚ) :
    fb.setPixel x y c d =
      if fb.inBounds x y ∧ d < fb.getDepth x y then
        { fb with
          colorBuffer := fb.colorBuffer.set (fb.index x y) c
          depthBuffer := fb.depthBuffer.set (fb.index x y) d }
      else fb := by
  unfold setPixel
  by_cases hb : fb.inBounds x y
  · rw [if_pos hb, getDepth_of_inBounds hb]
    by_cases hd : d < fb.depthBuffer.getD (fb.index x y) 0
    · rw [if_pos hd, if_pos ⟨hb, hd⟩]
    · rw [if_neg hd, if_neg (fun h => hd h.2)]
  · rw [if_neg hb, if_neg (fun h => hb h.1)]

/-- A failed bounds or depth test leaves the framebuffer as it is. -/
theorem setPixel_of_not (fb : Framebuffer) (x y : Int) (c : Color) (d : ℚ)
    (h : ¬ (fb.inBounds x y ∧ d < fb.getDepth x y)) : fb.setPixel x y c d = fb := by
  rw [setPixel_eq, if_neg h]

/-- A passed test writes both vectors at the index of `(x, y)`. -/
theorem setPixel_of_pass (fb : Framebuffer) (x y : Int) (c : Color) (d : ℚ)
    (hb : fb.inBounds x y) (hd : d < fb.getDepth x y) :
    fb.setPixel x y c d =
      { fb with
        colorBuffer := fb.colorBuffer.set (fb.index x y) c
        depthBuffer := fb.depthBuffer.set (fb.index x y) d } := by
  rw [setPixel_eq, if_pos ⟨hb, hd⟩]

@[simp] theorem setPixel_width (fb : Framebuffer) (x y : Int) (c : Color) (d : ℚ) :
    (fb.setPixel x y c d).width = fb.width := by
  rw [setPixel_eq]; split_ifs <;> rfl

@[simp] theorem setPixel_height (fb : Framebuffer) (x y : Int) (c : Color) (d : ℚ) :
    (fb.setPixel x y c d).height = fb.height := by
  rw [setPixel_eq]; split_ifs <;> rfl

theorem setPixel_WF {fb : Framebuffer} (h : fb.WF) (x y : Int) (c : Color) (d : ℚ) :
    (fb.setPixel x y c d).WF := by
  rw [setPixel_eq]; split_ifs
  · exact ⟨by simpa using h.1, by simpa using h.2⟩
  · exact h

@[simp] theorem setPixel_inBounds (fb : Framebuffer) (x y : Int) (c : Color) (d : ℚ)
    (x' y' : Int) : (fb.setPixel x y c d).inBounds x' y' ↔ fb.inBounds x' y' := by
  simp [inBounds]

@[simp] theorem setPixel_index (fb : Framebuffer) (x y : Int) (c : Color) (d : ℚ)
    (x' y' : Int) : (fb.setPixel x y c d).index x' y' = fb.index x' y' := by
  simp [index]

theorem getPixel_setPixel_self {fb : Framebuffer} (hwf : fb.WF) (x y : Int) (c : Color)
    (d : ℚ) (hb : fb.inBounds x y) (hd : d < fb.getDepth x y) :
    (fb.setPixel x y c d).getPixel x y = c := by
  have hlt := index_lt hb
  rw [getPixel_of_inBounds (by simpa using hb), setPixel_index, setPixel_of_pass fb x y c d hb hd]
  simp [List.getD_eq_getElem?_getD, List.getElem?_set, hwf.1, hlt]

theorem getDepth_setPixel_self {fb : Framebuffer} (hwf : fb.WF) (x y : Int) (c : Color)
    (d : ℚ) (hb : fb.inBounds x y) (hd : d < fb.getDepth x y) :
    (fb.setPixel x y c d).getDepth x y = d := by
  have hlt := index_lt hb
  rw [getDepth_of_inBounds (by simpa using hb), setPixel_index, setPixel_of_pass fb x y c d hb hd]
  simp [List.getD_eq_getElem?_getD, List.getElem?_set, hwf.2, hlt]

/-- Entries of the two vectors at an index other than that of `(x, y)` are kept. -/
theorem setPixel_getElem?_ne (fb : Framebuffer) (x y : Int) (c : Color) (d : ℚ) (i : Nat)
    (hi : i ≠ fb.index x y) :
    (fb.setPixel x y c d).colorBuffer[i]? = fb.colorBuffer[i]? ∧
    (fb.setPixel x y c d).depthBuffer[i]? = fb.depthBuffer[i]? := by
  rw [setPixel_eq]
  split_ifs
  · simp [List.getElem?_set, Ne.symm hi]
  · simp

theorem setPixel_other (fb : Framebuffer) (x y : Int) (c : Color) (d : ℚ) (x' y' : Int)
    (hne : (x', y') ≠ (x, y)) :
    (fb.setPixel x y c d).getPixel x' y' = fb.getPixel x' y' ∧
    (fb.setPixel x y c d).getDepth x' y' = fb.getDepth x' y' := by
  by_cases hb : fb.inBounds x y
  · by_cases hb' : fb.inBounds x' y'
    · have hi : fb.index x' y' ≠ fb.index x y := by
        intro he
        obtain ⟨h1, h2⟩ := index_inj hb' hb he
        exact hne (by rw [h1, h2])
      obtain ⟨h1, h2⟩ := setPixel_getElem?_ne fb x y c d _ hi
      rw [getPixel_of_inBounds (by simpa using hb'), getDepth_of_inBounds (by simpa using hb'),
        getPixel_of_inBounds hb', getDepth_of_inBounds hb']
      simp [List.getD_eq_getElem?_getD, h1, h2]
    · simp [getPixel, getDepth, hb']
  · rw [setPixel_of_not fb x y c d (fun h => hb h.1)]
    exact ⟨rfl, rfl⟩

theorem clear_WF {fb : Framebuffer} (h : fb.WF) (c : Color) : (fb.clear c).WF := by
  unfold clear WF
  simpa using h

/-- An `int` operation whose mathematical result is an `int` value stores that value. -/
theorem wrap32_of_range {n : Int} (h : Int32Range n) : wrap32 n = n := by
  unfold Int32Range at h
  unfold wrap32
  omega

/-- The constructor establishes the size invariant when `w * h` does not overflow. -/
theorem new_WF (w h : Int) (hr : Int32Range (w * h)) : (Framebuffer.new w h).WF := by
  unfold Framebuffer.new
  apply clear_WF
  simp [WF, wrap32_of_range hr]

@[simp] theorem clear_inBounds (fb : Framebuffer) (c : Color) (x y : Int) :
    (fb.clear c).inBounds x y ↔ fb.inBounds x y := Iff.rfl

/-- After `clear` every in-bounds pixel holds the clear colour and the sentinel depth. -/
theorem clear_get {fb : Framebuffer} (hwf : fb.WF) (c : Color) {x y : Int}
    (hb : fb.inBounds x y) :
    (fb.clear c).getPixel x y = c ∧ (fb.clear c).getDepth x y = FLT_MAX := by
  have hlt := index_lt hb
  have hi : (fb.clear c).index x y = fb.index x y := rfl
  rw [getPixel_of_inBounds (by simpa using hb), getDepth_of_inBounds (by simpa using hb), hi]
  unfold clear
  simp [List.getD_eq_getElem?_getD, List.getElem?_replicate, hwf.1, hwf.2, hlt]

/-- Two depth-tested writes at one pixel, the nearer one first or last: the nearer one stays. -/
theorem setPixel_pair {fb : Framebuffer} (hwf : fb.WF) {x y : Int} (hb : fb.inBounds x y)
    (c1 c2 : Color) {d1 d2 : ℚ} (h12 : d1 < d2) (h2 : d2 < fb.getDepth x y) :
    (((fb.setPixel x y c1 d1).setPixel x y c2 d2).getPixel x y = c1 ∧
      ((fb.setPixel x y c1 d1).setPixel x y c2 d2).getDepth x y = d1) ∧
    (((fb.setPixel x y c2 d2).setPixel x y c1 d1).getPixel x y = c1 ∧
      ((fb.setPixel x y c2 d2).setPixel x y c1 d1).getDepth x y = d1) := by
  have hp1 := getPixel_setPixel_self hwf x y c1 d1 hb (lt_trans h12 h2)
  have hd1 := getDepth_setPixel_self hwf x y c1 d1 hb (lt_trans h12 h2)
  have hd2 := getDepth_setPixel_self hwf x y c2 d2 hb h2
  constructor
  · rw [setPixel_of_not (fb.setPixel x y c1 d1) x y c2 d2
      (fun h => absurd h.2 (by rw [hd1]; exact not_lt.mpr (le_of_lt h12)))]
    exact ⟨hp1, hd1⟩
  · have hwf2 := setPixel_WF hwf x y c2 d2
    have hb2 : (fb.setPixel x y c2 d2).inBounds x y := by simpa using hb
    exact ⟨getPixel_setPixel_self hwf2 x y c1 d1 hb2 (by rw [hd2]; exact h12),
      getDepth_setPixel_self hwf2 x y c1 d1 hb2 (by rw [hd2]; exact h12)⟩

/-! ### A triangle as a sequence of depth-tested writes -/

theorem cell_setPixel {fb : Framebuffer} (hwf : fb.WF) (x y : Int) (c : Color) (d : ℚ)
    {x' y' : Int} (hb : fb.inBounds x' y') :
    (fb.setPixel x y c d).cell x' y' =
      if x = x' ∧ y = y' then applyNearest (some d) c (fb.cell x' y') else fb.cell x' y' := by
  unfold cell
  by_cases he : x = x' ∧ y = y'
  · obtain ⟨rfl, rfl⟩ := he
    simp only [and_self, if_true, applyNearest]
    by_cases hd : d < fb.getDepth x y
    · rw [if_pos hd, getPixel_setPixel_self hwf x y c d hb hd,
        getDepth_setPixel_self hwf x y c d hb hd]
    · rw [if_neg hd, setPixel_of_not fb x y c d (fun h => hd h.2)]
  · rw [if_neg he]
    have hne : (x', y') ≠ (x, y) := by
      intro h
      obtain ⟨h1, h2⟩ := Prod.mk.inj h
      exact he ⟨h1.symm, h2.symm⟩
    obtain ⟨h1, h2⟩ := setPixel_other fb x y c d x' y' hne
    rw [h1, h2]

theorem paint_nil (c : Color) (fb : Framebuffer) : paint c fb [] = fb := rfl

theorem paint_cons (c : Color) (fb : Framebuffer) (f : Int × Int × ℚ)
    (fs : List (Int × Int × ℚ)) :
    paint c fb (f :: fs) = paint c (fb.setPixel f.1 f.2.1 c f.2.2) fs := rfl

theorem paint_append (c : Color) (fb : Framebuffer) (fs gs : List (Int × Int × ℚ)) :
    paint c fb (fs ++ gs) = paint c (paint c fb fs) gs := by
  unfold paint; rw [List.foldl_append]

theorem paint_dims (c : Color) (fb : Framebuffer) (fs : List (Int × Int × ℚ)) :
    (paint c fb fs).width = fb.width ∧ (paint c fb fs).height = fb.height := by
  induction fs generalizing fb with
  | nil => exact ⟨rfl, rfl⟩
  | cons f fs ih =>
    rw [paint_cons]
    obtain ⟨h1, h2⟩ := ih (fb.setPixel f.1 f.2.1 c f.2.2)
    rw [h1, h2]
    exact ⟨setPixel_width _ _ _ _ _, setPixel_height _ _ _ _ _⟩

theorem paint_WF (c : Color) {fb : Framebuffer} (hwf : fb.WF) (fs : List (Int × Int × ℚ)) :
    (paint c fb fs).WF := by
  induction fs generalizing fb with
  | nil => exact hwf
  | cons f fs ih => rw [paint_cons]; exact ih (setPixel_WF hwf _ _ _ _)

theorem paint_inBounds (c : Color) (fb : Framebuffer) (fs : List (Int × Int × ℚ))
    (x y : Int) : (paint c fb fs).inBounds x y ↔ fb.inBounds x y := by
  unfold inBounds
  rw [(paint_dims c fb fs).1, (paint_dims c fb fs).2]

theorem nearest_cons (x y : Int) (f : Int × Int × ℚ) (fs : List (Int × Int × ℚ)) :
    nearest x y (f :: fs) =
      if f.1 = x ∧ f.2.1 = y then
        some (match nearest x y fs with
          | none => f.2.2
          | some m => min f.2.2 m)
      else nearest x y fs := rfl

/-- The effect of a sequence of writes of one colour on an in-bounds pixel: a single
depth-tested write with the least depth addressed to that pixel. -/
theorem cell_paint (c : Color) {fb : Framebuffer} (hwf : fb.WF) (fs : List (Int × Int × ℚ))
    {x y : Int} (hb : fb.inBounds x y) :
    (paint c fb fs).cell x y = applyNearest (nearest x y fs) c (fb.cell x y) := by
  induction fs generalizing fb with
  | nil => rfl
  | cons f fs ih =>
    rw [paint_cons, ih (setPixel_WF hwf _ _ _ _) (by simpa using hb),
      cell_setPixel hwf _ _ _ _ hb, nearest_cons]
    by_cases he : f.1 = x ∧ f.2.1 = y
    · rw [if_pos he, if_pos he]
      cases hn : nearest x y fs with
      | none => simp only [applyNearest]
      | some m =>
        simp only [applyNearest]
        by_cases h1 : f.2.2 < (fb.cell x y).2
        · rw [if_pos h1]
          have h2 : min f.2.2 m < (fb.cell x y).2 := lt_of_le_of_lt (min_le_left _ _) h1
          rw [if_pos h2]
          by_cases h3 : m < f.2.2
          · rw [if_pos h3, min_eq_right (le_of_lt h3)]
          · rw [if_neg h3, min_eq_left (not_lt.mp h3)]
        · rw [if_neg h1]
          by_cases h3 : m < (fb.cell x y).2
          · have h4 : min f.2.2 m = m := min_eq_right (le_trans (le_of_lt h3) (not_lt.mp h1))
            rw [if_pos h3, h4, if_pos h3]
          · have h4 : ¬ min f.2.2 m < (fb.cell x y).2 := by
              rw [not_lt, le_min_iff]; exact ⟨not_lt.mp h1, not_lt.mp h3⟩
            rw [if_neg h3, if_neg h4]
    · rw [if_neg he, if_neg he]

theorem drawTriangleStep_eq (v0 v1 v2 : Vec3) (c : Color) (px : ℚ) (fb : Framebuffer)
    (py : ℚ) :
    drawTriangleStep v0 v1 v2 c px fb py =
      paint c fb (triangleFragment v0 v1 v2 px py).toList := by
  simp only [drawTriangleStep, triangleFragment]
  split_ifs <;> rfl

theorem foldl_drawTriangleStep (v0 v1 v2 : Vec3) (c : Color) (px : ℚ) (ys : List ℚ)
    (fb : Framebuffer) :
    ys.foldl (drawTriangleStep v0 v1 v2 c px) fb =
      paint c fb (ys.filterMap (triangleFragment v0 v1 v2 px)) := by
  induction ys generalizing fb with
  | nil => rfl
  | cons py ys ih =>
    rw [List.foldl_cons, ih, drawTriangleStep_eq]
    cases h : triangleFragment v0 v1 v2 px py with
    | none => simp [List.filterMap_cons, h, paint_nil]
    | some f => simp [List.filterMap_cons, h, paint_cons, paint_nil]

/-- The method `drawTriangle` is the sequence of writes `triangleFragments`. -/
theorem drawTriangle_eq_paint (fb : Framebuffer) (v0 v1 v2 : Vec3) (c : Color) :
    fb.drawTriangle v0 v1 v2 c =
      paint c fb (triangleFragments fb.width fb.height v0 v1 v2) := by
  unfold drawTriangle triangleFragments
  generalize forRange (bboxmin v0.x v1.x v2.x) (bboxmax ((fb.width - 1 : Int) : ℚ) v0.x v1.x v2.x)
    = xs
  generalize forRange (bboxmin v0.y v1.y v2.y)
    (bboxmax ((fb.height - 1 : Int) : ℚ) v0.y v1.y v2.y) = ys
  induction xs generalizing fb with
  | nil => rfl
  | cons px xs ih =>
    rw [List.foldl_cons, ih, foldl_drawTriangleStep, List.flatMap_cons, paint_append]

/-! ### Two sequences of writes in either order -/

theorem applyNearest_snd_comm (m1 m2 : Option ℚ) (c1 c2 : Color) (cell : Color × ℚ) :
    (applyNearest m2 c2 (applyNearest m1 c1 cell)).2 =
      (applyNearest m1 c1 (applyNearest m2 c2 cell)).2 := by
  obtain ⟨p, d⟩ := cell
  cases m1 <;> cases m2 <;> simp only [applyNearest]
  rename_i z1 z2
  by_cases h1 : z1 < d <;> by_cases h2 : z2 < d <;> by_cases h3 : z1 < z2 <;>
    by_cases h4 : z2 < z1 <;> simp [h1, h2, h3, h4] <;> linarith

theorem applyNearest_fst_comm (m1 m2 : Option ℚ) (c1 c2 : Color) (cell : Color × ℚ)
    (h : (applyNearest m1 c1 cell).2 ≠ (applyNearest m2 c2 cell).2 ∨
      (applyNearest m1 c1 cell).2 = cell.2 ∨ c1 = c2) :
    (applyNearest m2 c2 (applyNearest m1 c1 cell)).1 =
      (applyNearest m1 c1 (applyNearest m2 c2 cell)).1 := by
  obtain ⟨p, d⟩ := cell
  cases m1 <;> cases m2 <;> simp only [applyNearest] at h ⊢
  rename_i z1 z2
  by_cases h1 : z1 < d <;> by_cases h2 : z2 < d <;> by_cases h3 : z1 < z2 <;>
    by_cases h4 : z2 < z1 <;> simp [h1, h2, h3, h4] at h ⊢ <;>
    first
      | linarith
      | (rcases h with h | h | h <;> first | exact h | exact h.symm | linarith | (exfalso; apply h; linarith))

theorem applyNearest_tie (m1 m2 : Option ℚ) (c1 c2 : Color) (cell : Color × ℚ)
    (he : (applyNearest m1 c1 cell).2 = (applyNearest m2 c2 cell).2)
    (hlt : (applyNearest m1 c1 cell).2 < cell.2) :
    (applyNearest m2 c2 (applyNearest m1 c1 cell)).1 = c1 ∧
      (applyNearest m1 c1 (applyNearest m2 c2 cell)).1 = c2 := by
  obtain ⟨p, d⟩ := cell
  cases m1 <;> cases m2 <;> simp only [applyNearest] at he hlt ⊢
  · exact absurd hlt (lt_irrefl _)
  · exact absurd hlt (lt_irrefl _)
  · rename_i z1
    by_cases h1 : z1 < d
    · simp [h1] at he; linarith
    · simp [h1] at hlt
  · rename_i z1 z2
    by_cases h1 : z1 < d
    · by_cases h2 : z2 < d
      · simp [h1, h2] at he hlt ⊢
        subst he
        simp
      · simp [h1, h2] at he hlt ⊢
        linarith
    · simp [h1] at hlt

theorem drawTriangle_dims (fb : Framebuffer) (v0 v1 v2 : Vec3) (c : Color) :
    (fb.drawTriangle v0 v1 v2 c).width = fb.width ∧
    (fb.drawTriangle v0 v1 v2 c).height = fb.height := by
  rw [drawTriangle_eq_paint]; exact paint_dims _ _ _

theorem drawTriangle_WF {fb : Framebuffer} (hwf : fb.WF) (v0 v1 v2 : Vec3) (c : Color) :
    (fb.drawTriangle v0 v1 v2 c).WF := by
  rw [drawTriangle_eq_paint]; exact paint_WF _ hwf _

/-- Every index of the vectors of a framebuffer of positive width is the index of an
in-bounds coordinate. -/
theorem exists_coord {fb : Framebuffer} (hw : 0 < fb.width) {i : Nat}
    (hi : i < (fb.width * fb.height).toNat) :
    ∃ x y : Int, fb.inBounds x y ∧ fb.index x y = i := by
  have hi' : (i : Int) < fb.height * fb.width := by
    have : (i : Int) < fb.width * fb.height := by omega
    rwa [mul_comm] at this
  refine ⟨(i : Int) % fb.width, (i : Int) / fb.width,
    ⟨Int.emod_nonneg _ (ne_of_gt hw), Int.emod_lt_of_pos _ hw,
      Int.ediv_nonneg (Int.ofNat_nonneg i) (le_of_lt hw), Int.ediv_lt_of_lt_mul hw hi'⟩, ?_⟩
  unfold index
  have h := Int.ediv_add_emod (i : Int) fb.width
  rw [mul_comm] at h
  rw [h]
  exact Int.toNat_ofNat i

/-- Two well-formed framebuffers of the same dimensions that agree on the colour and depth of
every in-bounds pixel are equal. -/
theorem ext_of_cell {fb1 fb2 : Framebuffer} (h1 : fb1.WF) (h2 : fb2.WF)
    (hw : fb2.width = fb1.width) (hh : fb2.height = fb1.height) (hpos : 0 < fb1.width)
    (hc : ∀ x y : Int, fb1.inBounds x y → fb1.cell x y = fb2.cell x y) : fb1 = fb2 := by
  have hcol : fb1.colorBuffer = fb2.colorBuffer := by
    apply List.ext_getElem
    · rw [h1.1, h2.1, hw, hh]
    · intro i hi1 hi2
      obtain ⟨x, y, hb, hidx⟩ := exists_coord hpos (by rw [← h1.1]; exact hi1)
      have hb2 : fb2.inBounds x y := by unfold inBounds; rw [hw, hh]; exact hb
      have hidx2 : fb2.index x y = i := by unfold index; rw [hw]; exact hidx
      have := congrArg Prod.fst (hc x y hb)
      simp only [cell] at this
      rw [getPixel_of_inBounds hb, getPixel_of_inBounds hb2, hidx, hidx2,
        List.getD_eq_getElem _ _ hi1, List.getD_eq_getElem _ _ hi2] at this
      exact this
  have hdep : fb1.depthBuffer = fb2.depthBuffer := by
    apply List.ext_getElem
    · rw [h1.2, h2.2, hw, hh]
    · intro i hi1 hi2
      obtain ⟨x, y, hb, hidx⟩ := exists_coord hpos (by rw [← h1.2]; exact hi1)
      have hb2 : fb2.inBounds x y := by unfold inBounds; rw [hw, hh]; exact hb
      have hidx2 : fb2.index x y = i := by unfold index; rw [hw]; exact hidx
      have := congrArg Prod.snd (hc x y hb)
      simp only [cell] at this
      rw [getDepth_of_inBounds hb, getDepth_of_inBounds hb2, hidx, hidx2,
        List.getD_eq_getElem _ _ hi1, List.getD_eq_getElem _ _ hi2] at this
      exact this
  cases fb1; cases fb2
  simp only [Framebuffer.mk.injEq]
  exact ⟨hw.symm, hh.symm, hcol, hdep⟩

/-- A framebuffer without in-bounds coordinates is never changed by writes. -/
theorem paint_of_width_nonpos (c : Color) {fb : Framebuffer} (hw : ¬ 0 < fb.width)
    (fs : List (Int × Int × ℚ)) : paint c fb fs = fb := by
  induction fs with
  | nil => rfl
  | cons f fs ih =>
    rw [paint_cons, setPixel_of_not fb _ _ _ _ (fun h => hw (by unfold inBounds at h; omega))]
    exact ih

/-- Equality of depth vectors from equality of the depths of all in-bounds pixels. -/
theorem depthBuffer_ext {fb1 fb2 : Framebuffer} (h1 : fb1.WF) (h2 : fb2.WF)
    (hw : fb2.width = fb1.width) (hh : fb2.height = fb1.height) (hpos : 0 < fb1.width)
    (hc : ∀ x y : Int, fb1.inBounds x y → fb1.getDepth x y = fb2.getDepth x y) :
    fb1.depthBuffer = fb2.depthBuffer := by
  apply List.ext_getElem
  · rw [h1.2, h2.2, hw, hh]
  · intro i hi1 hi2
    obtain ⟨x, y, hb, hidx⟩ := exists_coord hpos (by rw [← h1.2]; exact hi1)
    have hb2 : fb2.inBounds x y := by unfold inBounds; rw [hw, hh]; exact hb
    have hidx2 : fb2.index x y = i := by unfold index; rw [hw]; exact hidx
    have := hc x y hb
    rw [getDepth_of_inBounds hb, getDepth_of_inBounds hb2, hidx, hidx2,
      List.getD_eq_getElem _ _ hi1, List.getD_eq_getElem _ _ hi2] at this
    exact this

theorem cell_paint_paint (cA cB : Color) {fb : Framebuffer} (hwf : fb.WF)
    (fsA fsB : List (Int × Int × ℚ)) {x y : Int} (hb : fb.inBounds x y) :
    (paint cB (paint cA fb fsA) fsB).cell x y =
      applyNearest (nearest x y fsB) cB (applyNearest (nearest x y fsA) cA (fb.cell x y)) := by
  rw [cell_paint cB (paint_WF cA hwf fsA) fsB ((paint_inBounds cA fb fsA x y).mpr hb),
    cell_paint cA hwf fsA hb]

theorem cell_of_not_inBounds {fb : Framebuffer} {x y : Int} (hb : ¬ fb.inBounds x y) :
    fb.cell x y = (Color.rgb 0 0 0, FLT_MAX) := by
  unfold cell getPixel getDepth
  rw [if_neg hb, if_neg hb]

/-- Two sequences of writes, of colours `cA` and `cB`, applied in either order to a
well-formed framebuffer. -/
theorem paint_order (cA cB : Color) {fb : Framebuffer} (hwf : fb.WF)
    (fsA fsB : List (Int × Int × ℚ)) :
    (paint cB (paint cA fb fsA) fsB).depthBuffer =
      (paint cA (paint cB fb fsB) fsA).depthBuffer ∧
    (∀ x y : Int, (paint cB (paint cA fb fsA) fsB).getDepth x y =
      (paint cA (paint cB fb fsB) fsA).getDepth x y) ∧
    (∀ x y : Int,
      ((paint cA fb fsA).getDepth x y ≠ (paint cB fb fsB).getDepth x y ∨
        (paint cA fb fsA).getDepth x y = fb.getDepth x y ∨ cA = cB) →
      (paint cB (paint cA fb fsA) fsB).getPixel x y =
        (paint cA (paint cB fb fsB) fsA).getPixel x y) ∧
    (∀ x y : Int, (paint cA fb fsA).getDepth x y = (paint cB fb fsB).getDepth x y →
      (paint cA fb fsA).getDepth x y < fb.getDepth x y →
      (paint cB (paint cA fb fsA) fsB).getPixel x y = cA ∧
        (paint cA (paint cB fb fsB) fsA).getPixel x y = cB) ∧
    ((∀ x y : Int, fb.inBounds x y →
        ((paint cA fb fsA).getDepth x y ≠ (paint cB fb fsB).getDepth x y ∨
          (paint cA fb fsA).getDepth x y = fb.getDepth x y ∨ cA = cB)) →
      paint cB (paint cA fb fsA) fsB = paint cA (paint cB fb fsB) fsA) := by
  have hAB := paint_WF cB (paint_WF cA hwf fsA) fsB
  have hBA := paint_WF cA (paint_WF cB hwf fsB) fsA
  have hdimAB : (paint cB (paint cA fb fsA) fsB).width = fb.width ∧
      (paint cB (paint cA fb fsA) fsB).height = fb.height := by
    rw [(paint_dims _ _ _).1, (paint_dims _ _ _).2]; exact paint_dims _ _ _
  have hdimBA : (paint cA (paint cB fb fsB) fsA).width = fb.width ∧
      (paint cA (paint cB fb fsB) fsA).height = fb.height := by
    rw [(paint_dims _ _ _).1, (paint_dims _ _ _).2]; exact paint_dims _ _ _
  have hinAB : ∀ x y, (paint cB (paint cA fb fsA) fsB).inBounds x y ↔ fb.inBounds x y := by
    intro x y; unfold inBounds; rw [hdimAB.1, hdimAB.2]
  have hinBA : ∀ x y, (paint cA (paint cB fb fsB) fsA).inBounds x y ↔ fb.inBounds x y := by
    intro x y; unfold inBounds; rw [hdimBA.1, hdimBA.2]
  -- the depth of every pixel
  have hdepth : ∀ x y : Int, (paint cB (paint cA fb fsA) fsB).getDepth x y =
      (paint cA (paint cB fb fsB) fsA).getDepth x y := by
    intro x y
    by_cases hb : fb.inBounds x y
    · have h1 := cell_paint_paint cA cB hwf fsA fsB hb
      have h2 := cell_paint_paint cB cA hwf fsB fsA hb
      have h3 := applyNearest_snd_comm (nearest x y fsA) (nearest x y fsB) cA cB (fb.cell x y)
      rw [← h1, ← h2] at h3
      exact h3
    · have h1 := cell_of_not_inBounds (fun h => hb ((hinAB x y).mp h))
      have h2 := cell_of_not_inBounds (fun h => hb ((hinBA x y).mp h))
      exact (congrArg Prod.snd h1).trans (congrArg Prod.snd h2).symm
  -- the colour of a pixel without a tie
  have hcolor : ∀ x y : Int,
      ((paint cA fb fsA).getDepth x y ≠ (paint cB fb fsB).getDepth x y ∨
        (paint cA fb fsA).getDepth x y = fb.getDepth x y ∨ cA = cB) →
      (paint cB (paint cA fb fsA) fsB).getPixel x y =
        (paint cA (paint cB fb fsB) fsA).getPixel x y := by
    intro x y hcond
    by_cases hb : fb.inBounds x y
    · have h1 := cell_paint_paint cA cB hwf fsA fsB hb
      have h2 := cell_paint_paint cB cA hwf fsB fsA hb
      have hA := cell_paint cA hwf fsA hb
      have hB := cell_paint cB hwf fsB hb
      have h3 := applyNearest_fst_comm (nearest x y fsA) (nearest x y fsB) cA cB (fb.cell x y)
        (by rw [← hA, ← hB]; exact hcond)
      rw [← h1, ← h2] at h3
      exact h3
    · have h1 := cell_of_not_inBounds (fun h => hb ((hinAB x y).mp h))
      have h2 := cell_of_not_inBounds (fun h => hb ((hinBA x y).mp h))
      exact (congrArg Prod.fst h1).trans (congrArg Prod.fst h2).symm
  refine ⟨?_, hdepth, hcolor, ?_, ?_⟩
  · by_cases hpos : 0 < fb.width
    · exact depthBuffer_ext hAB hBA (by rw [hdimBA.1, hdimAB.1]) (by rw [hdimBA.2, hdimAB.2])
        (by rw [hdimAB.1]; exact hpos) (fun x y _ => hdepth x y)
    · rw [paint_of_width_nonpos cA hpos fsA, paint_of_width_nonpos cB hpos fsB,
        paint_of_width_nonpos cA hpos fsA]
  · intro x y he hlt
    by_cases hb : fb.inBounds x y
    · have h1 := cell_paint_paint cA cB hwf fsA fsB hb
      have h2 := cell_paint_paint cB cA hwf fsB fsA hb
      have hA := cell_paint cA hwf fsA hb
      have hB := cell_paint cB hwf fsB hb
      have h3 := applyNearest_tie (nearest x y fsA) (nearest x y fsB) cA cB (fb.cell x y)
        (by rw [← hA, ← hB]; exact he) (by rw [← hA]; exact hlt)
      rw [← h1, ← h2] at h3
      exact h3
    · exfalso
      have h1 := cell_of_not_inBounds
        (fun h => hb ((paint_inBounds cA fb fsA x y).mp h))
      have h2 := cell_of_not_inBounds hb
      have h3 : (paint cA fb fsA).getDepth x y = fb.getDepth x y :=
        (congrArg Prod.snd h1).trans (congrArg Prod.snd h2).symm
      rw [h3] at hlt
      exact lt_irrefl _ hlt
  · intro hall
    by_cases hpos : 0 < fb.width
    · apply ext_of_cell hAB hBA (by rw [hdimBA.1, hdimAB.1]) (by rw [hdimBA.2, hdimAB.2])
        (by rw [hdimAB.1]; exact hpos)
      intro x y hb
      have hb' := (hinAB x y).mp hb
      unfold cell
      rw [hdepth x y, hcolor x y (hall x y hb')]
    · rw [paint_of_width_nonpos cA hpos fsA, paint_of_width_nonpos cB hpos fsB,
        paint_of_width_nonpos cA hpos fsA]

/-! ### Sample points of `drawTriangle` -/

theorem mem_forRange {lo hi q : ℚ} (h : q ∈ forRange lo hi) :
    ∃ k : Nat, q = lo + (k : ℚ) ∧ q ≤ hi := by
  unfold forRange at h
  split_ifs at h with hle
  · obtain ⟨k, hk, rfl⟩ := List.mem_map.mp h
    refine ⟨k, rfl, ?_⟩
    have hk' : k < ⌊hi - lo⌋.toNat + 1 := List.mem_range.mp hk
    have h0 : 0 ≤ ⌊hi - lo⌋ := Int.floor_nonneg.mpr (by linarith)
    have h1 : (k : Int) ≤ ⌊hi - lo⌋ := by omega
    have h2 : ((k : Int) : ℚ) ≤ hi - lo := Int.le_floor.mp h1
    have h3 : ((k : Int) : ℚ) = (k : ℚ) := Int.cast_natCast k
    linarith
  · simp at h

theorem bboxmin_nonneg (a b c : ℚ) : 0 ≤ bboxmin a b c := le_max_left _ _

theorem truncToInt_of_nonneg {q : ℚ} (h : 0 ≤ q) : truncToInt q = ⌊q⌋ := by
  unfold truncToInt; rw [if_pos h]

/-- A pixel addressed by some call of a sequence is the target of one of its calls. -/
theorem exists_mem_of_nearest {x y : Int} {fs : List (Int × Int × ℚ)}
    (h : nearest x y fs ≠ none) : ∃ f ∈ fs, f.1 = x ∧ f.2.1 = y := by
  induction fs with
  | nil => exact absurd rfl h
  | cons f fs ih =>
    rw [nearest_cons] at h
    by_cases he : f.1 = x ∧ f.2.1 = y
    · exact ⟨f, List.mem_cons_self _ _, he⟩
    · rw [if_neg he] at h
      obtain ⟨g, hg, hgx⟩ := ih h
      exact ⟨g, List.mem_cons_of_mem _ hg, hgx⟩

/-- A call of `drawTriangle` comes from a sample point of the two loops that passed the
barycentric test. -/
theorem mem_triangleFragments {w h : Int} {v0 v1 v2 : Vec3} {f : Int × Int × ℚ}
    (hf : f ∈ triangleFragments w h v0 v1 v2) :
    ∃ qx qy : ℚ,
      qx ∈ forRange (bboxmin v0.x v1.x v2.x) (bboxmax ((w - 1 : Int) : ℚ) v0.x v1.x v2.x) ∧
      qy ∈ forRange (bboxmin v0.y v1.y v2.y) (bboxmax ((h - 1 : Int) : ℚ) v0.y v1.y v2.y) ∧
      insideTriangle v0 v1 v2 qx qy ∧ f.1 = truncToInt qx ∧ f.2.1 = truncToInt qy := by
  unfold triangleFragments at hf
  obtain ⟨qx, hqx, hf'⟩ := List.mem_flatMap.mp hf
  obtain ⟨qy, hqy, hfr⟩ := List.mem_filterMap.mp hf'
  refine ⟨qx, qy, hqx, hqy, ?_⟩
  unfold triangleFragment at hfr
  split_ifs at hfr with hout
  have hf := (Option.some.inj hfr).symm
  subst hf
  refine ⟨?_, rfl, rfl⟩
  unfold insideTriangle
  push_neg at hout
  exact hout

/-- A pixel whose colour or depth is changed by a sequence of writes is addressed by one of
its calls. -/
theorem nearest_of_cell_ne (c : Color) {fb : Framebuffer} (hwf : fb.WF)
    (fs : List (Int × Int × ℚ)) {x y : Int} (h : (paint c fb fs).cell x y ≠ fb.cell x y) :
    fb.inBounds x y ∧ nearest x y fs ≠ none := by
  by_cases hb : fb.inBounds x y
  · refine ⟨hb, fun hn => h ?_⟩
    rw [cell_paint c hwf fs hb, hn]
    rfl
  · exfalso
    apply h
    rw [cell_of_not_inBounds hb,
      cell_of_not_inBounds (fun h' => hb ((paint_inBounds c fb fs x y).mp h'))]

/-- A degenerate triangle makes the loop body of `drawTriangle` skip every sample point. -/
theorem triangleFragment_of_degenerate (v0 v1 v2 : Vec3) (px py : ℚ)
    (h : |(v1.y - v2.y) * (v0.x - v2.x) + (v2.x - v1.x) * (v0.y - v2.y)| < 1 / 1000) :
    triangleFragment v0 v1 v2 px py = none := by
  have hb : barycentric ⟨px, py⟩ ⟨v0.x, v0.y⟩ ⟨v1.x, v1.y⟩ ⟨v2.x, v2.y⟩ = ⟨-1, 0, 0⟩ := by
    simp only [barycentric]
    rw [if_pos h]
  unfold triangleFragment
  rw [hb, if_pos (Or.inl (by norm_num))]

theorem triangleFragments_of_degenerate (w h : Int) (v0 v1 v2 : Vec3)
    (hd : |(v1.y - v2.y) * (v0.x - v2.x) + (v2.x - v1.x) * (v0.y - v2.y)| < 1 / 1000) :
    triangleFragments w h v0 v1 v2 = [] := by
  unfold triangleFragments
  rw [List.flatMap_eq_nil_iff]
  intro px _
  rw [List.filterMap_eq_nil_iff]
  intro py _
  exact triangleFragment_of_degenerate v0 v1 v2 px py hd

/-- The denominator of `barycentric` is twice the signed area of the triangle. -/
theorem denom_eq_twiceArea (v0 v1 v2 : Vec3) :
    (v1.y - v2.y) * (v0.x - v2.x) + (v2.x - v1.x) * (v0.y - v2.y) = twiceArea v0 v1 v2 := by
  unfold twiceArea; ring

/-- The loop variable of `for (t = lo; t <= hi; t++)` takes exactly the values `lo + k` that
do not exceed `hi`. -/
theorem mem_forRange_iff (lo hi q : ℚ) :
    q ∈ forRange lo hi ↔ ∃ k : Nat, q = lo + (k : ℚ) ∧ q ≤ hi := by
  constructor
  · exact mem_forRange
  · rintro ⟨k, rfl, hle⟩
    have hk0 : (0 : ℚ) ≤ (k : ℚ) := Nat.cast_nonneg k
    unfold forRange
    rw [if_pos (by linarith)]
    refine List.mem_map.mpr ⟨k, List.mem_range.mpr ?_, rfl⟩
    have h1 : ((k : Int) : ℚ) ≤ hi - lo := by
      rw [Int.cast_natCast]; linarith
    have h2 : (k : Int) ≤ ⌊hi - lo⌋ := Int.le_floor.mpr h1
    omega

/-- A pixel changed by `drawTriangle` is the truncation of a sample point of the loops that
passed the barycentric test. -/
theorem sample_of_changed {fb : Framebuffer} (hwf : fb.WF) (v0 v1 v2 : Vec3) (color : Color)
    {px py : Int} (h : (fb.drawTriangle v0 v1 v2 color).cell px py ≠ fb.cell px py) :
    ∃ (i j : Nat), truncToInt (bboxmin v0.x v1.x v2.x + (i : ℚ)) = px ∧
      truncToInt (bboxmin v0.y v1.y v2.y + (j : ℚ)) = py ∧
      insideTriangle v0 v1 v2 (bboxmin v0.x v1.x v2.x + (i : ℚ))
        (bboxmin v0.y v1.y v2.y + (j : ℚ)) := by
  rw [drawTriangle_eq_paint] at h
  obtain ⟨_, hn⟩ := nearest_of_cell_ne color hwf _ h
  obtain ⟨f, hf, hfx, hfy⟩ := exists_mem_of_nearest hn
  obtain ⟨qx, qy, hqx, hqy, hin, htx, hty⟩ := mem_triangleFragments hf
  obtain ⟨i, rfl, _⟩ := mem_forRange hqx
  obtain ⟨j, rfl, _⟩ := mem_forRange hqy
  exact ⟨i, j, by rw [← htx, hfx], by rw [← hty, hfy], hin⟩

theorem cell_ne_of_changed {fb1 fb2 : Framebuffer} {x y : Int}
    (h : fb1.getPixel x y ≠ fb2.getPixel x y ∨ fb1.getDepth x y ≠ fb2.getDepth x y) :
    fb1.cell x y ≠ fb2.cell x y := by
  intro he
  rcases h with h | h
  · exact h (congrArg Prod.fst he)
  · exact h (congrArg Prod.snd he)

/-! ### The loop of `drawLine` -/

theorem drawLineLoop_succ (color : Color) (x1 y1 dx dy sx sy : Int) (fuel : Nat)
    (fb : Framebuffer) (x0 y0 err : Int) :
    drawLineLoop color x1 y1 dx dy sx sy (fuel + 1) fb x0 y0 err =
      if x0 = x1 ∧ y0 = y1 then some (fb.setPixel x0 y0 color 0, [(x0, y0)])
      else
        (drawLineLoop color x1 y1 dx dy sx sy fuel (fb.setPixel x0 y0 color 0)
          (if 2 * err > -dy then x0 + sx else x0)
          (if 2 * err < dx then y0 + sy else y0)
          (if 2 * err < dx then (if 2 * err > -dy then err - dy else err) + dx
            else (if 2 * err > -dy then err - dy else err))).map
          (fun r => (r.1, (x0, y0) :: r.2)) := rfl

/-- The calls of a line as a sequence of writes: every call has depth `0`. -/
theorem drawLineLoop_paint (color : Color) (x1 y1 dx dy sx sy : Int) (fuel : Nat) :
    ∀ (fb : Framebuffer) (x0 y0 err : Int) (r : Framebuffer × List (Int × Int)),
      drawLineLoop color x1 y1 dx dy sx sy fuel fb x0 y0 err = some r →
      r.1 = paint color fb (r.2.map (fun p => (p.1, p.2, (0 : ℚ)))) ∧
      ∃ tl, r.2 = (x0, y0) :: tl := by
  induction fuel with
  | zero => intro fb x0 y0 err r h; exact absurd h (by simp [drawLineLoop])
  | succ n ih =>
    intro fb x0 y0 err r h
    rw [drawLineLoop_succ] at h
    by_cases hend : x0 = x1 ∧ y0 = y1
    · rw [if_pos hend] at h
      have hr := (Option.some.inj h).symm
      subst hr
      exact ⟨rfl, [], rfl⟩
    · rw [if_neg hend] at h
      obtain ⟨r', hr', hmap⟩ := Option.map_eq_some'.mp h
      obtain ⟨h1, _⟩ := ih _ _ _ _ r' hr'
      subst hmap
      refine ⟨?_, r'.2, rfl⟩
      simp only [List.map_cons, paint_cons]
      exact h1

/-- The loop of `drawLine` reaches its `break`.  The point `(x, y)` is `rx` steps of `sx`
and `ry` steps of `sy` away from `(x1, y1)` and the error term is
`dx - dy + rx * dy - ry * dx`; then `rx + ry + 1` units of fuel suffice. -/
theorem drawLineLoop_terminates (color : Color) (x1 y1 dx dy sx sy : Int) (hdx : 0 ≤ dx)
    (hdy : 0 ≤ dy) (n : Nat) :
    ∀ (fb : Framebuffer) (x y err rx ry : Int), 0 ≤ rx → rx ≤ dx → 0 ≤ ry → ry ≤ dy →
      x1 - x = sx * rx → y1 - y = sy * ry → err = dx - dy + rx * dy - ry * dx →
      rx + ry ≤ (n : Int) →
      ∃ r, drawLineLoop color x1 y1 dx dy sx sy (n + 1) fb x y err = some r := by
  induction n with
  | zero =>
    intro fb x y err rx ry hrx0 _ hry0 _ hx hy _ hn
    have h1 : rx = 0 := by omega
    have h2 : ry = 0 := by omega
    subst h1; subst h2
    rw [drawLineLoop_succ, if_pos ⟨by omega, by omega⟩]
    exact ⟨_, rfl⟩
  | succ n ih =>
    intro fb x y err rx ry hrx0 hrxd hry0 hryd hx hy herr hn
    rw [drawLineLoop_succ]
    by_cases hend : x = x1 ∧ y = y1
    · rw [if_pos hend]; exact ⟨_, rfl⟩
    · rw [if_neg hend]
      have hpos : 0 < rx + ry := by
        by_contra hc
        have h1 : rx = 0 := by omega
        have h2 : ry = 0 := by omega
        subst h1; subst h2
        exact hend ⟨by omega, by omega⟩
      -- a step along an axis is taken only while that axis has steps left
      have hX : 2 * err > -dy → 1 ≤ rx := by
        intro h
        by_contra hc
        have h1 : rx = 0 := by omega
        subst h1
        have h2 : 1 ≤ ry := by omega
        nlinarith [mul_nonneg hdx (by omega : (0 : Int) ≤ ry - 1)]
      have hY : 2 * err < dx → 1 ≤ ry := by
        intro h
        by_contra hc
        have h1 : ry = 0 := by omega
        subst h1
        have h2 : 1 ≤ rx := by omega
        nlinarith [mul_nonneg hdy (by omega : (0 : Int) ≤ rx - 1)]
      have hsome : 2 * err > -dy ∨ 2 * err < dx := by
        by_contra hc
        push_neg at hc
        have h1 : dx = 0 := by omega
        have h2 : dy = 0 := by omega
        omega
      by_cases hsX : 2 * err > -dy
      · by_cases hsY : 2 * err < dx
        · simp only [if_pos hsX, if_pos hsY]
          obtain ⟨r, hr⟩ := ih (fb.setPixel x y color 0) (x + sx) (y + sy) (err - dy + dx)
            (rx - 1) (ry - 1) (by have := hX hsX; omega) (by omega) (by have := hY hsY; omega)
            (by omega) (by rw [mul_sub, mul_one]; omega) (by rw [mul_sub, mul_one]; omega)
            (by rw [herr]; ring) (by omega)
          rw [hr]; exact ⟨_, rfl⟩
        · simp only [if_pos hsX, if_neg hsY]
          obtain ⟨r, hr⟩ := ih (fb.setPixel x y color 0) (x + sx) y (err - dy)
            (rx - 1) ry (by have := hX hsX; omega) (by omega) hry0 hryd
            (by rw [mul_sub, mul_one]; omega) hy (by rw [herr]; ring)
            (by have := hX hsX; omega)
          rw [hr]; exact ⟨_, rfl⟩
      · have hsY : 2 * err < dx := hsome.resolve_left hsX
        simp only [if_neg hsX, if_pos hsY]
        obtain ⟨r, hr⟩ := ih (fb.setPixel x y color 0) x (y + sy) (err + dx)
          rx (ry - 1) hrx0 hrxd (by have := hY hsY; omega) (by omega) hx
          (by rw [mul_sub, mul_one]; omega) (by rw [herr]; ring)
          (by have := hY hsY; omega)
        rw [hr]; exact ⟨_, rfl⟩

/-- The method `drawLine` returns for every fuel above `|x1 - x0| + |y1 - y0|`. -/
theorem drawLine_terminates (fb : Framebuffer) (x0 y0 x1 y1 : Int) (color : Color)
    (fuel : Nat) (hfuel : (|x1 - x0| + |y1 - y0|).toNat < fuel) :
    ∃ r, drawLine fuel fb x0 y0 x1 y1 color = some r := by
  obtain ⟨n, rfl⟩ : ∃ n, fuel = n + 1 := ⟨fuel - 1, by omega⟩
  unfold drawLine
  have hx0 := abs_nonneg (x1 - x0)
  have hy0 := abs_nonneg (y1 - y0)
  apply drawLineLoop_terminates color x1 y1 |x1 - x0| |y1 - y0| _ _ hx0 hy0 n fb x0 y0 _
    |x1 - x0| |y1 - y0| hx0 le_rfl hy0 le_rfl
  · by_cases h : x0 < x1
    · rw [if_pos h, abs_of_pos (by omega)]; ring
    · rw [if_neg h, abs_of_nonpos (by omega)]; ring
  · by_cases h : y0 < y1
    · rw [if_pos h, abs_of_pos (by omega)]; ring
    · rw [if_neg h, abs_of_nonpos (by omega)]; ring
  · ring
  · omega

/-- More fuel does not change the result of a loop that reached its `break`. -/
theorem drawLineLoop_fuel_succ (color : Color) (x1 y1 dx dy sx sy : Int) (fuel : Nat) :
    ∀ (fb : Framebuffer) (x0 y0 err : Int) (r : Framebuffer × List (Int × Int)),
      drawLineLoop color x1 y1 dx dy sx sy fuel fb x0 y0 err = some r →
      drawLineLoop color x1 y1 dx dy sx sy (fuel + 1) fb x0 y0 err = some r := by
  induction fuel with
  | zero => intro fb x0 y0 err r h; exact absurd h (by simp [drawLineLoop])
  | succ n ih =>
    intro fb x0 y0 err r h
    rw [drawLineLoop_succ] at h ⊢
    by_cases hend : x0 = x1 ∧ y0 = y1
    · rw [if_pos hend] at h ⊢; exact h
    · rw [if_neg hend] at h ⊢
      obtain ⟨r', hr', hmap⟩ := Option.map_eq_some'.mp h
      rw [ih _ _ _ _ r' hr']
      exact congrArg some hmap

/-- One pass of the loop body from a point that is not the end point: a step is taken, no
axis is stepped beyond the end point, and the invariant holds at the next point. -/
theorem lineInv_step {x1 y1 dx dy sx sy x y err rx ry : Int}
    (h : LineInv x1 y1 dx dy sx sy x y err rx ry) (hend : ¬ (x = x1 ∧ y = y1)) :
    (2 * err > -dy ∨ 2 * err < dx) ∧ (2 * err > -dy → 1 ≤ rx) ∧ (2 * err < dx → 1 ≤ ry) ∧
    LineInv x1 y1 dx dy sx sy (if 2 * err > -dy then x + sx else x)
      (if 2 * err < dx then y + sy else y)
      (if 2 * err < dx then (if 2 * err > -dy then err - dy else err) + dx
        else (if 2 * err > -dy then err - dy else err))
      (if 2 * err > -dy then rx - 1 else rx) (if 2 * err < dx then ry - 1 else ry) := by
  obtain ⟨hdx, hdy, hsx, hsy, hrx0, hrxd, hry0, hryd, hx, hy, herr⟩ := h
  have hpos : 0 < rx + ry := by
    by_contra hc
    have h1 : rx = 0 := by omega
    have h2 : ry = 0 := by omega
    subst h1; subst h2
    exact hend ⟨by omega, by omega⟩
  have hX : 2 * err > -dy → 1 ≤ rx := by
    intro h
    by_contra hc
    have h1 : rx = 0 := by omega
    subst h1
    have h2 : 1 ≤ ry := by omega
    nlinarith [mul_nonneg hdx (by omega : (0 : Int) ≤ ry - 1)]
  have hY : 2 * err < dx → 1 ≤ ry := by
    intro h
    by_contra hc
    have h1 : ry = 0 := by omega
    subst h1
    have h2 : 1 ≤ rx := by omega
    nlinarith [mul_nonneg hdy (by omega : (0 : Int) ≤ rx - 1)]
  have hsome : 2 * err > -dy ∨ 2 * err < dx := by
    by_contra hc
    push_neg at hc
    have h1 : dx = 0 := by omega
    have h2 : dy = 0 := by omega
    omega
  refine ⟨hsome, hX, hY, hdx, hdy, hsx, hsy, ?_⟩
  by_cases hsX : 2 * err > -dy
  · have hr := hX hsX
    by_cases hsY : 2 * err < dx
    · have hr2 := hY hsY
      simp only [if_pos hsX, if_pos hsY]
      exact ⟨by omega, by omega, by omega, by omega, by rw [mul_sub, mul_one]; omega,
        by rw [mul_sub, mul_one]; omega, by rw [herr]; ring⟩
    · simp only [if_pos hsX, if_neg hsY]
      exact ⟨by omega, by omega, hry0, hryd, by rw [mul_sub, mul_one]; omega, hy,
        by rw [herr]; ring⟩
  · have hsY : 2 * err < dx := hsome.resolve_left hsX
    have hr2 := hY hsY
    simp only [if_neg hsX, if_pos hsY]
    exact ⟨hrx0, hrxd, by omega, by omega, hx, by rw [mul_sub, mul_one]; omega,
      by rw [herr]; ring⟩

/-- The invariant at the start of `drawLine`. -/
theorem lineInv_init (x0 y0 x1 y1 : Int) :
    LineInv x1 y1 |x1 - x0| |y1 - y0| (if x0 < x1 then 1 else -1) (if y0 < y1 then 1 else -1)
      x0 y0 (|x1 - x0| - |y1 - y0|) |x1 - x0| |y1 - y0| := by
  refine ⟨abs_nonneg _, abs_nonneg _, ?_, ?_, abs_nonneg _, le_rfl, abs_nonneg _, le_rfl, ?_, ?_,
    by ring⟩
  · by_cases h : x0 < x1
    · left; rw [if_pos h]
    · right; rw [if_neg h]
  · by_cases h : y0 < y1
    · left; rw [if_pos h]
    · right; rw [if_neg h]
  · by_cases h : x0 < x1
    · rw [if_pos h, abs_of_pos (by omega)]; ring
    · rw [if_neg h, abs_of_nonpos (by omega)]; ring
  · by_cases h : y0 < y1
    · rw [if_pos h, abs_of_pos (by omega)]; ring
    · rw [if_neg h, abs_of_nonpos (by omega)]; ring

/-- A loop that reached its `break` with some fuel reaches it with as many units of fuel as it
made `setPixel` calls. -/
theorem drawLineLoop_fuel_length (color : Color) (x1 y1 dx dy sx sy : Int) (fuel : Nat) :
    ∀ (fb : Framebuffer) (x0 y0 err : Int) (r : Framebuffer × List (Int × Int)),
      drawLineLoop color x1 y1 dx dy sx sy fuel fb x0 y0 err = some r →
      drawLineLoop color x1 y1 dx dy sx sy r.2.length fb x0 y0 err = some r := by
  induction fuel with
  | zero => intro fb x0 y0 err r h; exact absurd h (by simp [drawLineLoop])
  | succ n ih =>
    intro fb x0 y0 err r h
    rw [drawLineLoop_succ] at h
    by_cases hend : x0 = x1 ∧ y0 = y1
    · rw [if_pos hend] at h
      have hr := (Option.some.inj h).symm
      subst hr
      simp only [List.length_singleton]
      rw [drawLineLoop_succ, if_pos hend]
    · rw [if_neg hend] at h
      obtain ⟨r', hr', hmap⟩ := Option.map_eq_some'.mp h
      subst hmap
      simp only [List.length_cons]
      rw [drawLineLoop_succ, if_neg hend, ih _ _ _ _ r' hr']
      rfl

theorem drawLineLoop_fuel_le (color : Color) (x1 y1 dx dy sx sy : Int) {n m : Nat}
    (hnm : n ≤ m) (fb : Framebuffer) (x0 y0 err : Int) (r : Framebuffer × List (Int × Int))
    (h : drawLineLoop color x1 y1 dx dy sx sy n fb x0 y0 err = some r) :
    drawLineLoop color x1 y1 dx dy sx sy m fb x0 y0 err = some r := by
  induction hnm with
  | refl => exact h
  | step _ ih => exact drawLineLoop_fuel_succ color x1 y1 dx dy sx sy _ fb x0 y0 err r ih

/-- The shape of the sequence of `setPixel` calls of a loop that reached its `break`: it ends
at `(x1, y1)`, successive points are adjacent, and every point lies between the current point
and the end point. -/
theorem drawLineLoop_path (color : Color) (x1 y1 dx dy sx sy : Int) (fuel : Nat) :
    ∀ (fb : Framebuffer) (x y err rx ry : Int) (r : Framebuffer × List (Int × Int)),
      LineInv x1 y1 dx dy sx sy x y err rx ry →
      drawLineLoop color x1 y1 dx dy sx sy fuel fb x y err = some r →
      r.2.getLast? = some (x1, y1) ∧ List.Chain' Adjacent r.2 ∧
      ∀ p ∈ r.2, ∃ kx ky : Int, (0 ≤ kx ∧ kx ≤ rx ∧ x1 - p.1 = sx * kx) ∧
        (0 ≤ ky ∧ ky ≤ ry ∧ y1 - p.2 = sy * ky) := by
  induction fuel with
  | zero => intro fb x y err rx ry r _ h; exact absurd h (by simp [drawLineLoop])
  | succ n ih =>
    intro fb x y err rx ry r hinv h
    have hinv' := hinv
    obtain ⟨hdx, hdy, hsx, hsy, hrx0, hrxd, hry0, hryd, hx, hy, herr⟩ := hinv'
    rw [drawLineLoop_succ] at h
    by_cases hend : x = x1 ∧ y = y1
    · rw [if_pos hend] at h
      have hr := (Option.some.inj h).symm
      subst hr
      obtain ⟨rfl, rfl⟩ := hend
      refine ⟨rfl, List.chain'_singleton _, ?_⟩
      intro p hp
      rw [List.mem_singleton] at hp
      subst hp
      exact ⟨rx, ry, ⟨hrx0, le_rfl, hx⟩, ⟨hry0, le_rfl, hy⟩⟩
    · rw [if_neg hend] at h
      obtain ⟨r', hr', hmap⟩ := Option.map_eq_some'.mp h
      subst hmap
      obtain ⟨_, hXr, hYr, hnext⟩ := lineInv_step hinv hend
      obtain ⟨hlast, hchain, hbox⟩ := ih _ _ _ _ _ _ r' hnext hr'
      obtain ⟨_, tl, htl⟩ := drawLineLoop_paint color x1 y1 dx dy sx sy n _ _ _ _ r' hr'
      refine ⟨?_, ?_, ?_⟩
      · simp only
        rw [htl] at hlast ⊢
        rw [List.getLast?_cons_cons]
        exact hlast
      · simp only
        rw [htl] at hchain ⊢
        refine List.Chain'.cons ?_ hchain
        constructor
        · simp only
          split_ifs
          · rcases hsx with hs | hs <;> rw [hs] <;> norm_num
          · simp
        · simp only
          split_ifs
          · rcases hsy with hs | hs <;> rw [hs] <;> norm_num
          · simp
      · intro p hp
        simp only [List.mem_cons] at hp
        rcases hp with hp | hp
        · subst hp
          exact ⟨rx, ry, ⟨hrx0, le_rfl, hx⟩, ⟨hry0, le_rfl, hy⟩⟩
        · obtain ⟨kx, ky, ⟨h1, h2, h3⟩, ⟨h4, h5, h6⟩⟩ := hbox p hp
          refine ⟨kx, ky, ⟨h1, ?_, h3⟩, ⟨h4, ?_, h6⟩⟩
          · split_ifs at h2 <;> omega
          · split_ifs at h5 <;> omega

/-- When `x` is the major axis every pass of the loop steps `x`: the number of `setPixel`
calls is the number of remaining `x` steps plus one. -/
theorem drawLineLoop_length_x (color : Color) (x1 y1 dx dy sx sy : Int) (hmaj : dy ≤ dx)
    (hdx : 0 < dx) (fuel : Nat) :
    ∀ (fb : Framebuffer) (x y err rx ry : Int) (r : Framebuffer × List (Int × Int)),
      LineInv x1 y1 dx dy sx sy x y err rx ry → 2 * err > -dy →
      drawLineLoop color x1 y1 dx dy sx sy fuel fb x y err = some r →
      (r.2.length : Int) = rx + 1 := by
  induction fuel with
  | zero => intro fb x y err rx ry r _ _ h; exact absurd h (by simp [drawLineLoop])
  | succ n ih =>
    intro fb x y err rx ry r hinv herr2 h
    have hinv' := hinv
    obtain ⟨_, hdy, hsx, hsy, hrx0, hrxd, hry0, hryd, hx, hy, herr⟩ := hinv'
    rw [drawLineLoop_succ] at h
    by_cases hend : x = x1 ∧ y = y1
    · rw [if_pos hend] at h
      have hr := (Option.some.inj h).symm
      subst hr
      have h0 : sx * rx = 0 := by rw [← hx, hend.1]; ring
      have hrx : rx = 0 := by
        rcases hsx with hs | hs <;> rw [hs] at h0 <;> omega
      simp [hrx]
    · rw [if_neg hend] at h
      obtain ⟨r', hr', hmap⟩ := Option.map_eq_some'.mp h
      subst hmap
      obtain ⟨_, hXr, hYr, hnext⟩ := lineInv_step hinv hend
      rw [if_pos herr2] at hnext hr'
      have hnext2 : 2 * (if 2 * err < dx then (if 2 * err > -dy then err - dy else err) + dx
          else (if 2 * err > -dy then err - dy else err)) > -dy := by
        rw [if_pos herr2]
        by_cases hsY : 2 * err < dx
        · rw [if_pos hsY]; omega
        · rw [if_neg hsY]
          by_contra hc
          have h1 : dx = dy := by omega
          have h2 : 2 * err = dx := by omega
          subst h1
          have h3 : dx * (2 * (rx - ry) - 1) = 0 := by
            have : err = dx * (rx - ry) := by rw [herr]; ring
            rw [this] at h2
            linear_combination h2
          rcases mul_eq_zero.mp h3 with h4 | h4 <;> omega
      have hlen := ih _ _ _ _ _ _ r' hnext hnext2 hr'
      simp only [List.length_cons]
      push_cast
      rw [hlen, if_pos herr2]
      ring

/-- When `y` is the major axis every pass of the loop steps `y`: the number of `setPixel`
calls is the number of remaining `y` steps plus one. -/
theorem drawLineLoop_length_y (color : Color) (x1 y1 dx dy sx sy : Int) (hmaj : dx < dy)
    (fuel : Nat) :
    ∀ (fb : Framebuffer) (x y err rx ry : Int) (r : Framebuffer × List (Int × Int)),
      LineInv x1 y1 dx dy sx sy x y err rx ry → 2 * err < dx →
      drawLineLoop color x1 y1 dx dy sx sy fuel fb x y err = some r →
      (r.2.length : Int) = ry + 1 := by
  induction fuel with
  | zero => intro fb x y err rx ry r _ _ h; exact absurd h (by simp [drawLineLoop])
  | succ n ih =>
    intro fb x y err rx ry r hinv herr2 h
    have hinv' := hinv
    obtain ⟨hdx, hdy, hsx, hsy, hrx0, hrxd, hry0, hryd, hx, hy, herr⟩ := hinv'
    rw [drawLineLoop_succ] at h
    by_cases hend : x = x1 ∧ y = y1
    · rw [if_pos hend] at h
      have hr := (Option.some.inj h).symm
      subst hr
      have h0 : sy * ry = 0 := by rw [← hy, hend.2]; ring
      have hry : ry = 0 := by
        rcases hsy with hs | hs <;> rw [hs] at h0 <;> omega
      simp [hry]
    · rw [if_neg hend] at h
      obtain ⟨r', hr', hmap⟩ := Option.map_eq_some'.mp h
      subst hmap
      obtain ⟨_, hXr, hYr, hnext⟩ := lineInv_step hinv hend
      simp only [if_pos herr2] at hnext hr'
      have hnext2 : 2 * ((if 2 * err > -dy then err - dy else err) + dx) < dx := by
        by_cases hsX : 2 * err > -dy
        · rw [if_pos hsX]; omega
        · rw [if_neg hsX]; omega
      have hlen := ih _ _ _ _ _ _ r' hnext hnext2 hr'
      simp only [List.length_cons]
      push_cast
      rw [hlen]
      ring

/-- The number of `setPixel` calls of `drawLine` when it returns. -/
theorem drawLine_length (fuel : Nat) (fb : Framebuffer) (x0 y0 x1 y1 : Int) (color : Color)
    (r : Framebuffer × List (Int × Int)) (h : drawLine fuel fb x0 y0 x1 y1 color = some r) :
    (r.2.length : Int) = max |x1 - x0| |y1 - y0| + 1 := by
  unfold drawLine at h
  simp only at h
  have hinv := lineInv_init x0 y0 x1 y1
  have hdx0 := abs_nonneg (x1 - x0)
  have hdy0 := abs_nonneg (y1 - y0)
  by_cases hmaj : |y1 - y0| ≤ |x1 - x0|
  · rw [max_eq_left hmaj]
    by_cases hdx : 0 < |x1 - x0|
    · exact drawLineLoop_length_x color x1 y1 _ _ _ _ hmaj hdx fuel fb x0 y0 _ _ _ r hinv
        (by omega) h
    · have hx : |x1 - x0| = 0 := by omega
      have hy : |y1 - y0| = 0 := by omega
      have hxe : x0 = x1 := by
        have := abs_eq_zero.mp hx; omega
      have hye : y0 = y1 := by
        have := abs_eq_zero.mp hy; omega
      cases fuel with
      | zero => exact absurd h (by simp [drawLineLoop])
      | succ n =>
        rw [drawLineLoop_succ, if_pos ⟨hxe, hye⟩] at h
        have hr := (Option.some.inj h).symm
        subst hr
        simp [hx]
  · push_neg at hmaj
    rw [max_eq_right (le_of_lt hmaj)]
    exact drawLineLoop_length_y color x1 y1 _ _ _ _ hmaj fuel fb x0 y0 _ _ _ r hinv
      (by omega) h

/-- The least depth addressed to a pixel by the calls of a line: `0` for a visited pixel. -/
theorem nearest_line (x y : Int) (pts : List (Int × Int)) :
    nearest x y (pts.map (fun p => (p.1, p.2, (0 : ℚ)))) =
      if (x, y) ∈ pts then some 0 else none := by
  induction pts with
  | nil => rfl
  | cons p pts ih =>
    rw [List.map_cons, nearest_cons, ih]
    by_cases he : p.1 = x ∧ p.2 = y
    · have hp : (x, y) = p := Prod.ext he.1.symm he.2.symm
      have hmem : (x, y) ∈ p :: pts := by rw [hp]; exact List.mem_cons_self _ _
      rw [if_pos he, if_pos hmem]
      by_cases hm : (x, y) ∈ pts
      · rw [if_pos hm]; simp
      · rw [if_neg hm]
    · have hp : (x, y) ≠ p := fun h => he ⟨by rw [← h], by rw [← h]⟩
      rw [if_neg he]
      by_cases hm : (x, y) ∈ pts
      · rw [if_pos hm, if_pos (List.mem_cons_of_mem _ hm)]
      · rw [if_neg hm, if_neg (fun h => (List.mem_cons.mp h).elim hp hm)]

/-! ### Colour and matrix arithmetic -/

/-- The saturated sum of two channels already fits an `unsigned char`. -/
theorem toUChar_min (a b : Nat) :
    toUChar (min 255 ((a : Int) + (b : Int))) = min 255 (a + b) := by
  unfold toUChar
  rcases le_total (255 : Int) ((a : Int) + (b : Int)) with h | h
  · rw [min_eq_left h, min_eq_left (by omega : 255 ≤ a + b)]
    rfl
  · rw [min_eq_right h, min_eq_right (by omega : a + b ≤ 255)]
    omega

/-- A non-negative value below `256` converts to its integer part. -/
theorem floatToUChar_in_range {q : ℚ} (h0 : 0 ≤ q) (h1 : q < 256) :
    floatToUChar q = some ⌊q⌋.toNat := by
  unfold floatToUChar
  simp only [truncToInt_of_nonneg h0]
  have hlo : 0 ≤ ⌊q⌋ := Int.floor_nonneg.mpr h0
  have hhi : ⌊q⌋ < 256 := Int.floor_lt.mpr (by exact_mod_cast h1)
  rw [if_pos ⟨hlo, by omega⟩]

/-- Scaling a colour whose scaled channels all stay below `256` truncates each channel;
saturation is never applied. -/
theorem Color_mul_in_range (c : Color) (s : ℚ) (hs : 0 ≤ s) (hr : (c.r : ℚ) * s < 256)
    (hg : (c.g : ℚ) * s < 256) (hb : (c.b : ℚ) * s < 256) :
    c.mul s = some ⟨⌊(c.r : ℚ) * s⌋.toNat, ⌊(c.g : ℚ) * s⌋.toNat, ⌊(c.b : ℚ) * s⌋.toNat, c.a⟩ := by
  unfold Color.mul
  rw [floatToUChar_in_range (mul_nonneg (Nat.cast_nonneg _) hs) hr,
    floatToUChar_in_range (mul_nonneg (Nat.cast_nonneg _) hs) hg,
    floatToUChar_in_range (mul_nonneg (Nat.cast_nonneg _) hs) hb]

end Framebuffer

/-! ### Matrices -/

namespace Matrix4x4

theorem transform_eq_row (M : Matrix4x4) (v : Vec3) (w : ℚ) :
    M.transform v w =
      if M.row 3 v w ≠ 0 ∧ M.row 3 v w ≠ 1 then
        ⟨M.row 0 v w / M.row 3 v w, M.row 1 v w / M.row 3 v w, M.row 2 v w / M.row 3 v w⟩
      else ⟨M.row 0 v w, M.row 1 v w, M.row 2 v w⟩ := rfl

theorem ext_m {A B : Matrix4x4} (h : ∀ i j, A.m i j = B.m i j) : A = B := by
  cases A; cases B
  simp only [Matrix4x4Of.mk.injEq]
  funext i j
  exact h i j

theorem row_three_of_affine {M : Matrix4x4} (hM : M.Affine) (v : Vec3) (w : ℚ) :
    M.row 3 v w = w := by
  obtain ⟨h0, h1, h2, h3⟩ := hM
  unfold row
  rw [h0, h1, h2, h3]
  ring

/-- An affine matrix applied to a point (`w = 1`) makes no perspective divide. -/
theorem transform_of_affine {M : Matrix4x4} (hM : M.Affine) (v : Vec3) :
    M.transform v 1 = ⟨M.row 0 v 1, M.row 1 v 1, M.row 2 v 1⟩ := by
  rw [transform_eq_row, row_three_of_affine hM, if_neg (fun h => h.2 rfl)]

/-- An affine matrix applied to a direction (`w = 0`) makes no perspective divide. -/
theorem transform_zero_of_affine {M : Matrix4x4} (hM : M.Affine) (v : Vec3) :
    M.transform v 0 = ⟨M.row 0 v 0, M.row 1 v 0, M.row 2 v 0⟩ := by
  rw [transform_eq_row, row_three_of_affine hM, if_neg (fun h => h.1 rfl)]

/-- The homogeneous coordinates of `(A * B)(P, 1)` are those of `A` applied to the point
`B.transform(P)`, for an affine `B`. -/
theorem row_mul {A B : Matrix4x4} (hB : B.Affine) (P : Vec3) (i : Fin 4) :
    (A.mul B).row i P 1 = A.row i (B.transform P 1) 1 := by
  rw [transform_of_affine hB]
  obtain ⟨h0, h1, h2, h3⟩ := hB
  simp only [row, mul]
  rw [h0, h1, h2, h3]
  ring

/-- Composition: `A * B` applies `B` first. -/
theorem transform_mul {A B : Matrix4x4} (hB : B.Affine) (P : Vec3) :
    (A.mul B).transform P 1 = A.transform (B.transform P 1) 1 := by
  rw [transform_eq_row (A.mul B), transform_eq_row A, row_mul hB, row_mul hB, row_mul hB,
    row_mul hB]

theorem default_transform (P : Vec3) : Matrix4x4.default.transform P 1 = P := by
  simp [Matrix4x4.transform, Matrix4x4.default]

theorem default_affine : Matrix4x4.default.Affine := by decide

theorem translation_affine (x y z : ℚ) : (translation x y z).Affine := by
  simp [Affine, translation, set, Matrix4x4.default]

theorem scaling_affine (x y z : ℚ) : (scaling x y z).Affine := by
  simp [Affine, scaling, set, Matrix4x4.default]

theorem translation_mul_neg (x y z : ℚ) :
    (translation x y z).mul (translation (-x) (-y) (-z)) = Matrix4x4.default := by
  apply ext_m
  intro i j
  fin_cases i <;> fin_cases j <;> simp [mul, translation, set, Matrix4x4.default]

theorem scaling_mul_inv (x y z : ℚ) (hx : x ≠ 0) (hy : y ≠ 0) (hz : z ≠ 0) :
    (scaling x y z).mul (scaling (1 / x) (1 / y) (1 / z)) = Matrix4x4.default := by
  apply ext_m
  intro i j
  fin_cases i <;> fin_cases j <;> simp [mul, scaling, set, Matrix4x4.default, hx, hy, hz]

/-- A round trip through a pair of affine matrices whose product is the identity. -/
theorem transform_inverse {A Ainv : Matrix4x4} (hAinv : Ainv.Affine)
    (h : A.mul Ainv = Matrix4x4.default) (P : Vec3) :
    A.transform (Ainv.transform P 1) 1 = P := by
  rw [← transform_mul hAinv, h, default_transform]

theorem translation_transform_zero (x y z : ℚ) (v : Vec3) :
    (translation x y z).transform v 0 = v := by
  rw [transform_zero_of_affine (translation_affine x y z)]
  simp [row, translation, set, Matrix4x4.default]

end Matrix4x4

/-! ### Vectors -/

namespace Vec3Of

variable {K : Type} [LinearOrderedField K]

theorem normalize_of_pos (sqrt : K → K) (v : Vec3Of K) (h : 0 < v.length sqrt) :
    v.normalize sqrt = v.div (v.length sqrt) := by
  unfold normalize; rw [if_pos h]

theorem normalize_of_not_pos (sqrt : K → K) (v : Vec3Of K) (h : ¬ 0 < v.length sqrt) :
    v.normalize sqrt = ⟨0, 0, 0⟩ := by
  unfold normalize; rw [if_neg h]

theorem normalize_zero (sqrt : K → K) (h0 : sqrt 0 = 0) :
    (⟨0, 0, 0⟩ : Vec3Of K).normalize sqrt = ⟨0, 0, 0⟩ := by
  apply normalize_of_not_pos
  simp [length, h0]

/-- The squared length of a normalised vector is `1` when `length` is the exact root. -/
theorem normalize_dot_self (sqrt : K → K) (v : Vec3Of K) (hpos : 0 < v.length sqrt)
    (hex : v.length sqrt * v.length sqrt = v.x * v.x + v.y * v.y + v.z * v.z) :
    (v.normalize sqrt).x * (v.normalize sqrt).x + (v.normalize sqrt).y * (v.normalize sqrt).y +
      (v.normalize sqrt).z * (v.normalize sqrt).z = 1 := by
  rw [normalize_of_pos sqrt v hpos]
  simp only [div]
  have hne : v.length sqrt ≠ 0 := ne_of_gt hpos
  field_simp
  linarith

theorem sumsq_pos_real (v : Vec3Of ℝ) (hv : v ≠ ⟨0, 0, 0⟩) :
    0 < v.x * v.x + v.y * v.y + v.z * v.z := by
  by_contra h
  push_neg at h
  have hx : v.x * v.x = 0 :=
    le_antisymm (by nlinarith [mul_self_nonneg v.y, mul_self_nonneg v.z]) (mul_self_nonneg _)
  have hy : v.y * v.y = 0 :=
    le_antisymm (by nlinarith [mul_self_nonneg v.x, mul_self_nonneg v.z]) (mul_self_nonneg _)
  have hz : v.z * v.z = 0 :=
    le_antisymm (by nlinarith [mul_self_nonneg v.x, mul_self_nonneg v.y]) (mul_self_nonneg _)
  apply hv
  cases v
  simp only [Vec3Of.mk.injEq]
  exact ⟨mul_self_eq_zero.mp hx, mul_self_eq_zero.mp hy, mul_self_eq_zero.mp hz⟩

theorem normalize_real (v : Vec3Of ℝ) (hv : v ≠ ⟨0, 0, 0⟩) :
    0 < v.length Real.sqrt ∧ v.normalize Real.sqrt = v.div (v.length Real.sqrt) ∧
    (v.normalize Real.sqrt).length Real.sqrt = 1 := by
  have hs := sumsq_pos_real v hv
  have hpos : 0 < v.length Real.sqrt := Real.sqrt_pos.mpr hs
  refine ⟨hpos, normalize_of_pos _ v hpos, ?_⟩
  have h1 := normalize_dot_self Real.sqrt v hpos (Real.mul_self_sqrt (le_of_lt hs))
  unfold length at h1 ⊢
  rw [h1, Real.sqrt_one]

end Vec3Of

/-! ### The view matrix -/

namespace Matrix4x4Of
variable {K : Type} [LinearOrderedField K]

theorem transform_eq_rat (M : Matrix4x4) (v : Vec3) (w : ℚ) :
    Matrix4x4Of.transform M v w = Matrix4x4.transform M v w := rfl

/-- The view matrix maps `v` to its coordinates in the camera basis. -/
theorem lookAt_transform (sqrt : K → K) (eye target up v : Vec3Of K) :
    (lookAt sqrt eye target up).transform v 1 =
      ⟨((((target.sub eye).normalize sqrt).cross up).normalize sqrt).dot (v.sub eye),
       (((((target.sub eye).normalize sqrt).cross up).normalize sqrt).cross
          ((target.sub eye).normalize sqrt)).dot (v.sub eye),
       -(((target.sub eye).normalize sqrt).dot (v.sub eye))⟩ := by
  simp only [transform, lookAt]
  simp only [Matrix.cons_val_zero, Matrix.cons_val_one, Matrix.head_cons, Matrix.cons_val_two,
    Matrix.tail_cons, Matrix.cons_val_three, zero_mul, add_zero, zero_add, one_mul, mul_one]
  rw [if_neg (fun h => h.2 rfl)]
  simp only [Vec3Of.dot, Vec3Of.sub, Vec3Of.mk.injEq]
  refine ⟨?_, ?_, ?_⟩ <;> ring

theorem lookAt_affine (sqrt : K → K) (eye target up : Vec3Of K) :
    (lookAt sqrt eye target up).m 3 0 = 0 ∧ (lookAt sqrt eye target up).m 3 1 = 0 ∧
    (lookAt sqrt eye target up).m 3 2 = 0 ∧ (lookAt sqrt eye target up).m 3 3 = 1 := by
  simp [lookAt]

end Matrix4x4Of

namespace Vec3Of
variable {K : Type} [LinearOrderedField K]

/-- A normalised vector is a scalar multiple of its argument. -/
theorem normalize_eq_scale (sqrt : K → K) (v : Vec3Of K) :
    ∃ c : K, v.normalize sqrt = ⟨c * v.x, c * v.y, c * v.z⟩ := by
  unfold normalize
  split_ifs
  · exact ⟨1 / v.length sqrt, by simp only [div, Vec3Of.mk.injEq]; refine ⟨?_, ?_, ?_⟩ <;> ring⟩
  · exact ⟨0, by simp⟩

end Vec3Of

namespace Matrix4x4Of
variable {K : Type} [LinearOrderedField K]

theorem lookAt_eye (sqrt : K → K) (eye target up : Vec3Of K) :
    (lookAt sqrt eye target up).transform eye 1 = ⟨0, 0, 0⟩ := by
  rw [lookAt_transform]
  simp [Vec3Of.dot, Vec3Of.sub]

theorem lookAt_target (sqrt : K → K) (eye target up : Vec3Of K)
    (hpos : 0 < (target.sub eye).length sqrt)
    (hex : (target.sub eye).length sqrt * (target.sub eye).length sqrt =
      (target.sub eye).x * (target.sub eye).x + (target.sub eye).y * (target.sub eye).y +
        (target.sub eye).z * (target.sub eye).z) :
    (lookAt sqrt eye target up).transform target 1 =
      ⟨0, 0, -((target.sub eye).length sqrt)⟩ := by
  rw [lookAt_transform]
  have hne : (target.sub eye).length sqrt ≠ 0 := ne_of_gt hpos
  rw [Vec3Of.normalize_of_pos sqrt (target.sub eye) hpos]
  obtain ⟨c, hc⟩ := Vec3Of.normalize_eq_scale sqrt
    (((target.sub eye).div ((target.sub eye).length sqrt)).cross up)
  rw [hc]
  generalize (target.sub eye).length sqrt = len at hne hex hpos ⊢
  generalize target.sub eye = d at hex ⊢
  simp only [Vec3Of.dot, Vec3Of.cross, Vec3Of.div, Vec3Of.mk.injEq]
  refine ⟨?_, ?_, ?_⟩
  · field_simp; ring
  · field_simp; ring
  · field_simp; linarith

end Matrix4x4Of

/-! ### Barycentric weights -/

namespace Framebuffer

/-- The weights returned for a non-degenerate triangle. -/
theorem barycentric_of_nondegenerate (p a b c : Vec2)
    (h : 1 / 1000 ≤ |(b.y - c.y) * (a.x - c.x) + (c.x - b.x) * (a.y - c.y)|) :
    barycentric p a b c =
      ⟨((b.y - c.y) * (p.x - c.x) + (c.x - b.x) * (p.y - c.y)) /
          ((b.y - c.y) * (a.x - c.x) + (c.x - b.x) * (a.y - c.y)),
       ((c.y - a.y) * (p.x - c.x) + (a.x - c.x) * (p.y - c.y)) /
          ((b.y - c.y) * (a.x - c.x) + (c.x - b.x) * (a.y - c.y)),
       1 - ((b.y - c.y) * (p.x - c.x) + (c.x - b.x) * (p.y - c.y)) /
          ((b.y - c.y) * (a.x - c.x) + (c.x - b.x) * (a.y - c.y)) -
        ((c.y - a.y) * (p.x - c.x) + (a.x - c.x) * (p.y - c.y)) /
          ((b.y - c.y) * (a.x - c.x) + (c.x - b.x) * (a.y - c.y))⟩ := by
  simp only [barycentric]
  rw [if_neg (not_lt.mpr h)]

theorem denom_ne_zero {q : ℚ} (h : 1 / 1000 ≤ |q|) : q ≠ 0 := by
  intro h0
  rw [h0, abs_zero] at h
  norm_num at h

/-- The weights sum to `1` and reproduce the point. -/
theorem barycentric_combination (p a b c : Vec2)
    (h : 1 / 1000 ≤ |(b.y - c.y) * (a.x - c.x) + (c.x - b.x) * (a.y - c.y)|) :
    (barycentric p a b c).x + (barycentric p a b c).y + (barycentric p a b c).z = 1 ∧
    (barycentric p a b c).x * a.x + (barycentric p a b c).y * b.x +
      (barycentric p a b c).z * c.x = p.x ∧
    (barycentric p a b c).x * a.y + (barycentric p a b c).y * b.y +
      (barycentric p a b c).z * c.y = p.y := by
  have hne := denom_ne_zero h
  rw [barycentric_of_nondegenerate p a b c h]
  refine ⟨by ring, ?_, ?_⟩
  · simp only
    field_simp
    ring
  · simp only
    field_simp
    ring

/-- The weights at the three corners. -/
theorem barycentric_corners (a b c : Vec2)
    (h : 1 / 1000 ≤ |(b.y - c.y) * (a.x - c.x) + (c.x - b.x) * (a.y - c.y)|) :
    barycentric a a b c = ⟨1, 0, 0⟩ ∧ barycentric b a b c = ⟨0, 1, 0⟩ ∧
    barycentric c a b c = ⟨0, 0, 1⟩ := by
  have hne := denom_ne_zero h
  rw [barycentric_of_nondegenerate a a b c h, barycentric_of_nondegenerate b a b c h,
    barycentric_of_nondegenerate c a b c h]
  simp only [Vec3Of.mk.injEq]
  refine ⟨⟨?_, ?_, ?_⟩, ⟨?_, ?_, ?_⟩, ⟨?_, ?_, ?_⟩⟩ <;> field_simp <;> ring

theorem barycentric_of_degenerate (p a b c : Vec2)
    (h : |(b.y - c.y) * (a.x - c.x) + (c.x - b.x) * (a.y - c.y)| < 1 / 1000) :
    barycentric p a b c = ⟨-1, 0, 0⟩ := by
  simp only [barycentric]
  rw [if_pos h]

/-- The loop body of `drawTriangle` at a sample point with given weights. -/
theorem drawTriangleStep_of_weights (v0 v1 v2 : Vec3) (color : Color) (px py : ℚ)
    (fb : Framebuffer) (w : Vec3)
    (hw : barycentric ⟨px, py⟩ ⟨v0.x, v0.y⟩ ⟨v1.x, v1.y⟩ ⟨v2.x, v2.y⟩ = w)
    (h0 : 0 ≤ w.x) (h1 : 0 ≤ w.y) (h2 : 0 ≤ w.z) :
    drawTriangleStep v0 v1 v2 color px fb py =
      fb.setPixel (truncToInt px) (truncToInt py) color
        (v0.z * w.x + v1.z * w.y + v2.z * w.z) := by
  simp only [drawTriangleStep]
  rw [hw, if_neg (by push_neg; exact ⟨h0, h1, h2⟩)]

end Framebuffer

/-! ### Monotonicity of the stored depth -/

namespace Framebuffer

/-- A depth-tested write never raises the depth of a pixel, and leaves the colour alone when
it leaves the depth alone. -/
theorem applyNearest_le (m : Option ℚ) (c : Color) (cl : Color × ℚ) :
    (applyNearest m c cl).2 ≤ cl.2 ∧
    ((applyNearest m c cl).2 = cl.2 → (applyNearest m c cl).1 = cl.1) := by
  cases m with
  | none => exact ⟨le_rfl, fun _ => rfl⟩
  | some z =>
    simp only [applyNearest]
    by_cases hz : z < cl.2
    · rw [if_pos hz]
      exact ⟨le_of_lt hz, fun h => absurd h (ne_of_lt hz)⟩
    · rw [if_neg hz]
      exact ⟨le_rfl, fun _ => rfl⟩

/-- A sequence of `setPixel` calls never raises the depth read at an in-bounds pixel, and
leaves the colour alone when it leaves the depth alone. -/
theorem paint_depth_le (c : Color) {fb : Framebuffer} (hwf : fb.WF)
    (fs : List (Int × Int × ℚ)) {x y : Int} (hb : fb.inBounds x y) :
    (paint c fb fs).getDepth x y ≤ fb.getDepth x y ∧
    ((paint c fb fs).getDepth x y = fb.getDepth x y →
      (paint c fb fs).getPixel x y = fb.getPixel x y) := by
  have hcell := cell_paint c hwf fs hb
  have h1 : (paint c fb fs).getPixel x y =
      (applyNearest (nearest x y fs) c (fb.cell x y)).1 := congrArg Prod.fst hcell
  have h2 : (paint c fb fs).getDepth x y =
      (applyNearest (nearest x y fs) c (fb.cell x y)).2 := congrArg Prod.snd hcell
  rw [h1, h2]
  exact applyNearest_le _ _ _

/-- The loop of `drawLine` reaches its `break` with any fuel above
`max(|x1 - x0|, |y1 - y0|)`. -/
theorem drawLine_returns (fb : Framebuffer) (x0 y0 x1 y1 : Int) (color : Color) (fuel : Nat)
    (hfuel : (max |x1 - x0| |y1 - y0|).toNat < fuel) :
    ∃ r, drawLine fuel fb x0 y0 x1 y1 color = some r := by
  obtain ⟨r, hr⟩ := drawLine_terminates fb x0 y0 x1 y1 color
    ((|x1 - x0| + |y1 - y0|).toNat + 1) (Nat.lt_succ_self _)
  have hlen := drawLine_length _ fb x0 y0 x1 y1 color r hr
  have hmax : (0 : Int) ≤ max |x1 - x0| |y1 - y0| := le_max_of_le_left (abs_nonneg _)
  have hloop : drawLineLoop color x1 y1 |x1 - x0| |y1 - y0| (if x0 < x1 then 1 else -1)
      (if y0 < y1 then 1 else -1) ((|x1 - x0| + |y1 - y0|).toNat + 1) fb x0 y0
      (|x1 - x0| - |y1 - y0|) = some r := hr
  have hmin := drawLineLoop_fuel_length color x1 y1 _ _ _ _ _ fb x0 y0 _ r hloop
  have hfuelr : r.2.length ≤ fuel := by omega
  exact ⟨r, drawLineLoop_fuel_le color x1 y1 _ _ _ _ hfuelr fb x0 y0 _ r hmin⟩

/-- The framebuffer returned by `drawLine` is the result of its sequence of `setPixel` calls
at depth `0`. -/
theorem drawLine_eq_paint (fuel : Nat) (fb : Framebuffer) (x0 y0 x1 y1 : Int) (color : Color)
    (r : Framebuffer × List (Int × Int)) (h : drawLine fuel fb x0 y0 x1 y1 color = some r) :
    r.1 = paint color fb (r.2.map (fun p => (p.1, p.2, (0 : ℚ)))) :=
  (drawLineLoop_paint color x1 y1 _ _ _ _ fuel fb x0 y0 _ r h).1

end Framebuffer

/-! ### The loop of `drawLine` on 32-bit integers -/

namespace Framebuffer

theorem drawLineLoop32_succ (color : Color) (x1 y1 dx dy sx sy : Int) (fuel : Nat)
    (fb : Framebuffer) (x0 y0 err : Int) :
    drawLineLoop32 color x1 y1 dx dy sx sy (fuel + 1) fb x0 y0 err =
      if x0 = x1 ∧ y0 = y1 then some (fb.setPixel x0 y0 color 0, [(x0, y0)])
      else
        (drawLineLoop32 color x1 y1 dx dy sx sy fuel (fb.setPixel x0 y0 color 0)
          (if wrap32 (2 * err) > wrap32 (-dy) then wrap32 (x0 + sx) else x0)
          (if wrap32 (2 * err) < dx then wrap32 (y0 + sy) else y0)
          (if wrap32 (2 * err) < dx then
            wrap32 ((if wrap32 (2 * err) > wrap32 (-dy) then wrap32 (err - dy) else err) + dx)
            else (if wrap32 (2 * err) > wrap32 (-dy) then wrap32 (err - dy) else err))).map
          (fun r => (r.1, (x0, y0) :: r.2)) := rfl

/-- The calls of the 32-bit loop as a sequence of writes, whatever the arguments: every call
has depth `0`, and the first call is at the start point. -/
theorem drawLineLoop32_paint (color : Color) (x1 y1 dx dy sx sy : Int) (fuel : Nat) :
    ∀ (fb : Framebuffer) (x0 y0 err : Int) (r : Framebuffer × List (Int × Int)),
      drawLineLoop32 color x1 y1 dx dy sx sy fuel fb x0 y0 err = some r →
      r.1 = paint color fb (r.2.map (fun p => (p.1, p.2, (0 : ℚ)))) ∧
      ∃ tl, r.2 = (x0, y0) :: tl := by
  induction fuel with
  | zero => intro fb x0 y0 err r h; exact absurd h (by simp [drawLineLoop32])
  | succ n ih =>
    intro fb x0 y0 err r h
    rw [drawLineLoop32_succ] at h
    by_cases hend : x0 = x1 ∧ y0 = y1
    · rw [if_pos hend] at h
      have hr := (Option.some.inj h).symm
      subst hr
      exact ⟨rfl, [], rfl⟩
    · rw [if_neg hend] at h
      obtain ⟨r', hr', hmap⟩ := Option.map_eq_some'.mp h
      obtain ⟨h1, _⟩ := ih _ _ _ _ r' hr'
      subst hmap
      refine ⟨?_, r'.2, rfl⟩
      simp only [List.map_cons, paint_cons]
      exact h1

/-- The framebuffer returned by the 32-bit `drawLine` is the result of its sequence of
`setPixel` calls at depth `0`. -/
theorem drawLine32_eq_paint (fuel : Nat) (fb : Framebuffer) (x0 y0 x1 y1 : Int)
    (color : Color) (r : Framebuffer × List (Int × Int))
    (h : drawLine32 fuel fb x0 y0 x1 y1 color = some r) :
    r.1 = paint color fb (r.2.map (fun p => (p.1, p.2, (0 : ℚ)))) :=
  (drawLineLoop32_paint color x1 y1 _ _ _ _ fuel fb x0 y0 _ r h).1

/-- Where no operation overflows the 32-bit loop is the loop over the integers.  The error
term stays in `[-2 * dy, 2 * dx]` and the current point between the start and the end point,
so `dx, dy < 2^29` and `int` coordinates keep every intermediate value an `int` value. -/
theorem drawLineLoop32_eq (color : Color) (x1 y1 dx dy sx sy : Int) (hdx : dx < 536870912)
    (hdy : dy < 536870912) (hx1 : Int32Range x1) (hy1 : Int32Range y1) (fuel : Nat) :
    ∀ (fb : Framebuffer) (x y err rx ry : Int), LineInv x1 y1 dx dy sx sy x y err rx ry →
      -(2 * dy) ≤ err → err ≤ 2 * dx → Int32Range x → Int32Range y →
      drawLineLoop32 color x1 y1 dx dy sx sy fuel fb x y err =
        drawLineLoop color x1 y1 dx dy sx sy fuel fb x y err := by
  induction fuel with
  | zero => intro fb x y err rx ry _ _ _ _ _; rfl
  | succ n ih =>
    intro fb x y err rx ry hinv hlo hhi hx hy
    rw [drawLineLoop32_succ, drawLineLoop_succ]
    by_cases hend : x = x1 ∧ y = y1
    · rw [if_pos hend, if_pos hend]
    · rw [if_neg hend, if_neg hend]
      obtain ⟨_, hX, hY, hnext⟩ := lineInv_step hinv hend
      obtain ⟨h0dx, h0dy, hsx, hsy, hrx0, hrxd, hry0, hryd, hxe, hye, _⟩ := hinv
      unfold Int32Range at hx hy hx1 hy1
      have he2 : wrap32 (2 * err) = 2 * err := wrap32_of_range ⟨by omega, by omega⟩
      have hnd : wrap32 (-dy) = -dy := wrap32_of_range ⟨by omega, by omega⟩
      have hed : wrap32 (err - dy) = err - dy := wrap32_of_range ⟨by omega, by omega⟩
      rw [he2, hnd, hed]
      have hxr : 1 ≤ rx → Int32Range (x + sx) := by
        intro hr1
        rcases hsx with hs | hs
        · subst hs; exact ⟨by omega, by omega⟩
        · subst hs; exact ⟨by omega, by omega⟩
      have hyr : 1 ≤ ry → Int32Range (y + sy) := by
        intro hr2
        rcases hsy with hs | hs
        · subst hs; exact ⟨by omega, by omega⟩
        · subst hs; exact ⟨by omega, by omega⟩
      by_cases hsX : 2 * err > -dy
      · have hxs : wrap32 (x + sx) = x + sx := wrap32_of_range (hxr (hX hsX))
        by_cases hsY : 2 * err < dx
        · have hys : wrap32 (y + sy) = y + sy := wrap32_of_range (hyr (hY hsY))
          have hea : wrap32 (err - dy + dx) = err - dy + dx :=
            wrap32_of_range ⟨by omega, by omega⟩
          simp only [if_pos hsX, if_pos hsY] at hnext ⊢
          rw [hxs, hys, hea]
          rw [ih _ _ _ _ _ _ hnext (by omega) (by omega) (hxr (hX hsX)) (hyr (hY hsY))]
        · simp only [if_pos hsX, if_neg hsY] at hnext ⊢
          rw [hxs]
          rw [ih _ _ _ _ _ _ hnext (by omega) (by omega) (hxr (hX hsX)) ⟨hy.1, hy.2⟩]
      · by_cases hsY : 2 * err < dx
        · have hys : wrap32 (y + sy) = y + sy := wrap32_of_range (hyr (hY hsY))
          have hea : wrap32 (err + dx) = err + dx := wrap32_of_range ⟨by omega, by omega⟩
          simp only [if_neg hsX, if_pos hsY] at hnext ⊢
          rw [hys, hea]
          rw [ih _ _ _ _ _ _ hnext (by omega) (by omega) ⟨hx.1, hx.2⟩ (hyr (hY hsY))]
        · simp only [if_neg hsX, if_neg hsY] at hnext ⊢
          rw [ih _ _ _ _ _ _ hnext (by omega) (by omega) ⟨hx.1, hx.2⟩ ⟨hy.1, hy.2⟩]

/-- For `int` end points with `|x1 - x0|, |y1 - y0| < 2^29` no operation of `drawLine`
overflows: the method on 32-bit `int`s is the method over the integers. -/
theorem drawLine32_eq_drawLine (fuel : Nat) (fb : Framebuffer) (x0 y0 x1 y1 : Int)
    (color : Color) (hx0 : Int32Range x0) (hy0 : Int32Range y0) (hx1 : Int32Range x1)
    (hy1 : Int32Range y1) (hdx : |x1 - x0| < 536870912) (hdy : |y1 - y0| < 536870912) :
    drawLine32 fuel fb x0 y0 x1 y1 color = drawLine fuel fb x0 y0 x1 y1 color := by
  have hax := abs_nonneg (x1 - x0)
  have hay := abs_nonneg (y1 - y0)
  obtain ⟨hx_lo, hx_hi⟩ := abs_lt.mp hdx
  obtain ⟨hy_lo, hy_hi⟩ := abs_lt.mp hdy
  have h1 : wrap32 (x1 - x0) = x1 - x0 := wrap32_of_range ⟨by omega, by omega⟩
  have h2 : wrap32 (y1 - y0) = y1 - y0 := wrap32_of_range ⟨by omega, by omega⟩
  have h3 : wrap32 |x1 - x0| = |x1 - x0| := wrap32_of_range ⟨by omega, by omega⟩
  have h4 : wrap32 |y1 - y0| = |y1 - y0| := wrap32_of_range ⟨by omega, by omega⟩
  have h5 : wrap32 (|x1 - x0| - |y1 - y0|) = |x1 - x0| - |y1 - y0| :=
    wrap32_of_range ⟨by omega, by omega⟩
  unfold drawLine32 drawLine
  simp only [h1, h2, h3, h4, h5]
  exact drawLineLoop32_eq color x1 y1 _ _ _ _ hdx hdy hx1 hy1 fuel fb x0 y0 _ _ _
    (lineInv_init x0 y0 x1 y1) (by omega) (by omega) hx0 hy0

/-- The 32-bit `drawLine` returns for `int` end points with `|x1 - x0|, |y1 - y0| < 2^29`
and any fuel above `max(|x1 - x0|, |y1 - y0|)`. -/
theorem drawLine32_returns (fuel : Nat) (fb : Framebuffer) (x0 y0 x1 y1 : Int)
    (color : Color) (hx0 : Int32Range x0) (hy0 : Int32Range y0) (hx1 : Int32Range x1)
    (hy1 : Int32Range y1) (hdx : |x1 - x0| < 536870912) (hdy : |y1 - y0| < 536870912)
    (hfuel : (max |x1 - x0| |y1 - y0|).toNat < fuel) :
    ∃ r, drawLine32 fuel fb x0 y0 x1 y1 color = some r := by
  rw [drawLine32_eq_drawLine fuel fb x0 y0 x1 y1 color hx0 hy0 hx1 hy1 hdx hdy]
  exact drawLine_returns fb x0 y0 x1 y1 color fuel hfuel

end Framebuffer

/-! ### The projection matrix -/

namespace Matrix4x4

/-- The depth produced by the perspective matrix for a point off the camera plane: the
quotient of the third coordinate by `wResult = -p.z` (a division by `1` when `p.z = -1`). -/
theorem perspective_transform_z (tan : ℚ → ℚ) (fov aspect near far : ℚ) (p : Vec3)
    (hz : p.z ≠ 0) :
    ((perspective tan fov aspect near far).transform p 1).z =
      ((far + near) / (near - far) * p.z + 2 * far * near / (near - far)) / (-p.z) := by
  by_cases h1 : p.z = -1
  · simp [perspective, transform, set, Matrix4x4.default, h1]
  · have h1' : ¬ (-p.z = 1) := fun h => h1 (by linarith)
    simp [perspective, transform, set, Matrix4x4.default, hz, h1']

/-- On the camera plane `wResult` is `0` and the division is skipped. -/
theorem perspective_transform_z_zero (tan : ℚ → ℚ) (fov aspect near far : ℚ) (p : Vec3)
    (hz : p.z = 0) :
    ((perspective tan fov aspect near far).transform p 1).z =
      2 * far * near / (near - far) := by
  simp [perspective, transform, set, Matrix4x4.default, hz]

/-- The depth of a point off the camera plane as one quotient. -/
theorem perspective_transform_z_quot (tan : ℚ → ℚ) (fov aspect near far : ℚ) (p : Vec3)
    (hfar : near < far) (hz : p.z ≠ 0) :
    ((perspective tan fov aspect near far).transform p 1).z =
      ((far + near) * (-p.z) - 2 * far * near) / ((far - near) * (-p.z)) := by
  rw [perspective_transform_z tan fov aspect near far p hz]
  have h1 : near - far ≠ 0 := by linarith
  have h2 : far - near ≠ 0 := by linarith
  have h3 : -p.z ≠ 0 := neg_ne_zero.mpr hz
  field_simp
  ring


/-- The depth test `-1 <= z <= 1` on the output of the perspective matrix, for a point off the
camera plane. -/
theorem perspective_range_iff (tan : ℚ → ℚ) (fov aspect near far : ℚ) (p : Vec3)
    (hnear : 0 < near) (hfar : near < far) (hz : p.z ≠ 0) :
    (-1 ≤ ((perspective tan fov aspect near far).transform p 1).z ∧
      ((perspective tan fov aspect near far).transform p 1).z ≤ 1) ↔
    (near ≤ -p.z ∧ -p.z ≤ far) := by
  rw [perspective_transform_z_quot tan fov aspect near far p hfar hz]
  have hfn : 0 < far - near := by linarith
  have hf : 0 < far := by linarith
  rcases lt_or_gt_of_ne hz with hneg | hpos
  · have hd : 0 < -p.z := by linarith
    have hK : 0 < (far - near) * (-p.z) := mul_pos hfn hd
    rw [le_div_iff₀ hK, div_le_iff₀ hK]
    constructor
    · rintro ⟨h1, h2⟩
      constructor
      · by_contra hc
        push_neg at hc
        nlinarith
      · by_contra hc
        push_neg at hc
        nlinarith
    · rintro ⟨h1, h2⟩
      constructor <;> nlinarith
  · have hd : -p.z < 0 := by linarith
    have hK : (far - near) * (-p.z) < 0 := mul_neg_of_pos_of_neg hfn hd
    constructor
    · rintro ⟨_, h2⟩
      exfalso
      rw [div_le_iff_of_neg hK] at h2
      nlinarith
    · rintro ⟨h1, _⟩
      linarith

/-- A point behind the camera plane gets a depth above `1`. -/
theorem perspective_behind (tan : ℚ → ℚ) (fov aspect near far : ℚ) (p : Vec3)
    (hnear : 0 < near) (hfar : near < far) (hz : 0 < p.z) :
    1 < ((perspective tan fov aspect near far).transform p 1).z := by
  rw [perspective_transform_z_quot tan fov aspect near far p hfar (ne_of_gt hz)]
  have hfn : 0 < far - near := by linarith
  have hd : -p.z < 0 := by linarith
  have hK : (far - near) * (-p.z) < 0 := mul_neg_of_pos_of_neg hfn hd
  rw [one_lt_div_of_neg hK]
  nlinarith

/-- The two planes: depth `-1` at `-p.z = near`, depth `1` at `-p.z = far`. -/
theorem perspective_planes (tan : ℚ → ℚ) (fov aspect near far : ℚ) (p : Vec3)
    (hnear : 0 < near) (hfar : near < far) :
    (-p.z = near → ((perspective tan fov aspect near far).transform p 1).z = -1) ∧
    (-p.z = far → ((perspective tan fov aspect near far).transform p 1).z = 1) := by
  have hfn : far - near ≠ 0 := by linarith
  constructor
  · intro h
    have hz : p.z ≠ 0 := by intro h0; rw [h0] at h; linarith
    rw [perspective_transform_z_quot tan fov aspect near far p hfar hz, h]
    have hn : near ≠ 0 := ne_of_gt hnear
    field_simp
    ring
  · intro h
    have hz : p.z ≠ 0 := by intro h0; rw [h0] at h; linarith
    rw [perspective_transform_z_quot tan fov aspect near far p hfar hz, h]
    have hf : far ≠ 0 := by linarith
    field_simp
    ring

/-- On the camera plane the undivided depth `2 * far * near / (near - far)` passes the test
exactly when `2 * far * near <= far - near`. -/
theorem perspective_camera_plane (tan : ℚ → ℚ) (fov aspect near far : ℚ) (p : Vec3)
    (hnear : 0 < near) (hfar : near < far) (hz : p.z = 0) :
    ((perspective tan fov aspect near far).transform p 1).z = 2 * far * near / (near - far) ∧
    ((-1 ≤ ((perspective tan fov aspect near far).transform p 1).z ∧
      ((perspective tan fov aspect near far).transform p 1).z ≤ 1) ↔
      2 * far * near ≤ far - near) := by
  rw [perspective_transform_z_zero tan fov aspect near far p hz]
  refine ⟨rfl, ?_⟩
  have hK : near - far < 0 := by linarith
  have hf : 0 < far := by linarith
  have hfn : 0 < far * near := mul_pos hf hnear
  rw [le_div_iff_of_neg hK, div_le_iff_of_neg hK]
  constructor
  · rintro ⟨h1, _⟩; linarith
  · intro h; constructor <;> nlinarith

end Matrix4x4

/-! ### The fragment shader -/

theorem sqrtQ_nonneg (q : ℚ) : 0 ≤ sqrtQ q := by
  unfold sqrtQ
  exact div_nonneg (Nat.cast_nonneg _) (Nat.cast_nonneg _)

theorem powQ_nonneg (b e : ℚ) (hb : 0 ≤ b) : 0 ≤ powQ b e := by
  unfold powQ
  exact pow_nonneg hb _

namespace Shader

/-- A vector with non-negative components. -/
theorem colorVec_nonneg (c : Color) :
    0 ≤ (colorVec c).x ∧ 0 ≤ (colorVec c).y ∧ 0 ≤ (colorVec c).z :=
  ⟨Nat.cast_nonneg _, Nat.cast_nonneg _, Nat.cast_nonneg _⟩

/-- The contribution of a light of non-negative intensity keeps `finalColor` non-negative. -/
theorem addLight_nonneg (sqrt : ℚ → ℚ) (pow : ℚ → ℚ → ℚ) (hsqrt : ∀ q, 0 ≤ sqrt q)
    (hpow : ∀ b e, 0 ≤ b → 0 ≤ pow b e) (sh : Shader) (vertex : Vertex) (fc : Vec3)
    (light : Light) (hl : 0 ≤ light.intensity)
    (hfc : 0 ≤ fc.x ∧ 0 ≤ fc.y ∧ 0 ≤ fc.z) :
    0 ≤ (addLight sqrt pow sh vertex fc light).x ∧
    0 ≤ (addLight sqrt pow sh vertex fc light).y ∧
    0 ≤ (addLight sqrt pow sh vertex fc light).z := by
  obtain ⟨hd1, hd2, hd3⟩ := colorVec_nonneg sh.material.diffuse
  obtain ⟨hs1, hs2, hs3⟩ := colorVec_nonneg sh.material.specular
  obtain ⟨hc1, hc2, hc3⟩ := colorVec_nonneg light.color
  obtain ⟨hf1, hf2, hf3⟩ := hfc
  simp only [addLight, Vec3Of.add, Vec3Of.scale, Vec3Of.mul]
  generalize hdiff : max (0 : ℚ) _ = diff
  have hdiff0 : 0 ≤ diff := by rw [← hdiff]; exact le_max_left _ _
  generalize hspec : pow _ sh.material.shininess = spec
  have hspec0 : 0 ≤ spec := by rw [← hspec]; exact hpow _ _ (le_max_left _ _)
  generalize hatt : (if light.type = 0 then (1 : ℚ) else _) = att
  have hatt0 : 0 ≤ att := by
    rw [← hatt]
    split_ifs
    · norm_num
    · have hlen := hsqrt ((light.position.sub vertex.worldPos).x *
          (light.position.sub vertex.worldPos).x +
          (light.position.sub vertex.worldPos).y * (light.position.sub vertex.worldPos).y +
          (light.position.sub vertex.worldPos).z * (light.position.sub vertex.worldPos).z)
      simp only [Vec3Of.length]
      positivity
  refine ⟨?_, ?_, ?_⟩ <;> positivity

theorem foldl_addLight_nonneg (sqrt : ℚ → ℚ) (pow : ℚ → ℚ → ℚ) (hsqrt : ∀ q, 0 ≤ sqrt q)
    (hpow : ∀ b e, 0 ≤ b → 0 ≤ pow b e) (sh : Shader) (vertex : Vertex)
    (lights : List Light) (hl : ∀ l ∈ lights, 0 ≤ l.intensity) (fc : Vec3)
    (hfc : 0 ≤ fc.x ∧ 0 ≤ fc.y ∧ 0 ≤ fc.z) :
    0 ≤ (lights.foldl (addLight sqrt pow sh vertex) fc).x ∧
    0 ≤ (lights.foldl (addLight sqrt pow sh vertex) fc).y ∧
    0 ≤ (lights.foldl (addLight sqrt pow sh vertex) fc).z := by
  induction lights generalizing fc with
  | nil => exact hfc
  | cons l ls ih =>
    rw [List.foldl_cons]
    exact ih (fun l' hl' => hl l' (List.mem_cons_of_mem _ hl')) _
      (addLight_nonneg sqrt pow hsqrt hpow sh vertex fc l (hl l (List.mem_cons_self _ _)) hfc)

theorem calculateAmbientOcclusion_eq (sh : Shader) (vertex : Vertex) :
    sh.calculateAmbientOcclusion vertex = 1 := by
  unfold calculateAmbientOcclusion
  norm_num

theorem calculateShadow_eq (sh : Shader) (vertex : Vertex) : sh.calculateShadow vertex = 1 := by
  unfold calculateShadow
  split_ifs <;> rfl

theorem scale_one (v : Vec3) : v.scale 1 = v := by
  cases v
  simp [Vec3Of.scale]

/-- The value of `finalColor` before quantization does not depend on `enableAO`: it is the
clamped sum of the ambient term and the light contributions. -/
theorem fragmentFinal_eq (sqrt : ℚ → ℚ) (pow : ℚ → ℚ → ℚ) (sh : Shader) (vertex : Vertex) :
    fragmentFinal sqrt pow sh vertex =
      ⟨min 1 (sh.lights.foldl (addLight sqrt pow sh vertex)
          ((⟨0, 0, 0⟩ : Vec3).add ((colorVec sh.material.ambient).scale (1 / 255)))).x,
       min 1 (sh.lights.foldl (addLight sqrt pow sh vertex)
          ((⟨0, 0, 0⟩ : Vec3).add ((colorVec sh.material.ambient).scale (1 / 255)))).y,
       min 1 (sh.lights.foldl (addLight sqrt pow sh vertex)
          ((⟨0, 0, 0⟩ : Vec3).add ((colorVec sh.material.ambient).scale (1 / 255)))).z⟩ := by
  simp only [fragmentFinal]
  split_ifs
  · rw [calculateAmbientOcclusion_eq, scale_one]
  · rfl

/-- With non-negative light intensities every channel of the clamped `finalColor` lies in
`[0, 1]`. -/
theorem fragmentFinal_range (sqrt : ℚ → ℚ) (pow : ℚ → ℚ → ℚ) (hsqrt : ∀ q, 0 ≤ sqrt q)
    (hpow : ∀ b e, 0 ≤ b → 0 ≤ pow b e) (sh : Shader)
    (hl : ∀ l ∈ sh.lights, 0 ≤ l.intensity) (vertex : Vertex) :
    (0 ≤ (fragmentFinal sqrt pow sh vertex).x ∧ (fragmentFinal sqrt pow sh vertex).x ≤ 1) ∧
    (0 ≤ (fragmentFinal sqrt pow sh vertex).y ∧ (fragmentFinal sqrt pow sh vertex).y ≤ 1) ∧
    (0 ≤ (fragmentFinal sqrt pow sh vertex).z ∧ (fragmentFinal sqrt pow sh vertex).z ≤ 1) := by
  obtain ⟨ha1, ha2, ha3⟩ := colorVec_nonneg sh.material.ambient
  have hamb : 0 ≤ ((⟨0, 0, 0⟩ : Vec3).add ((colorVec sh.material.ambient).scale (1 / 255))).x ∧
      0 ≤ ((⟨0, 0, 0⟩ : Vec3).add ((colorVec sh.material.ambient).scale (1 / 255))).y ∧
      0 ≤ ((⟨0, 0, 0⟩ : Vec3).add ((colorVec sh.material.ambient).scale (1 / 255))).z := by
    simp only [Vec3Of.add, Vec3Of.scale]
    refine ⟨?_, ?_, ?_⟩ <;> positivity
  obtain ⟨h1, h2, h3⟩ :=
    foldl_addLight_nonneg sqrt pow hsqrt hpow sh vertex sh.lights hl _ hamb
  rw [fragmentFinal_eq]
  exact ⟨⟨le_min zero_le_one h1, min_le_left _ _⟩, ⟨le_min zero_le_one h2, min_le_left _ _⟩,
    ⟨le_min zero_le_one h3, min_le_left _ _⟩⟩

end Shader

/-! ### The loop body of `renderModel` -/

namespace Renderer

theorem renderFace_of_clipped (sqrt : ℚ → ℚ) (pow : ℚ → ℚ → ℚ) (model : Model)
    (st : Renderer × Nat) (face : Face)
    (h : ∃ i : Fin 3, cornerClipped (shaderVert sqrt st.1 model face i)) :
    renderFace sqrt pow model st face = some st := by
  have h' : cornerClipped (shaderVert sqrt st.1 model face 0) ∨
      cornerClipped (shaderVert sqrt st.1 model face 1) ∨
      cornerClipped (shaderVert sqrt st.1 model face 2) := by
    obtain ⟨i, hi⟩ := h
    fin_cases i
    · exact Or.inl hi
    · exact Or.inr (Or.inl hi)
    · exact Or.inr (Or.inr hi)
  unfold renderFace
  rw [if_pos h']

theorem renderFaces_cons (sqrt : ℚ → ℚ) (pow : ℚ → ℚ → ℚ) (model : Model) (face : Face)
    (faces : List Face) (st : Renderer × Nat)
    (h : renderFace sqrt pow model st face = some st) :
    renderFaces sqrt pow model (face :: faces) st = renderFaces sqrt pow model faces st := by
  simp only [renderFaces, h]

/-- The loop body for a face that passed the clip test and the back-face test of the code. -/
theorem renderFace_of_front (sqrt : ℚ → ℚ) (pow : ℚ → ℚ → ℚ) (model : Model)
    (st : Renderer × Nat) (face : Face)
    (hclip : ∀ i : Fin 3, ¬ cornerClipped (shaderVert sqrt st.1 model face i))
    (hfront : ((((worldVert model face 1).sub (worldVert model face 0)).cross
      ((worldVert model face 2).sub (worldVert model face 0))).dot
      (st.1.shader.cameraPos.sub (worldVert model face 0))) > 0) :
    renderFace sqrt pow model st face =
      if vertOnScreen st.1 (screenVert st.1 (shaderVert sqrt st.1 model face 0)) ∨
          vertOnScreen st.1 (screenVert st.1 (shaderVert sqrt st.1 model face 1)) ∨
          vertOnScreen st.1 (screenVert st.1 (shaderVert sqrt st.1 model face 2)) then
        (drawTriangle sqrt pow st.1
          (screenVert st.1 (shaderVert sqrt st.1 model face 0))
          (screenVert st.1 (shaderVert sqrt st.1 model face 1))
          (screenVert st.1 (shaderVert sqrt st.1 model face 2))
          (shaderVert sqrt st.1 model face 0)).map (fun r => (r, st.2 + 1))
      else some st := by
  have h' : ¬ (cornerClipped (shaderVert sqrt st.1 model face 0) ∨
      cornerClipped (shaderVert sqrt st.1 model face 1) ∨
      cornerClipped (shaderVert sqrt st.1 model face 2)) := by
    rintro (h | h | h)
    · exact hclip 0 h
    · exact hclip 1 h
    · exact hclip 2 h
  unfold renderFace
  rw [if_neg h']
  simp only
  rw [if_pos hfront]

/-- With the identity model matrix the mesh vertex used by the back-face test is the
world-space position computed by the vertex shader. -/
theorem worldPos_of_identity (sqrt : ℚ → ℚ) (r : Renderer) (model : Model) (face : Face)
    (i : Fin 3) (h : r.shader.modelMatrix = Matrix4x4.default) :
    (shaderVert sqrt r model face i).worldPos = worldVert model face i := by
  simp only [shaderVert, Shader.vertexShader]
  rw [h, Matrix4x4.default_transform]

/-- A submitted triangle increments the counter, so the state differs from the input state. -/
theorem map_succ_ne (o : Option Renderer) (st : Renderer × Nat) :
    o.map (fun r => (r, st.2 + 1)) ≠ some st := by
  intro h
  obtain ⟨r, _, hr⟩ := Option.map_eq_some'.mp h
  have := congrArg Prod.snd hr
  simp at this

end Renderer

/-! ### The back-face test -/

namespace Vec3Of

/-- Exchanging the two factors of a cross product negates its dot product with any vector. -/
theorem cross_dot_swap (u v w : Vec3) : (u.cross v).dot w = -((v.cross u).dot w) := by
  simp only [cross, dot]
  ring

end Vec3Of

namespace Renderer

/-- The loop body for a face whose back-face test value is not positive: nothing is drawn. -/
theorem renderFace_of_back (sqrt : ℚ → ℚ) (pow : ℚ → ℚ → ℚ) (model : Model)
    (st : Renderer × Nat) (face : Face)
    (hback : ¬ ((((worldVert model face 1).sub (worldVert model face 0)).cross
      ((worldVert model face 2).sub (worldVert model face 0))).dot
      (st.1.shader.cameraPos.sub (worldVert model face 0))) > 0) :
    renderFace sqrt pow model st face = some st := by
  unfold renderFace
  by_cases hc : cornerClipped (shaderVert sqrt st.1 model face 0) ∨
      cornerClipped (shaderVert sqrt st.1 model face 1) ∨
      cornerClipped (shaderVert sqrt st.1 model face 2)
  · rw [if_pos hc]
  · rw [if_neg hc]
    simp only []
    rw [if_neg hback]

/-- The test value of the twin of a face, whose second and third corners are exchanged. -/
theorem backface_value_twin (model : Model) (face twin : Face) (cameraPos : Vec3)
    (h0 : twin.v 0 = face.v 0) (h1 : twin.v 1 = face.v 2) (h2 : twin.v 2 = face.v 1) :
    (((worldVert model twin 1).sub (worldVert model twin 0)).cross
      ((worldVert model twin 2).sub (worldVert model twin 0))).dot
      (cameraPos.sub (worldVert model twin 0)) =
    -((((worldVert model face 1).sub (worldVert model face 0)).cross
      ((worldVert model face 2).sub (worldVert model face 0))).dot
      (cameraPos.sub (worldVert model face 0))) := by
  unfold worldVert
  rw [h0, h1, h2]
  exact Vec3Of.cross_dot_swap _ _ _

/-- The loop body keeps the shader, and either returns its state or counts one triangle. -/
theorem renderFace_shader (sqrt : ℚ → ℚ) (pow : ℚ → ℚ → ℚ) (model : Model)
    (st st1 : Renderer × Nat) (face : Face)
    (h : renderFace sqrt pow model st face = some st1) :
    st1.1.shader = st.1.shader ∧ (st1 = st ∨ st1.2 = st.2 + 1) := by
  unfold renderFace at h
  simp only [] at h
  split_ifs at h
  · have := Option.some.inj h
    subst this
    exact ⟨rfl, Or.inl rfl⟩
  · obtain ⟨r, hr, rfl⟩ := Option.map_eq_some'.mp h
    unfold drawTriangle at hr
    obtain ⟨c, _, rfl⟩ := Option.map_eq_some'.mp hr
    exact ⟨rfl, Or.inr rfl⟩
  · have := Option.some.inj h
    subst this
    exact ⟨rfl, Or.inl rfl⟩
  · have := Option.some.inj h
    subst this
    exact ⟨rfl, Or.inl rfl⟩

/-- Of a face and its twin, seen from the same camera position, at least one is not drawn. -/
theorem renderFace_twin (sqrt : ℚ → ℚ) (pow : ℚ → ℚ → ℚ) (model : Model) (face twin : Face)
    (h0 : twin.v 0 = face.v 0) (h1 : twin.v 1 = face.v 2) (h2 : twin.v 2 = face.v 1)
    (st st' : Renderer × Nat) (hcam : st'.1.shader.cameraPos = st.1.shader.cameraPos) :
    renderFace sqrt pow model st face = some st ∨
      renderFace sqrt pow model st' twin = some st' := by
  by_cases hf : ((((worldVert model face 1).sub (worldVert model face 0)).cross
      ((worldVert model face 2).sub (worldVert model face 0))).dot
      (st.1.shader.cameraPos.sub (worldVert model face 0))) > 0
  · right
    apply renderFace_of_back
    rw [backface_value_twin model face twin _ h0 h1 h2, hcam]
    intro hpos
    linarith
  · left
    exact renderFace_of_back sqrt pow model st face hf

end Renderer

/-! ### Sequences of calls -/

namespace Framebuffer

theorem clear_dims (fb : Framebuffer) (c : Color) :
    (fb.clear c).width = fb.width ∧ (fb.clear c).height = fb.height := ⟨rfl, rfl⟩

/-- A call that returns keeps the dimensions and keeps the framebuffer well formed, whatever
its arguments. -/
theorem call_inv {fb fb1 : Framebuffer} (hwf : fb.WF) (c : FbCall)
    (h : fb.call c = some fb1) :
    fb1.WF ∧ fb1.width = fb.width ∧ fb1.height = fb.height := by
  cases c with
  | clear color =>
    have he : fb.clear color = fb1 := Option.some.inj h
    subst he
    exact ⟨clear_WF hwf color, rfl, rfl⟩
  | setPixel x y color depth =>
    have he : fb.setPixel x y color depth = fb1 := Option.some.inj h
    subst he
    exact ⟨setPixel_WF hwf x y color depth, setPixel_width _ _ _ _ _,
      setPixel_height _ _ _ _ _⟩
  | drawLine fuel x0 y0 x1 y1 color =>
    obtain ⟨r, hr, he⟩ := Option.map_eq_some'.mp h
    subst he
    rw [drawLine32_eq_paint fuel fb x0 y0 x1 y1 color r hr]
    exact ⟨paint_WF color hwf _, (paint_dims color fb _).1, (paint_dims color fb _).2⟩
  | drawTriangle v0 v1 v2 color =>
    have he : fb.drawTriangle v0 v1 v2 color = fb1 := Option.some.inj h
    subst he
    exact ⟨drawTriangle_WF hwf v0 v1 v2 color, (drawTriangle_dims fb v0 v1 v2 color).1,
      (drawTriangle_dims fb v0 v1 v2 color).2⟩

/-- A call whose arguments are in range returns. -/
theorem call_returns (fb : Framebuffer) (c : FbCall) (hc : c.InRange) :
    ∃ fb1, fb.call c = some fb1 := by
  cases c with
  | clear color => exact ⟨_, rfl⟩
  | setPixel x y color depth => exact ⟨_, rfl⟩
  | drawLine fuel x0 y0 x1 y1 color =>
    obtain ⟨hx0, hy0, hx1, hy1, hdx, hdy, hfuel⟩ := hc
    obtain ⟨r, hr⟩ := drawLine32_returns fuel fb x0 y0 x1 y1 color hx0 hy0 hx1 hy1 hdx hdy
      hfuel
    exact ⟨r.1, by simp only [call, hr, Option.map_some']⟩
  | drawTriangle v0 v1 v2 color => exact ⟨_, rfl⟩

theorem calls_inv {fb fb1 : Framebuffer} (hwf : fb.WF) (cs : List FbCall)
    (h : fb.calls cs = some fb1) :
    fb1.WF ∧ fb1.width = fb.width ∧ fb1.height = fb.height := by
  induction cs generalizing fb with
  | nil =>
    have he : fb = fb1 := Option.some.inj h
    subst he
    exact ⟨hwf, rfl, rfl⟩
  | cons c cs ih =>
    simp only [calls] at h
    cases hc : fb.call c with
    | none => rw [hc] at h; exact absurd h (by simp)
    | some fb2 =>
      rw [hc] at h
      obtain ⟨hwf2, hw2, hh2⟩ := call_inv hwf c hc
      obtain ⟨hwf1, hw1, hh1⟩ := ih hwf2 h
      exact ⟨hwf1, hw1.trans hw2, hh1.trans hh2⟩

theorem calls_returns (fb : Framebuffer) (cs : List FbCall) (hcs : ∀ c ∈ cs, c.InRange) :
    ∃ fb1, fb.calls cs = some fb1 := by
  induction cs generalizing fb with
  | nil => exact ⟨fb, rfl⟩
  | cons c cs ih =>
    obtain ⟨fb2, h2⟩ := call_returns fb c (hcs c (List.mem_cons_self c cs))
    obtain ⟨fb1, h1⟩ := ih fb2 (fun c' hc' => hcs c' (List.mem_cons_of_mem c hc'))
    exact ⟨fb1, by simp only [calls, h2, h1]⟩

/-- The index computed for an in-bounds coordinate, as an integer, lies in `[0, w * h)`. -/
theorem index_range {fb : Framebuffer} {x y : Int} (h : fb.inBounds x y) :
    0 ≤ y * fb.width + x ∧ y * fb.width + x < fb.width * fb.height := by
  obtain ⟨hx0, hxw, hy0, hyh⟩ := h
  constructor <;> nlinarith

end Framebuffer

/-! ## Claims -/

open Framebuffer

/-- C1. `setPixel(x, y, color, depth)` on a well-formed framebuffer: when `(x, y)` is in
bounds and `depth` is strictly below the stored depth, the stored colour and depth at `(x, y)`
become `color` and `depth`; otherwise (out of bounds, or `depth` not below the stored depth,
equality included) the whole framebuffer is unchanged.  Every pixel either receives the pair
`(color, depth)` or keeps both its colour and its depth, no pixel other than `(x, y)` changes,
and no entry of either vector other than the one at index `y * width + x` changes. -/
theorem setPixel_contract (fb : Framebuffer) (hwf : fb.WF) (x y : Int) (color : Color)
    (depth : ℚ) :
    (fb.inBounds x y ∧ depth < fb.getDepth x y →
      (fb.setPixel x y color depth).getPixel x y = color ∧
      (fb.setPixel x y color depth).getDepth x y = depth) ∧
    (¬ (fb.inBounds x y ∧ depth < fb.getDepth x y) → fb.setPixel x y color depth = fb) ∧
    (fb.inBounds x y → fb.getDepth x y ≤ depth → fb.setPixel x y color depth = fb) ∧
    (∀ x' y' : Int,
      ((fb.setPixel x y color depth).getPixel x' y' = color ∧
        (fb.setPixel x y color depth).getDepth x' y' = depth) ∨
      ((fb.setPixel x y color depth).getPixel x' y' = fb.getPixel x' y' ∧
        (fb.setPixel x y color depth).getDepth x' y' = fb.getDepth x' y')) ∧
    (∀ x' y' : Int, (x', y') ≠ (x, y) →
      (fb.setPixel x y color depth).getPixel x' y' = fb.getPixel x' y' ∧
      (fb.setPixel x y color depth).getDepth x' y' = fb.getDepth x' y') ∧
    (∀ i : Nat, i ≠ fb.index x y →
      (fb.setPixel x y color depth).colorBuffer[i]? = fb.colorBuffer[i]? ∧
      (fb.setPixel x y color depth).depthBuffer[i]? = fb.depthBuffer[i]?) ∧
    (fb.setPixel x y color depth).width = fb.width ∧
    (fb.setPixel x y color depth).height = fb.height := by
  refine ⟨fun h => ⟨getPixel_setPixel_self hwf x y color depth h.1 h.2,
      getDepth_setPixel_self hwf x y color depth h.1 h.2⟩,
    setPixel_of_not fb x y color depth,
    fun _ hle => setPixel_of_not fb x y color depth (fun h => absurd h.2 (not_lt.mpr hle)),
    ?_, setPixel_other fb x y color depth, setPixel_getElem?_ne fb x y color depth,
    setPixel_width fb x y color depth, setPixel_height fb x y color depth⟩
  intro x' y'
  by_cases hp : fb.inBounds x y ∧ depth < fb.getDepth x y
  · by_cases he : (x', y') = (x, y)
    · left
      obtain ⟨rfl, rfl⟩ := Prod.mk.inj he
      exact ⟨getPixel_setPixel_self hwf _ _ color depth hp.1 hp.2,
        getDepth_setPixel_self hwf _ _ color depth hp.1 hp.2⟩
    · right
      exact setPixel_other fb x y color depth x' y' he
  · right
    rw [setPixel_of_not fb x y color depth hp]
    exact ⟨rfl, rfl⟩

/-- Witness of C1: a write of depth `5` at `(1, 1)` of a fresh `2 × 2` framebuffer. -/
theorem setPixel_contract_witness :
    (Framebuffer.new 2 2).WF ∧
    ((Framebuffer.new 2 2).setPixel 1 1 (Color.rgb 1 2 3) 5).getPixel 1 1 = Color.rgb 1 2 3 ∧
    ((Framebuffer.new 2 2).setPixel 1 1 (Color.rgb 1 2 3) 5).getDepth 1 1 = 5 :=
  ⟨by decide,
    (setPixel_contract (Framebuffer.new 2 2) (by decide) 1 1 (Color.rgb 1 2 3) 5).1
      ⟨by decide, by decide!⟩⟩

/-- C2. On a freshly cleared framebuffer (a well-formed framebuffer after `clear(bg)`, in
particular the result of the constructor), for an in-bounds `(x, y)`, colours `c1`, `c2` and
depths `d1 < d2` below the clear sentinel, `setPixel(x, y, c1, d1)` and
`setPixel(x, y, c2, d2)` in either order leave `getPixel(x, y) = c1` and
`getDepth(x, y) = d1`. -/
theorem depth_test_order_independent (fb : Framebuffer) (hwf : fb.WF) (bg : Color)
    (x y : Int) (hb : fb.inBounds x y) (c1 c2 : Color) (d1 d2 : ℚ) (h12 : d1 < d2)
    (h2 : d2 < FLT_MAX) :
    ((((fb.clear bg).setPixel x y c1 d1).setPixel x y c2 d2).getPixel x y = c1 ∧
      (((fb.clear bg).setPixel x y c1 d1).setPixel x y c2 d2).getDepth x y = d1) ∧
    ((((fb.clear bg).setPixel x y c2 d2).setPixel x y c1 d1).getPixel x y = c1 ∧
      (((fb.clear bg).setPixel x y c2 d2).setPixel x y c1 d1).getDepth x y = d1) :=
  setPixel_pair (clear_WF hwf bg) (by simpa using hb) c1 c2 h12
    (by rw [(clear_get hwf bg hb).2]; exact h2)

/-- Witness of C2: the constructor result `Framebuffer(2, 2)` is the cleared framebuffer, the
pixel is `(1, 0)` and the depths are `1/2 < 3/4`. -/
theorem depth_test_order_independent_witness :
    ((((Framebuffer.new 2 2).setPixel 1 0 (Color.rgb 9 0 0) (1 / 2)).setPixel 1 0
        (Color.rgb 0 9 0) (3 / 4)).getPixel 1 0 = Color.rgb 9 0 0 ∧
      (((Framebuffer.new 2 2).setPixel 1 0 (Color.rgb 9 0 0) (1 / 2)).setPixel 1 0
        (Color.rgb 0 9 0) (3 / 4)).getDepth 1 0 = 1 / 2) ∧
    ((((Framebuffer.new 2 2).setPixel 1 0 (Color.rgb 0 9 0) (3 / 4)).setPixel 1 0
        (Color.rgb 9 0 0) (1 / 2)).getPixel 1 0 = Color.rgb 9 0 0 ∧
      (((Framebuffer.new 2 2).setPixel 1 0 (Color.rgb 0 9 0) (3 / 4)).setPixel 1 0
        (Color.rgb 9 0 0) (1 / 2)).getDepth 1 0 = 1 / 2) :=
  depth_test_order_independent
    ⟨2, 2, List.replicate 4 Color.default, List.replicate 4 0⟩ (by decide) (Color.rgb 0 0 0)
    1 0 (by decide) (Color.rgb 9 0 0) (Color.rgb 0 9 0) (1 / 2) (3 / 4) (by decide!)
    (by decide!)

/-- C3, as stated, fails: two triangles of the same geometry and depth `0` but different
colours, drawn on a fresh `1 × 1` framebuffer.  The one drawn first keeps the pixel. -/
theorem drawTriangle_order_counterexample :
    ((Framebuffer.new 1 1).drawTriangle ⟨0, 0, 0⟩ ⟨2, 0, 0⟩ ⟨0, 2, 0⟩
        (Color.rgb 255 0 0)).drawTriangle ⟨0, 0, 0⟩ ⟨2, 0, 0⟩ ⟨0, 2, 0⟩ (Color.rgb 0 0 255) ≠
      ((Framebuffer.new 1 1).drawTriangle ⟨0, 0, 0⟩ ⟨2, 0, 0⟩ ⟨0, 2, 0⟩
        (Color.rgb 0 0 255)).drawTriangle ⟨0, 0, 0⟩ ⟨2, 0, 0⟩ ⟨0, 2, 0⟩ (Color.rgb 255 0 0) ∧
    (((Framebuffer.new 1 1).drawTriangle ⟨0, 0, 0⟩ ⟨2, 0, 0⟩ ⟨0, 2, 0⟩
        (Color.rgb 255 0 0)).drawTriangle ⟨0, 0, 0⟩ ⟨2, 0, 0⟩ ⟨0, 2, 0⟩
        (Color.rgb 0 0 255)).colorBuffer = [Color.rgb 255 0 0] ∧
    (((Framebuffer.new 1 1).drawTriangle ⟨0, 0, 0⟩ ⟨2, 0, 0⟩ ⟨0, 2, 0⟩
        (Color.rgb 0 0 255)).drawTriangle ⟨0, 0, 0⟩ ⟨2, 0, 0⟩ ⟨0, 2, 0⟩
        (Color.rgb 255 0 0)).colorBuffer = [Color.rgb 0 0 255] := by
  decide!

/-- C3, amended.  For every well-formed framebuffer and every two triangles
`(v0, v1, v2, colorA)` and `(u0, u1, u2, colorB)`, drawing A then B and drawing B then A give
the same depth grid, and the same colour at every pixel except those where both triangles,
each drawn alone, pass the depth test with exactly the same depth and the colours differ; at
such a pixel the triangle drawn first keeps its colour.  When no pixel has such a tie the
two orders give the same framebuffer. -/
theorem drawTriangle_order (fb : Framebuffer) (hwf : fb.WF) (v0 v1 v2 : Vec3)
    (colorA : Color) (u0 u1 u2 : Vec3) (colorB : Color) :
    ((fb.drawTriangle v0 v1 v2 colorA).drawTriangle u0 u1 u2 colorB).depthBuffer =
      ((fb.drawTriangle u0 u1 u2 colorB).drawTriangle v0 v1 v2 colorA).depthBuffer ∧
    (∀ x y : Int,
      ((fb.drawTriangle v0 v1 v2 colorA).drawTriangle u0 u1 u2 colorB).getDepth x y =
        ((fb.drawTriangle u0 u1 u2 colorB).drawTriangle v0 v1 v2 colorA).getDepth x y) ∧
    (∀ x y : Int,
      ((fb.drawTriangle v0 v1 v2 colorA).getDepth x y ≠
          (fb.drawTriangle u0 u1 u2 colorB).getDepth x y ∨
        (fb.drawTriangle v0 v1 v2 colorA).getDepth x y = fb.getDepth x y ∨
        colorA = colorB) →
      ((fb.drawTriangle v0 v1 v2 colorA).drawTriangle u0 u1 u2 colorB).getPixel x y =
        ((fb.drawTriangle u0 u1 u2 colorB).drawTriangle v0 v1 v2 colorA).getPixel x y) ∧
    (∀ x y : Int,
      (fb.drawTriangle v0 v1 v2 colorA).getDepth x y =
        (fb.drawTriangle u0 u1 u2 colorB).getDepth x y →
      (fb.drawTriangle v0 v1 v2 colorA).getDepth x y < fb.getDepth x y →
      ((fb.drawTriangle v0 v1 v2 colorA).drawTriangle u0 u1 u2 colorB).getPixel x y = colorA ∧
        ((fb.drawTriangle u0 u1 u2 colorB).drawTriangle v0 v1 v2 colorA).getPixel x y =
          colorB) ∧
    ((∀ x y : Int, fb.inBounds x y →
        ((fb.drawTriangle v0 v1 v2 colorA).getDepth x y ≠
            (fb.drawTriangle u0 u1 u2 colorB).getDepth x y ∨
          (fb.drawTriangle v0 v1 v2 colorA).getDepth x y = fb.getDepth x y ∨
          colorA = colorB)) →
      (fb.drawTriangle v0 v1 v2 colorA).drawTriangle u0 u1 u2 colorB =
        (fb.drawTriangle u0 u1 u2 colorB).drawTriangle v0 v1 v2 colorA) := by
  have hA := drawTriangle_dims fb v0 v1 v2 colorA
  have hB := drawTriangle_dims fb u0 u1 u2 colorB
  rw [drawTriangle_eq_paint (fb.drawTriangle v0 v1 v2 colorA),
    drawTriangle_eq_paint (fb.drawTriangle u0 u1 u2 colorB), hA.1, hA.2, hB.1, hB.2,
    drawTriangle_eq_paint fb v0 v1 v2 colorA, drawTriangle_eq_paint fb u0 u1 u2 colorB]
  exact paint_order colorA colorB hwf _ _

/-- Witness of C3 (amended): a red triangle at depth `0` and a blue one at depth `1/2` over
the single pixel of a fresh `1 × 1` framebuffer; both orders leave the pixel red. -/
theorem drawTriangle_order_witness :
    (Framebuffer.new 1 1).WF ∧
    (((Framebuffer.new 1 1).drawTriangle ⟨0, 0, 0⟩ ⟨2, 0, 0⟩ ⟨0, 2, 0⟩
        (Color.rgb 255 0 0)).drawTriangle ⟨0, 0, 1 / 2⟩ ⟨2, 0, 1 / 2⟩ ⟨0, 2, 1 / 2⟩
        (Color.rgb 0 0 255)).getPixel 0 0 =
      (((Framebuffer.new 1 1).drawTriangle ⟨0, 0, 1 / 2⟩ ⟨2, 0, 1 / 2⟩ ⟨0, 2, 1 / 2⟩
        (Color.rgb 0 0 255)).drawTriangle ⟨0, 0, 0⟩ ⟨2, 0, 0⟩ ⟨0, 2, 0⟩
        (Color.rgb 255 0 0)).getPixel 0 0 :=
  ⟨by decide,
    (drawTriangle_order (Framebuffer.new 1 1) (by decide) ⟨0, 0, 0⟩ ⟨2, 0, 0⟩ ⟨0, 2, 0⟩
      (Color.rgb 255 0 0) ⟨0, 0, 1 / 2⟩ ⟨2, 0, 1 / 2⟩ ⟨0, 2, 1 / 2⟩
      (Color.rgb 0 0 255)).2.2.1 0 0 (Or.inl (by decide!))⟩

/-- C5, as stated, fails: on a fresh `2 × 2` framebuffer the triangle with 2-D projection
`(1/2, 1/2)`, `(5/2, 1/2)`, `(1/2, 5/2)` changes the pixel `(0, 0)`, although the integer
point `(0, 0)` has barycentric weights `(3/2, -1/4, -1/4)` and lies outside the triangle.  The
loop tests the sample point `(1/2, 1/2)` and writes its truncation. -/
theorem drawTriangle_integer_pixel_counterexample :
    ((Framebuffer.new 2 2).drawTriangle ⟨1 / 2, 1 / 2, 0⟩ ⟨5 / 2, 1 / 2, 0⟩ ⟨1 / 2, 5 / 2, 0⟩
        (Color.rgb 255 0 0)).getPixel 0 0 ≠ (Framebuffer.new 2 2).getPixel 0 0 ∧
    ((Framebuffer.new 2 2).drawTriangle ⟨1 / 2, 1 / 2, 0⟩ ⟨5 / 2, 1 / 2, 0⟩ ⟨1 / 2, 5 / 2, 0⟩
        (Color.rgb 255 0 0)).getDepth 0 0 ≠ (Framebuffer.new 2 2).getDepth 0 0 ∧
    ¬ insideTriangle ⟨1 / 2, 1 / 2, 0⟩ ⟨5 / 2, 1 / 2, 0⟩ ⟨1 / 2, 5 / 2, 0⟩ 0 0 ∧
    barycentric ⟨0, 0⟩ ⟨1 / 2, 1 / 2⟩ ⟨5 / 2, 1 / 2⟩ ⟨1 / 2, 5 / 2⟩ = ⟨3 / 2, -1 / 4, -1 / 4⟩ := by
  decide!

/-- C5, amended.  `drawTriangle` tests the sample points of its loops, which start at the
lower corner `bboxmin` of the clamped bounding box and advance by `1`: a pixel `(px, py)` of a
well-formed framebuffer is changed only if some sample point
`(bboxmin.x + i, bboxmin.y + j)` lying in the pixel square `[px, px+1) × [py, py+1)` has all
three barycentric weights non-negative.  When both coordinates of `bboxmin` are integers (as
for integer vertex coordinates, or a corner clamped to `0`) the sample point is the integer
point `(px, py)` itself. -/
theorem drawTriangle_changed_pixel (fb : Framebuffer) (hwf : fb.WF) (v0 v1 v2 : Vec3)
    (color : Color) (px py : Int)
    (hch : (fb.drawTriangle v0 v1 v2 color).getPixel px py ≠ fb.getPixel px py ∨
      (fb.drawTriangle v0 v1 v2 color).getDepth px py ≠ fb.getDepth px py) :
    (∃ (i j : Nat),
      ((px : ℚ) ≤ bboxmin v0.x v1.x v2.x + (i : ℚ) ∧
        bboxmin v0.x v1.x v2.x + (i : ℚ) < (px : ℚ) + 1) ∧
      ((py : ℚ) ≤ bboxmin v0.y v1.y v2.y + (j : ℚ) ∧
        bboxmin v0.y v1.y v2.y + (j : ℚ) < (py : ℚ) + 1) ∧
      insideTriangle v0 v1 v2 (bboxmin v0.x v1.x v2.x + (i : ℚ))
        (bboxmin v0.y v1.y v2.y + (j : ℚ))) ∧
    ((∃ m n : Int, bboxmin v0.x v1.x v2.x = (m : ℚ) ∧ bboxmin v0.y v1.y v2.y = (n : ℚ)) →
      insideTriangle v0 v1 v2 (px : ℚ) (py : ℚ)) := by
  obtain ⟨i, j, hx, hy, hin⟩ := sample_of_changed hwf v0 v1 v2 color (cell_ne_of_changed hch)
  have hi0 : (0 : ℚ) ≤ (i : ℚ) := Nat.cast_nonneg i
  have hj0 : (0 : ℚ) ≤ (j : ℚ) := Nat.cast_nonneg j
  have hbx := bboxmin_nonneg v0.x v1.x v2.x
  have hby := bboxmin_nonneg v0.y v1.y v2.y
  rw [truncToInt_of_nonneg (by linarith)] at hx hy
  constructor
  · refine ⟨i, j, ?_, ?_, hin⟩
    · rw [← hx]; exact ⟨Int.floor_le _, Int.lt_floor_add_one _⟩
    · rw [← hy]; exact ⟨Int.floor_le _, Int.lt_floor_add_one _⟩
  · rintro ⟨m, n, hm, hn⟩
    rw [hm] at hx hin
    rw [hn] at hy hin
    have hx' : ((m + (i : Int) : Int) : ℚ) = (m : ℚ) + (i : ℚ) := by push_cast; rfl
    have hy' : ((n + (j : Int) : Int) : ℚ) = (n : ℚ) + (j : ℚ) := by push_cast; rfl
    rw [← hx', Int.floor_intCast] at hx
    rw [← hy', Int.floor_intCast] at hy
    rw [← hx', ← hy', hx, hy] at hin
    exact hin

/-- Witness of C5 (amended): the triangle of the counterexample; the changed pixel `(0, 0)`
contains a sample point that passed the test. -/
theorem drawTriangle_changed_pixel_witness :
    ((Framebuffer.new 2 2).drawTriangle ⟨1 / 2, 1 / 2, 0⟩ ⟨5 / 2, 1 / 2, 0⟩ ⟨1 / 2, 5 / 2, 0⟩
      (Color.rgb 255 0 0)).getDepth 0 0 ≠ (Framebuffer.new 2 2).getDepth 0 0 ∧
    ∃ (i j : Nat),
      (((0 : Int) : ℚ) ≤ bboxmin (1 / 2) (5 / 2) (1 / 2) + (i : ℚ) ∧
        bboxmin (1 / 2) (5 / 2) (1 / 2) + (i : ℚ) < ((0 : Int) : ℚ) + 1) ∧
      (((0 : Int) : ℚ) ≤ bboxmin (1 / 2) (1 / 2) (5 / 2) + (j : ℚ) ∧
        bboxmin (1 / 2) (1 / 2) (5 / 2) + (j : ℚ) < ((0 : Int) : ℚ) + 1) ∧
      insideTriangle ⟨1 / 2, 1 / 2, 0⟩ ⟨5 / 2, 1 / 2, 0⟩ ⟨1 / 2, 5 / 2, 0⟩
        (bboxmin (1 / 2) (5 / 2) (1 / 2) + (i : ℚ)) (bboxmin (1 / 2) (1 / 2) (5 / 2) + (j : ℚ)) :=
  ⟨by decide!,
    (drawTriangle_changed_pixel (Framebuffer.new 2 2) (by decide) ⟨1 / 2, 1 / 2, 0⟩
      ⟨5 / 2, 1 / 2, 0⟩ ⟨1 / 2, 5 / 2, 0⟩ (Color.rgb 255 0 0) 0 0 (Or.inr (by decide!))).1⟩

/-- C6. `drawLine(x, y, x, y, color)` writes exactly one pixel: the loop makes the single call
`setPixel(x, y, color)` and stops (any positive fuel suffices).  On a freshly cleared
well-formed framebuffer with `(x, y)` in bounds, the pixel `(x, y)` then holds `color` with
depth `0`, and the colour and depth of every other pixel are unchanged.  The method on 32-bit
`int`s returns the same result. -/
theorem drawLine_single_pixel (fb : Framebuffer) (hwf : fb.WF) (bg : Color) (x y : Int)
    (hb : fb.inBounds x y) (color : Color) (fuel : Nat) :
    drawLine (fuel + 1) (fb.clear bg) x y x y color =
      some ((fb.clear bg).setPixel x y color 0, [(x, y)]) ∧
    ((fb.clear bg).setPixel x y color 0).getPixel x y = color ∧
    ((fb.clear bg).setPixel x y color 0).getDepth x y = 0 ∧
    (∀ x' y' : Int, (x', y') ≠ (x, y) →
      ((fb.clear bg).setPixel x y color 0).getPixel x' y' = (fb.clear bg).getPixel x' y' ∧
      ((fb.clear bg).setPixel x y color 0).getDepth x' y' = (fb.clear bg).getDepth x' y') ∧
    (∀ i : Nat, i ≠ fb.index x y →
      ((fb.clear bg).setPixel x y color 0).colorBuffer[i]? = (fb.clear bg).colorBuffer[i]? ∧
      ((fb.clear bg).setPixel x y color 0).depthBuffer[i]? =
        (fb.clear bg).depthBuffer[i]?) ∧
    drawLine32 (fuel + 1) (fb.clear bg) x y x y color =
      some ((fb.clear bg).setPixel x y color 0, [(x, y)]) := by
  have hd : (0 : ℚ) < (fb.clear bg).getDepth x y := by
    rw [(clear_get hwf bg hb).2]; unfold FLT_MAX; norm_num
  have hb' : (fb.clear bg).inBounds x y := hb
  refine ⟨?_, getPixel_setPixel_self (clear_WF hwf bg) x y color 0 hb' hd,
    getDepth_setPixel_self (clear_WF hwf bg) x y color 0 hb' hd,
    setPixel_other (fb.clear bg) x y color 0,
    setPixel_getElem?_ne (fb.clear bg) x y color 0, ?_⟩
  · simp [drawLine, drawLineLoop]
  · simp [drawLine32, drawLineLoop32]

/-- Witness of C6: the pixel `(1, 2)` of a `3 × 3` framebuffer cleared to black. -/
theorem drawLine_single_pixel_witness :
    drawLine 1 (Framebuffer.new 3 3) 1 2 1 2 (Color.rgb 255 255 255) =
      some ((Framebuffer.new 3 3).setPixel 1 2 (Color.rgb 255 255 255) 0, [(1, 2)]) ∧
    ((Framebuffer.new 3 3).setPixel 1 2 (Color.rgb 255 255 255) 0).getPixel 1 2 =
      Color.rgb 255 255 255 ∧
    ((Framebuffer.new 3 3).setPixel 1 2 (Color.rgb 255 255 255) 0).getDepth 1 2 = 0 :=
  have h := drawLine_single_pixel
    ⟨3, 3, List.replicate 9 Color.default, List.replicate 9 0⟩ (by decide) (Color.rgb 0 0 0)
    1 2 (by decide) (Color.rgb 255 255 255) 0
  ⟨h.1, h.2.1, h.2.2.1⟩

/-- C7, as stated, fails: a pixel whose stored depth is `-1/2` (written by an earlier
`setPixel`; depths handed to the rasterizer range over `[-1, 1]`) is visited by the line but
keeps its colour, because `drawLine` calls the depth-tested `setPixel` with depth `0`. -/
theorem drawLine_ignores_depth_counterexample :
    ((Framebuffer.new 1 1).setPixel 0 0 (Color.rgb 255 0 0) (-1 / 2)).inBounds 0 0 ∧
    drawLine32 1 ((Framebuffer.new 1 1).setPixel 0 0 (Color.rgb 255 0 0) (-1 / 2)) 0 0 0 0
        (Color.rgb 255 255 255) =
      some ((Framebuffer.new 1 1).setPixel 0 0 (Color.rgb 255 0 0) (-1 / 2), [(0, 0)]) ∧
    ((Framebuffer.new 1 1).setPixel 0 0 (Color.rgb 255 0 0) (-1 / 2)).getPixel 0 0 =
      Color.rgb 255 0 0 ∧
    ((Framebuffer.new 1 1).setPixel 0 0 (Color.rgb 255 0 0) (-1 / 2)).getPixel 0 0 ≠
      Color.rgb 255 255 255 := by
  decide!

/-- C7, amended.  `drawLine` draws through the depth test of `setPixel` with depth `0`.  For
every well-formed framebuffer, every colour and all `int` end points with `|x1 - x0|` and
`|y1 - y0|` below `2^29` (no operation of the method overflows), the call of the method on
32-bit `int`s returns (any fuel above `max(|x1 - x0|, |y1 - y0|)` suffices), its first
`setPixel` call is at the start point `(x0, y0)`, and afterwards every in-bounds visited
pixel whose stored depth was greater than `0` holds the line colour with depth `0`, while
every pixel whose stored depth was `0` or less, and every pixel that was not visited, keeps
its colour and depth. -/
theorem drawLine_depth_tested (fb : Framebuffer) (hwf : fb.WF) (x0 y0 x1 y1 : Int)
    (color : Color) (fuel : Nat) (hx0 : Int32Range x0) (hy0 : Int32Range y0)
    (hx1 : Int32Range x1) (hy1 : Int32Range y1) (hdx : |x1 - x0| < 536870912)
    (hdy : |y1 - y0| < 536870912) (hfuel : (max |x1 - x0| |y1 - y0|).toNat < fuel) :
    ∃ (fb' : Framebuffer) (pts : List (Int × Int)),
      drawLine32 fuel fb x0 y0 x1 y1 color = some (fb', pts) ∧
      (∃ tl, pts = (x0, y0) :: tl) ∧
      (∀ x y : Int, (x, y) ∈ pts → fb.inBounds x y → 0 < fb.getDepth x y →
        fb'.getPixel x y = color ∧ fb'.getDepth x y = 0) ∧
      (∀ x y : Int, fb.getDepth x y ≤ 0 →
        fb'.getPixel x y = fb.getPixel x y ∧ fb'.getDepth x y = fb.getDepth x y) ∧
      (∀ x y : Int, (x, y) ∉ pts →
        fb'.getPixel x y = fb.getPixel x y ∧ fb'.getDepth x y = fb.getDepth x y) := by
  obtain ⟨⟨fb', pts⟩, hr⟩ := drawLine32_returns fuel fb x0 y0 x1 y1 color hx0 hy0 hx1 hy1
    hdx hdy hfuel
  obtain ⟨hpaint, htl⟩ := drawLineLoop32_paint color x1 y1 _ _ _ _ fuel fb x0 y0 _ _ hr
  simp only at hpaint htl
  have hcell : ∀ x y : Int, fb'.cell x y =
      if fb.inBounds x y ∧ (x, y) ∈ pts ∧ 0 < fb.getDepth x y then (color, 0)
      else fb.cell x y := by
    intro x y
    by_cases hb : fb.inBounds x y
    · rw [hpaint, cell_paint color hwf _ hb, nearest_line]
      by_cases hm : (x, y) ∈ pts
      · rw [if_pos hm]
        by_cases hd : 0 < fb.getDepth x y
        · rw [if_pos ⟨hb, hm, hd⟩]
          simp only [applyNearest, cell]
          rw [if_pos hd]
        · rw [if_neg (fun h => hd h.2.2)]
          simp only [applyNearest, cell]
          rw [if_neg hd]
      · rw [if_neg hm, if_neg (fun h => hm h.2.1)]
        rfl
    · rw [if_neg (fun h => hb h.1), cell_of_not_inBounds hb, hpaint,
        cell_of_not_inBounds (fun h => hb ((paint_inBounds _ _ _ x y).mp h))]
  refine ⟨fb', pts, hr, htl, ?_, ?_, ?_⟩
  · intro x y hm hb hd
    have h := hcell x y
    rw [if_pos ⟨hb, hm, hd⟩] at h
    exact ⟨congrArg Prod.fst h, congrArg Prod.snd h⟩
  · intro x y hd
    have h := hcell x y
    rw [if_neg (fun h => absurd h.2.2 (not_lt.mpr hd))] at h
    exact ⟨congrArg Prod.fst h, congrArg Prod.snd h⟩
  · intro x y hm
    have h := hcell x y
    rw [if_neg (fun h => hm h.2.1)] at h
    exact ⟨congrArg Prod.fst h, congrArg Prod.snd h⟩

/-- Witness of C7 (amended): the line from `(0, 0)` to `(2, 1)` on a fresh `3 × 3`
framebuffer, with fuel `3`. -/
theorem drawLine_depth_tested_witness :
    (Framebuffer.new 3 3).WF ∧
    (Int32Range 0 ∧ Int32Range 0 ∧ Int32Range 2 ∧ Int32Range 1) ∧
    (|(2 : Int) - 0| < 536870912 ∧ |(1 : Int) - 0| < 536870912) ∧
    (max |(2 : Int) - 0| |(1 : Int) - 0|).toNat < 3 ∧
    ∃ (fb' : Framebuffer) (pts : List (Int × Int)),
      drawLine32 3 (Framebuffer.new 3 3) 0 0 2 1 (Color.rgb 255 255 255) = some (fb', pts) ∧
      (∃ tl, pts = (0, 0) :: tl) ∧
      (∀ x y : Int, (x, y) ∈ pts → (Framebuffer.new 3 3).inBounds x y →
        0 < (Framebuffer.new 3 3).getDepth x y →
        fb'.getPixel x y = Color.rgb 255 255 255 ∧ fb'.getDepth x y = 0) ∧
      (∀ x y : Int, (Framebuffer.new 3 3).getDepth x y ≤ 0 →
        fb'.getPixel x y = (Framebuffer.new 3 3).getPixel x y ∧
        fb'.getDepth x y = (Framebuffer.new 3 3).getDepth x y) ∧
      (∀ x y : Int, (x, y) ∉ pts →
        fb'.getPixel x y = (Framebuffer.new 3 3).getPixel x y ∧
        fb'.getDepth x y = (Framebuffer.new 3 3).getDepth x y) :=
  ⟨by decide, ⟨by decide, by decide, by decide, by decide⟩, ⟨by decide, by decide⟩,
    by decide,
    drawLine_depth_tested (Framebuffer.new 3 3) (by decide) 0 0 2 1 (Color.rgb 255 255 255) 3
      (by decide) (by decide) (by decide) (by decide) (by decide) (by decide) (by decide)⟩

/-- C8. Colour addition saturates and never wraps: each of the `r`, `g`, `b` channels of
`c1 + c2` is `min(255, c1.channel + c2.channel)`, hence at most `255`, and the alpha is the
alpha of `c1`; in particular `Color(200,0,0) + Color(100,0,0)` is `Color(255,0,0)`. -/
theorem Color_add_saturates (c1 c2 : Color) :
    (c1.add c2).r = min 255 (c1.r + c2.r) ∧
    (c1.add c2).g = min 255 (c1.g + c2.g) ∧
    (c1.add c2).b = min 255 (c1.b + c2.b) ∧
    (c1.add c2).a = c1.a ∧
    ((c1.add c2).r ≤ 255 ∧ (c1.add c2).g ≤ 255 ∧ (c1.add c2).b ≤ 255) ∧
    (Color.rgb 200 0 0).add (Color.rgb 100 0 0) = Color.rgb 255 0 0 := by
  have hr : (c1.add c2).r = min 255 (c1.r + c2.r) := toUChar_min c1.r c2.r
  have hg : (c1.add c2).g = min 255 (c1.g + c2.g) := toUChar_min c1.g c2.g
  have hb : (c1.add c2).b = min 255 (c1.b + c2.b) := toUChar_min c1.b c2.b
  refine ⟨hr, hg, hb, rfl, ⟨?_, ?_, ?_⟩, by decide⟩
  · rw [hr]; exact min_le_left _ _
  · rw [hg]; exact min_le_left _ _
  · rw [hb]; exact min_le_left _ _

/-- C9, at the failing input.  `Color(200,0,0) * 2.0` computes `(unsigned char)(400.0f)`:
`operator*` applies no `std::min(255, …)`, the value `400` does not fit an `unsigned char`,
and the conversion is undefined (the model returns `none`); the result is not the saturated
`Color(255,0,0)`. -/
theorem Color_mul_not_saturating :
    (Color.rgb 200 0 0).mul 2 = none ∧
    (Color.rgb 200 0 0).mul 2 ≠ some (Color.rgb 255 0 0) ∧
    truncToInt (((Color.rgb 200 0 0).r : ℚ) * 2) = 400 ∧
    floatToUChar (((Color.rgb 200 0 0).r : ℚ) * 2) = none := by
  decide!

/-- C10. The default-constructed `Matrix4x4` is the identity and `transform(P)` with the
default `w = 1` returns `P`, component for component (over exact arithmetic). -/
theorem identity_transform (P : Vec3) :
    Matrix4x4.default.transform P 1 = P ∧ Matrix4x4.default.transformPoint P = P ∧
    (∀ i j : Fin 4, Matrix4x4.default.m i j = if i = j then 1 else 0) := by
  have h : Matrix4x4.default.transform P 1 = P := by
    simp [Matrix4x4.transform, Matrix4x4.default]
  exact ⟨h, h, fun _ _ => rfl⟩

/-- C12. Inverse round trip: for affine matrices `A` and `Ainv` with `A * Ainv` equal to the
identity matrix and every point `P`, `A.transform(Ainv.transform(P))` is `P` (over exact
arithmetic); this covers `translation(x, y, z)` with `translation(-x, -y, -z)`, and
`scaling(x, y, z)` with `scaling(1/x, 1/y, 1/z)` for non-zero `x`, `y`, `z`. -/
theorem inverse_round_trip (A Ainv : Matrix4x4) (hA : A.Affine) (hAinv : Ainv.Affine)
    (h : A.mul Ainv = Matrix4x4.default) (P : Vec3) :
    A.transform (Ainv.transform P 1) 1 = P ∧
    (∀ x y z : ℚ,
      (Matrix4x4.translation x y z).transform
        ((Matrix4x4.translation (-x) (-y) (-z)).transform P 1) 1 = P) ∧
    (∀ x y z : ℚ, x ≠ 0 → y ≠ 0 → z ≠ 0 →
      (Matrix4x4.scaling x y z).transform
        ((Matrix4x4.scaling (1 / x) (1 / y) (1 / z)).transform P 1) 1 = P) := by
  have _ := hA
  exact ⟨Matrix4x4.transform_inverse hAinv h P,
    fun x y z => Matrix4x4.transform_inverse (Matrix4x4.translation_affine _ _ _)
      (Matrix4x4.translation_mul_neg x y z) P,
    fun x y z hx hy hz => Matrix4x4.transform_inverse (Matrix4x4.scaling_affine _ _ _)
      (Matrix4x4.scaling_mul_inv x y z hx hy hz) P⟩

/-- Witness of C12: `A = translation(1, 2, 3)`, `Ainv = translation(-1, -2, -3)`,
`P = (5, 7, 11)`. -/
theorem inverse_round_trip_witness :
    (Matrix4x4.translation 1 2 3).Affine ∧ (Matrix4x4.translation (-1) (-2) (-3)).Affine ∧
    (Matrix4x4.translation 1 2 3).transform
      ((Matrix4x4.translation (-1) (-2) (-3)).transform ⟨5, 7, 11⟩ 1) 1 = ⟨5, 7, 11⟩ :=
  ⟨by decide, by decide,
    (inverse_round_trip (Matrix4x4.translation 1 2 3) (Matrix4x4.translation (-1) (-2) (-3))
      (by decide) (by decide) (Matrix4x4.translation_mul_neg 1 2 3) ⟨5, 7, 11⟩).1⟩

/-- C13. Transforming with `w = 0` skips translation and the perspective divide: for every
affine matrix `M` and every vector `v`, `M.transform(v, 0)` is the upper-left 3×3 block of `M`
applied to `v` (an expression without division), so two affine matrices with the same block
give the same result whatever their translation columns; in particular
`translation(x, y, z).transform(v, 0)` is `v`.  This is the call `vertexShader` makes for the
normal. -/
theorem transform_direction (M : Matrix4x4) (hM : M.Affine) (v : Vec3) :
    M.transform v 0 =
      ⟨M.m 0 0 * v.x + M.m 0 1 * v.y + M.m 0 2 * v.z,
       M.m 1 0 * v.x + M.m 1 1 * v.y + M.m 1 2 * v.z,
       M.m 2 0 * v.x + M.m 2 1 * v.y + M.m 2 2 * v.z⟩ ∧
    (∀ M2 : Matrix4x4, M2.Affine →
      (∀ i j : Fin 3, M2.m (Fin.castSucc i) (Fin.castSucc j) =
        M.m (Fin.castSucc i) (Fin.castSucc j)) →
      M2.transform v 0 = M.transform v 0) ∧
    (∀ x y z : ℚ, (Matrix4x4.translation x y z).transform v 0 = v) ∧
    (∀ (sqrt : ℚ → ℚ) (sh : Shader) (p n : Vec3) (t : Vec2),
      (sh.vertexShader sqrt p n t).normal = (sh.modelMatrix.transform n 0).normalize sqrt) := by
  have key : ∀ N : Matrix4x4, N.Affine → N.transform v 0 =
      ⟨N.m 0 0 * v.x + N.m 0 1 * v.y + N.m 0 2 * v.z,
       N.m 1 0 * v.x + N.m 1 1 * v.y + N.m 1 2 * v.z,
       N.m 2 0 * v.x + N.m 2 1 * v.y + N.m 2 2 * v.z⟩ := by
    intro N hN
    rw [Matrix4x4.transform_zero_of_affine hN]
    simp [Matrix4x4.row]
  refine ⟨key M hM, ?_, fun x y z => Matrix4x4.translation_transform_zero x y z v,
    fun _ _ _ _ _ => rfl⟩
  intro M2 hM2 hblock
  rw [key M hM, key M2 hM2]
  have h00 := hblock 0 0
  have h01 := hblock 0 1
  have h02 := hblock 0 2
  have h10 := hblock 1 0
  have h11 := hblock 1 1
  have h12 := hblock 1 2
  have h20 := hblock 2 0
  have h21 := hblock 2 1
  have h22 := hblock 2 2
  simp only [Fin.castSucc_zero, Fin.castSucc_one] at h00 h01 h02 h10 h11 h12 h20 h21 h22
  have e2 : Fin.castSucc (2 : Fin 3) = (2 : Fin 4) := rfl
  rw [e2] at h02 h12 h20 h21 h22
  rw [h00, h01, h02, h10, h11, h12, h20, h21, h22]

/-- Witness of C13: the affine matrix `translation(1, 2, 3)` and `v = (4, 5, 6)`. -/
theorem transform_direction_witness :
    (Matrix4x4.translation 1 2 3).Affine ∧
    (Matrix4x4.translation 1 2 3).transform ⟨4, 5, 6⟩ 0 = ⟨4, 5, 6⟩ :=
  ⟨by decide,
    (transform_direction (Matrix4x4.translation 1 2 3) (by decide) ⟨4, 5, 6⟩).2.2.1 1 2 3⟩

/-- C14. `Vec3::normalize` is total and returns a unit vector or zero.  Over real arithmetic
(`float` read as `ℝ`, `std::sqrt` as the real square root): the zero vector is returned as
`(0, 0, 0)`, and for every non-zero `v` the length is positive, `normalize(v)` is
`v / length(v)` and has Euclidean length `1`.  In the rational model, for every function
standing for `std::sqrt`: when the length is not positive the literal `Vec3(0, 0, 0)` is
returned and no division is made (in particular for the zero vector when `sqrt 0 = 0`), and
when it is positive the result is `v / length(v)`. -/
theorem normalize_unit_or_zero (v : Vec3Of ℝ) :
    (⟨0, 0, 0⟩ : Vec3Of ℝ).normalize Real.sqrt = ⟨0, 0, 0⟩ ∧
    (v ≠ ⟨0, 0, 0⟩ →
      0 < v.length Real.sqrt ∧ v.normalize Real.sqrt = v.div (v.length Real.sqrt) ∧
      (v.normalize Real.sqrt).length Real.sqrt = 1) ∧
    (∀ (sqrt : ℚ → ℚ) (u : Vec3), ¬ 0 < u.length sqrt → u.normalize sqrt = ⟨0, 0, 0⟩) ∧
    (∀ sqrt : ℚ → ℚ, sqrt 0 = 0 → (⟨0, 0, 0⟩ : Vec3).normalize sqrt = ⟨0, 0, 0⟩) ∧
    (∀ (sqrt : ℚ → ℚ) (u : Vec3), 0 < u.length sqrt →
      u.normalize sqrt = u.div (u.length sqrt)) ∧
    (⟨3, 4, 0⟩ : Vec3).normalize sqrtQ = ⟨3 / 5, 4 / 5, 0⟩ :=
  ⟨Vec3Of.normalize_zero Real.sqrt Real.sqrt_zero, Vec3Of.normalize_real v,
    fun sqrt u h => Vec3Of.normalize_of_not_pos sqrt u h,
    fun sqrt h => Vec3Of.normalize_zero sqrt h,
    fun sqrt u h => Vec3Of.normalize_of_pos sqrt u h, by decide!⟩

/-- C15, as stated, fails: with a single directional light of intensity `-1` shining
straight onto the surface and the default material, the red channel of `finalColor` is
`32/255 - (128/255 + 1) = -351/255` after the `std::min(1.0f, …)` assignments (there is no
lower clamp), and the conversion of `-351` to `unsigned char` is undefined.  The stand-ins
for `std::sqrt` and `std::pow` are exact at the values met here. -/
theorem fragment_clamped_counterexample :
    (Shader.fragmentFinal sqrtQ powQ
      { Shader.new sqrtQ with lights := [{ Light.default with intensity := -1 }] }
      ⟨⟨0, 0, 0⟩, ⟨0, 1, 0⟩, ⟨0, 0⟩, ⟨0, 0, 0⟩, ⟨0, 0, 0⟩⟩).x = -351 / 255 ∧
    ¬ 0 ≤ (Shader.fragmentFinal sqrtQ powQ
      { Shader.new sqrtQ with lights := [{ Light.default with intensity := -1 }] }
      ⟨⟨0, 0, 0⟩, ⟨0, 1, 0⟩, ⟨0, 0⟩, ⟨0, 0, 0⟩, ⟨0, 0, 0⟩⟩).x ∧
    Shader.fragmentShader sqrtQ powQ
      { Shader.new sqrtQ with lights := [{ Light.default with intensity := -1 }] }
      ⟨⟨0, 0, 0⟩, ⟨0, 1, 0⟩, ⟨0, 0⟩, ⟨0, 0, 0⟩, ⟨0, 0, 0⟩⟩ = none := by
  decide!

/-- C15, amended.  For every vertex, material, camera position and every list of lights whose
intensities are all non-negative (any number of lights, however high the intensities), with
`std::sqrt` and `std::pow` returning non-negative values, each channel value computed by
`fragmentShader` lies in `[0, 1]` immediately before the 8-bit quantization, so each output
channel is `floor(255 * value)` and lies in `[0, 255]`; the alpha is `255`. -/
theorem fragment_clamped (sqrt : ℚ → ℚ) (pow : ℚ → ℚ → ℚ) (hsqrt : ∀ q, 0 ≤ sqrt q)
    (hpow : ∀ b e, 0 ≤ b → 0 ≤ pow b e) (sh : Shader)
    (hl : ∀ l ∈ sh.lights, 0 ≤ l.intensity) (vertex : Vertex) :
    ((0 ≤ (sh.fragmentFinal sqrt pow vertex).x ∧ (sh.fragmentFinal sqrt pow vertex).x ≤ 1) ∧
      (0 ≤ (sh.fragmentFinal sqrt pow vertex).y ∧ (sh.fragmentFinal sqrt pow vertex).y ≤ 1) ∧
      (0 ≤ (sh.fragmentFinal sqrt pow vertex).z ∧ (sh.fragmentFinal sqrt pow vertex).z ≤ 1)) ∧
    sh.fragmentShader sqrt pow vertex =
      some ⟨⌊(sh.fragmentFinal sqrt pow vertex).x * 255⌋.toNat,
        ⌊(sh.fragmentFinal sqrt pow vertex).y * 255⌋.toNat,
        ⌊(sh.fragmentFinal sqrt pow vertex).z * 255⌋.toNat, 255⟩ ∧
    ⌊(sh.fragmentFinal sqrt pow vertex).x * 255⌋.toNat ≤ 255 ∧
    ⌊(sh.fragmentFinal sqrt pow vertex).y * 255⌋.toNat ≤ 255 ∧
    ⌊(sh.fragmentFinal sqrt pow vertex).z * 255⌋.toNat ≤ 255 := by
  obtain ⟨⟨hx0, hx1⟩, ⟨hy0, hy1⟩, ⟨hz0, hz1⟩⟩ :=
    Shader.fragmentFinal_range sqrt pow hsqrt hpow sh hl vertex
  have hbound : ∀ q : ℚ, 0 ≤ q → q ≤ 1 → ⌊q * 255⌋.toNat ≤ 255 := by
    intro q h0 h1
    have h2 : ⌊q * 255⌋ ≤ 255 := by
      have : q * 255 ≤ ((255 : Int) : ℚ) := by push_cast; linarith
      exact Int.floor_le_iff.mpr (by push_cast; linarith)
    omega
  refine ⟨⟨⟨hx0, hx1⟩, ⟨hy0, hy1⟩, ⟨hz0, hz1⟩⟩, ?_, hbound _ hx0 hx1, hbound _ hy0 hy1,
    hbound _ hz0 hz1⟩
  unfold Shader.fragmentShader
  rw [Framebuffer.floatToUChar_in_range (by positivity) (by linarith),
    Framebuffer.floatToUChar_in_range (by positivity) (by linarith),
    Framebuffer.floatToUChar_in_range (by positivity) (by linarith)]
  rfl

/-- Witness of C15 (amended): the default shader (one directional light of intensity `1`)
with the stand-ins for `std::sqrt` and `std::pow`; the output is white. -/
theorem fragment_clamped_witness :
    (∀ l ∈ (Shader.new sqrtQ).lights, 0 ≤ l.intensity) ∧
    (Shader.new sqrtQ).fragmentShader sqrtQ powQ
        ⟨⟨0, 0, 0⟩, ⟨0, 1, 0⟩, ⟨0, 0⟩, ⟨0, 0, 0⟩, ⟨0, 0, 0⟩⟩ =
      some ⟨⌊((Shader.new sqrtQ).fragmentFinal sqrtQ powQ
          ⟨⟨0, 0, 0⟩, ⟨0, 1, 0⟩, ⟨0, 0⟩, ⟨0, 0, 0⟩, ⟨0, 0, 0⟩⟩).x * 255⌋.toNat,
        ⌊((Shader.new sqrtQ).fragmentFinal sqrtQ powQ
          ⟨⟨0, 0, 0⟩, ⟨0, 1, 0⟩, ⟨0, 0⟩, ⟨0, 0, 0⟩, ⟨0, 0, 0⟩⟩).y * 255⌋.toNat,
        ⌊((Shader.new sqrtQ).fragmentFinal sqrtQ powQ
          ⟨⟨0, 0, 0⟩, ⟨0, 1, 0⟩, ⟨0, 0⟩, ⟨0, 0, 0⟩, ⟨0, 0, 0⟩⟩).z * 255⌋.toNat, 255⟩ ∧
    (Shader.new sqrtQ).fragmentShader sqrtQ powQ
        ⟨⟨0, 0, 0⟩, ⟨0, 1, 0⟩, ⟨0, 0⟩, ⟨0, 0, 0⟩, ⟨0, 0, 0⟩⟩ = some (Color.rgb 255 255 255) :=
  ⟨by decide!,
    (fragment_clamped sqrtQ powQ sqrtQ_nonneg powQ_nonneg (Shader.new sqrtQ) (by decide!)
      ⟨⟨0, 0, 0⟩, ⟨0, 1, 0⟩, ⟨0, 0⟩, ⟨0, 0, 0⟩, ⟨0, 0, 0⟩⟩).2.1,
    by decide!⟩

/-- C16. The shadow and ambient-occlusion hooks are constant stubs: `calculateShadow` returns
`1` whether `enableShadows` is set or not, `calculateAmbientOcclusion` returns `1`, and
`fragmentShader` returns the same colour (and the same value before quantization) whatever
`enableAO`, `enableShadows` and `lightSpaceMatrix` are. -/
theorem shadow_and_ao_are_stubs (sqrt : ℚ → ℚ) (pow : ℚ → ℚ → ℚ) (sh : Shader)
    (vertex : Vertex) :
    sh.calculateShadow vertex = 1 ∧
    (∀ b : Bool, ({ sh with enableShadows := b } : Shader).calculateShadow vertex = 1) ∧
    sh.calculateAmbientOcclusion vertex = 1 ∧
    (∀ b : Bool,
      ({ sh with enableAO := b } : Shader).fragmentFinal sqrt pow vertex =
        sh.fragmentFinal sqrt pow vertex ∧
      ({ sh with enableAO := b } : Shader).fragmentShader sqrt pow vertex =
        sh.fragmentShader sqrt pow vertex) ∧
    (∀ (b : Bool) (M : Matrix4x4),
      ({ sh with enableShadows := b, lightSpaceMatrix := M } : Shader).fragmentShader sqrt pow
        vertex = sh.fragmentShader sqrt pow vertex) := by
  have hfin : ∀ b : Bool, ({ sh with enableAO := b } : Shader).fragmentFinal sqrt pow vertex =
      sh.fragmentFinal sqrt pow vertex := by
    intro b
    rw [Shader.fragmentFinal_eq, Shader.fragmentFinal_eq]
    rfl
  refine ⟨Shader.calculateShadow_eq sh vertex, fun b => Shader.calculateShadow_eq _ vertex,
    Shader.calculateAmbientOcclusion_eq sh vertex, fun b => ⟨hfin b, ?_⟩, fun b M => rfl⟩
  unfold Shader.fragmentShader
  rw [hfin b]

/-- C17. Near/far rejection in `renderModel`: a face for which some corner has clip-space `z`
(`vertexShader(...).position.z`, the `mvpMatrix` applied to the mesh vertex) below `-1` or
above `1` is discarded whole: the loop body returns its state (renderer, framebuffer and
counter) unchanged, so the loop continues with the remaining faces as if the face were
absent. -/
theorem near_far_rejection (sqrt : ℚ → ℚ) (pow : ℚ → ℚ → ℚ) (model : Model)
    (st : Renderer × Nat) (face : Face)
    (h : ∃ i : Fin 3, (Renderer.shaderVert sqrt st.1 model face i).position.z < -1 ∨
      (Renderer.shaderVert sqrt st.1 model face i).position.z > 1) :
    Renderer.renderFace sqrt pow model st face = some st ∧
    (∀ faces : List Face, Renderer.renderFaces sqrt pow model (face :: faces) st =
      Renderer.renderFaces sqrt pow model faces st) ∧
    (∀ i : Fin 3, (Renderer.shaderVert sqrt st.1 model face i).position =
      st.1.shader.mvpMatrix.transform (model.getVertex (face.v i)) 1) := by
  have h1 := Renderer.renderFace_of_clipped sqrt pow model st face h
  exact ⟨h1, fun faces => Renderer.renderFaces_cons sqrt pow model face faces st h1,
    fun _ => rfl⟩

/-- Witness of C17: in the small scene the third corner of the far triangle has clip-space
`z = 3/2`. -/
theorem near_far_rejection_witness :
    (Renderer.shaderVert sqrtQ sceneRenderer sceneModelFar (Face.ofVertices 0 1 2) 2).position.z
      = 3 / 2 ∧
    Renderer.renderFace sqrtQ powQ sceneModelFar (sceneRenderer, 0) (Face.ofVertices 0 1 2) =
      some (sceneRenderer, 0) :=
  ⟨by decide!,
    (near_far_rejection sqrtQ powQ sceneModelFar (sceneRenderer, 0) (Face.ofVertices 0 1 2)
      ⟨2, Or.inr (by decide!)⟩).1⟩

/-- C18, at the failing input.  In the small scene the model matrix is `translation(0, 0, 1)`
and the camera is at the origin.  The world-space corners (the `worldPos` of the vertex
shader) lie in the plane `z = 1/2` and the world-space test value
`((w1 - w0) × (w2 - w0)) · (cameraPos - w0)` is `-1/2`: the face points away from the camera.
The code evaluates the test on the untransformed mesh vertices, obtains `1/2 > 0`, and
rasterizes the face: one triangle is counted and the pixel `(2, 2)` receives the colour
`(160, 160, 160)` at depth `1/2`. -/
theorem backface_test_on_mesh_vertices :
    ((((Renderer.shaderVert sqrtQ sceneRenderer sceneModel (Face.ofVertices 0 1 2) 1).worldPos.sub
        (Renderer.shaderVert sqrtQ sceneRenderer sceneModel (Face.ofVertices 0 1 2) 0).worldPos).cross
      ((Renderer.shaderVert sqrtQ sceneRenderer sceneModel (Face.ofVertices 0 1 2) 2).worldPos.sub
        (Renderer.shaderVert sqrtQ sceneRenderer sceneModel (Face.ofVertices 0 1 2) 0).worldPos)).dot
      (sceneRenderer.shader.cameraPos.sub
        (Renderer.shaderVert sqrtQ sceneRenderer sceneModel (Face.ofVertices 0 1 2) 0).worldPos))
      = -1 / 2 ∧
    ((((Renderer.worldVert sceneModel (Face.ofVertices 0 1 2) 1).sub
        (Renderer.worldVert sceneModel (Face.ofVertices 0 1 2) 0)).cross
      ((Renderer.worldVert sceneModel (Face.ofVertices 0 1 2) 2).sub
        (Renderer.worldVert sceneModel (Face.ofVertices 0 1 2) 0))).dot
      (sceneRenderer.shader.cameraPos.sub (Renderer.worldVert sceneModel (Face.ofVertices 0 1 2) 0)))
      = 1 / 2 ∧
    sceneRenderer.framebuffer.getDepth 2 2 = FLT_MAX ∧
    (Renderer.renderModel sqrtQ powQ sceneRenderer sceneModel).map
        (fun st => (st.2, st.1.framebuffer.getPixel 2 2, st.1.framebuffer.getDepth 2 2)) =
      some (1, Color.rgb 160 160 160, 1 / 2) := by
  decide!

/-- C22. The helper `barycentric` computes true barycentric coordinates: for every 2-D
triangle `a`, `b`, `c` whose denominator has magnitude at least `0.001` and every point `p`,
the weights satisfy `w0 + w1 + w2 = 1` and `w0 * a + w1 * b + w2 * c = p` (over exact
arithmetic), so the weights at `a`, `b`, `c` are `(1,0,0)`, `(0,1,0)`, `(0,0,1)` and the depth
that the loop body of `drawTriangle` passes to `setPixel` at a vertex is the `z` of that
vertex; when the magnitude is below `0.001` the sentinel `(-1, 0, 0)` is returned. -/
theorem barycentric_true_coordinates (p a b c : Vec2) :
    (1 / 1000 ≤ |(b.y - c.y) * (a.x - c.x) + (c.x - b.x) * (a.y - c.y)| →
      ((barycentric p a b c).x + (barycentric p a b c).y + (barycentric p a b c).z = 1 ∧
        (barycentric p a b c).x * a.x + (barycentric p a b c).y * b.x +
          (barycentric p a b c).z * c.x = p.x ∧
        (barycentric p a b c).x * a.y + (barycentric p a b c).y * b.y +
          (barycentric p a b c).z * c.y = p.y) ∧
      (barycentric a a b c = ⟨1, 0, 0⟩ ∧ barycentric b a b c = ⟨0, 1, 0⟩ ∧
        barycentric c a b c = ⟨0, 0, 1⟩)) ∧
    (|(b.y - c.y) * (a.x - c.x) + (c.x - b.x) * (a.y - c.y)| < 1 / 1000 →
      barycentric p a b c = ⟨-1, 0, 0⟩) ∧
    (∀ (v0 v1 v2 : Vec3) (color : Color) (fb : Framebuffer),
      1 / 1000 ≤ |(v1.y - v2.y) * (v0.x - v2.x) + (v2.x - v1.x) * (v0.y - v2.y)| →
      drawTriangleStep v0 v1 v2 color v0.x fb v0.y =
        fb.setPixel (truncToInt v0.x) (truncToInt v0.y) color v0.z ∧
      drawTriangleStep v0 v1 v2 color v1.x fb v1.y =
        fb.setPixel (truncToInt v1.x) (truncToInt v1.y) color v1.z ∧
      drawTriangleStep v0 v1 v2 color v2.x fb v2.y =
        fb.setPixel (truncToInt v2.x) (truncToInt v2.y) color v2.z) ∧
    barycentric ⟨1, 1⟩ ⟨0, 0⟩ ⟨4, 0⟩ ⟨0, 4⟩ = ⟨1 / 2, 1 / 4, 1 / 4⟩ := by
  refine ⟨fun h => ⟨barycentric_combination p a b c h, barycentric_corners a b c h⟩,
    barycentric_of_degenerate p a b c, ?_, by decide!⟩
  intro v0 v1 v2 color fb h
  obtain ⟨h0, h1, h2⟩ := barycentric_corners ⟨v0.x, v0.y⟩ ⟨v1.x, v1.y⟩ ⟨v2.x, v2.y⟩ h
  refine ⟨?_, ?_, ?_⟩
  · rw [drawTriangleStep_of_weights v0 v1 v2 color v0.x v0.y fb _ h0 (by norm_num)
      (by norm_num) (by norm_num)]
    congr 1; ring
  · rw [drawTriangleStep_of_weights v0 v1 v2 color v1.x v1.y fb _ h1 (by norm_num)
      (by norm_num) (by norm_num)]
    congr 1; ring
  · rw [drawTriangleStep_of_weights v0 v1 v2 color v2.x v2.y fb _ h2 (by norm_num)
      (by norm_num) (by norm_num)]
    congr 1; ring

/-- C23. The loop of `drawLine` terminates and traces a connected path in every octant: for
all integers `x0`, `y0`, `x1`, `y1`, with any fuel above `max(|x1-x0|, |y1-y0|)` the loop
returns, after exactly `max(|x1-x0|, |y1-y0|) + 1` calls of `setPixel`; the first call is at
`(x0, y0)`, the last at `(x1, y1)`, successive points differ by at most 1 in `x` and at most 1
in `y`, and every point lies in the bounding box of the two end points.  For `int` end points
with `|x1-x0|` and `|y1-y0|` below `2^29` no operation overflows and the method on 32-bit
`int`s returns the same result. -/
theorem drawLine_connected_path (fb : Framebuffer) (x0 y0 x1 y1 : Int) (color : Color)
    (fuel : Nat) (hfuel : (max |x1 - x0| |y1 - y0|).toNat < fuel) :
    ∃ (fb1 : Framebuffer) (pts : List (Int × Int)),
      drawLine fuel fb x0 y0 x1 y1 color = some (fb1, pts) ∧
      pts.length = (max |x1 - x0| |y1 - y0|).toNat + 1 ∧
      pts.head? = some (x0, y0) ∧ pts.getLast? = some (x1, y1) ∧
      List.Chain' (fun p q : Int × Int => |q.1 - p.1| ≤ 1 ∧ |q.2 - p.2| ≤ 1) pts ∧
      (∀ p ∈ pts,
        (min x0 x1 ≤ p.1 ∧ p.1 ≤ max x0 x1) ∧ (min y0 y1 ≤ p.2 ∧ p.2 ≤ max y0 y1)) ∧
      (Int32Range x0 → Int32Range y0 → Int32Range x1 → Int32Range y1 →
        |x1 - x0| < 536870912 → |y1 - y0| < 536870912 →
        drawLine32 fuel fb x0 y0 x1 y1 color = some (fb1, pts)) := by
  obtain ⟨r, hr⟩ := drawLine_terminates fb x0 y0 x1 y1 color
    ((|x1 - x0| + |y1 - y0|).toNat + 1) (Nat.lt_succ_self _)
  have hlen := drawLine_length _ fb x0 y0 x1 y1 color r hr
  have hmax : (0 : Int) ≤ max |x1 - x0| |y1 - y0| := le_max_of_le_left (abs_nonneg _)
  have hlenN : r.2.length = (max |x1 - x0| |y1 - y0|).toNat + 1 := by omega
  have hloop : drawLineLoop color x1 y1 |x1 - x0| |y1 - y0| (if x0 < x1 then 1 else -1)
      (if y0 < y1 then 1 else -1) ((|x1 - x0| + |y1 - y0|).toNat + 1) fb x0 y0
      (|x1 - x0| - |y1 - y0|) = some r := hr
  have hmin := drawLineLoop_fuel_length color x1 y1 _ _ _ _ _ fb x0 y0 _ r hloop
  have hfuelr : r.2.length ≤ fuel := by omega
  have hrun := drawLineLoop_fuel_le color x1 y1 _ _ _ _ hfuelr fb x0 y0 _ r hmin
  obtain ⟨_, tl, htl⟩ := drawLineLoop_paint color x1 y1 _ _ _ _ _ fb x0 y0 _ r hloop
  obtain ⟨hlast, hchain, hbox⟩ := drawLineLoop_path color x1 y1 _ _ _ _ _ fb x0 y0 _ _ _ r
    (lineInv_init x0 y0 x1 y1) hloop
  have h32 : Int32Range x0 → Int32Range y0 → Int32Range x1 → Int32Range y1 →
      |x1 - x0| < 536870912 → |y1 - y0| < 536870912 →
      drawLine32 fuel fb x0 y0 x1 y1 color = some (r.1, r.2) := by
    intro hx0 hy0 hx1 hy1 hdx hdy
    rw [drawLine32_eq_drawLine fuel fb x0 y0 x1 y1 color hx0 hy0 hx1 hy1 hdx hdy]
    exact hrun
  refine ⟨r.1, r.2, hrun, hlenN, by rw [htl]; rfl, hlast, hchain, ?_, h32⟩
  intro p hp
  obtain ⟨kx, ky, ⟨hkx0, hkx1, hkx⟩, ⟨hky0, hky1, hky⟩⟩ := hbox p hp
  constructor
  · by_cases h : x0 < x1
    · rw [if_pos h] at hkx
      rw [abs_of_pos (by omega)] at hkx1
      rw [min_eq_left (le_of_lt h), max_eq_right (le_of_lt h)]
      constructor <;> omega
    · rw [if_neg h] at hkx
      rw [abs_of_nonpos (by omega)] at hkx1
      rw [min_eq_right (by omega), max_eq_left (by omega)]
      constructor <;> omega
  · by_cases h : y0 < y1
    · rw [if_pos h] at hky
      rw [abs_of_pos (by omega)] at hky1
      rw [min_eq_left (le_of_lt h), max_eq_right (le_of_lt h)]
      constructor <;> omega
    · rw [if_neg h] at hky
      rw [abs_of_nonpos (by omega)] at hky1
      rw [min_eq_right (by omega), max_eq_left (by omega)]
      constructor <;> omega

/-- Witness of C23: the line from `(0, 0)` to `(4, 2)` on a 5 x 5 framebuffer makes the five
calls `(0,0)`, `(1,0)`, `(2,1)`, `(3,1)`, `(4,2)`, and the line from `(3, 1)` to `(1, -2)`
the four calls `(3,1)`, `(2,0)`, `(2,-1)`, `(1,-2)`. -/
theorem drawLine_connected_path_witness :
    (max |(4 : Int) - 0| |(2 : Int) - 0|).toNat < 5 ∧
    (∃ (fb1 : Framebuffer) (pts : List (Int × Int)),
      drawLine 5 (Framebuffer.new 5 5) 0 0 4 2 (Color.rgb 255 0 0) = some (fb1, pts) ∧
      pts.length = (max |(4 : Int) - 0| |(2 : Int) - 0|).toNat + 1 ∧
      pts.head? = some (0, 0) ∧ pts.getLast? = some (4, 2) ∧
      List.Chain' (fun p q : Int × Int => |q.1 - p.1| ≤ 1 ∧ |q.2 - p.2| ≤ 1) pts ∧
      (∀ p ∈ pts, (min 0 4 ≤ p.1 ∧ p.1 ≤ max 0 4) ∧ (min 0 2 ≤ p.2 ∧ p.2 ≤ max 0 2)) ∧
      (Int32Range 0 → Int32Range 0 → Int32Range 4 → Int32Range 2 →
        |(4 : Int) - 0| < 536870912 → |(2 : Int) - 0| < 536870912 →
        drawLine32 5 (Framebuffer.new 5 5) 0 0 4 2 (Color.rgb 255 0 0) = some (fb1, pts))) ∧
    (drawLine 5 (Framebuffer.new 5 5) 0 0 4 2 (Color.rgb 255 0 0)).map Prod.snd =
      some [(0, 0), (1, 0), (2, 1), (3, 1), (4, 2)] ∧
    (drawLine 4 (Framebuffer.new 5 5) 3 1 1 (-2) (Color.rgb 255 0 0)).map Prod.snd =
      some [(3, 1), (2, 0), (2, -1), (1, -2)] ∧
    drawLine 4 (Framebuffer.new 5 5) 0 0 4 2 (Color.rgb 255 0 0) = none :=
  ⟨by decide,
    drawLine_connected_path (Framebuffer.new 5 5) 0 0 4 2 (Color.rgb 255 0 0) 5 (by decide),
    by decide!, by decide!, by decide!⟩

/-- C24, at the failing input.  In the small scene (a `4 × 4` image) the covering triangle
passes the clip test and the back-face test of the code (test value `8450 > 0`); its screen
vertices are `(-60, -60)`, `(200, -60)` and `(-60, 200)`, none of which satisfies the margin
test, so `renderModel` discards it: no triangle is counted and the framebuffer is unchanged.
The comment on the test reads "Check if any part of triangle is on screen", but the triangle
contains every pixel of the image: the call `drawTriangle(screenVerts[0], screenVerts[1],
screenVerts[2], shaderVerts[0])` that the test suppressed changes the pixel `(0, 0)` from
black at depth `FLT_MAX` to `(160, 160, 160)` at depth `1/2`, and likewise `(3, 3)`. -/
theorem on_screen_test_discards_covering_triangle :
    (¬ Renderer.cornerClipped
        (Renderer.shaderVert sqrtQ sceneRenderer sceneModelCovering (Face.ofVertices 0 1 2) 0) ∧
      ¬ Renderer.cornerClipped
        (Renderer.shaderVert sqrtQ sceneRenderer sceneModelCovering (Face.ofVertices 0 1 2) 1) ∧
      ¬ Renderer.cornerClipped
        (Renderer.shaderVert sqrtQ sceneRenderer sceneModelCovering (Face.ofVertices 0 1 2) 2)) ∧
    ((((Renderer.worldVert sceneModelCovering (Face.ofVertices 0 1 2) 1).sub
        (Renderer.worldVert sceneModelCovering (Face.ofVertices 0 1 2) 0)).cross
      ((Renderer.worldVert sceneModelCovering (Face.ofVertices 0 1 2) 2).sub
        (Renderer.worldVert sceneModelCovering (Face.ofVertices 0 1 2) 0))).dot
      (sceneRenderer.shader.cameraPos.sub
        (Renderer.worldVert sceneModelCovering (Face.ofVertices 0 1 2) 0))) = 8450 ∧
    (Renderer.screenVert sceneRenderer
        (Renderer.shaderVert sqrtQ sceneRenderer sceneModelCovering (Face.ofVertices 0 1 2) 0) =
        ⟨-60, -60, 1 / 2⟩ ∧
      Renderer.screenVert sceneRenderer
        (Renderer.shaderVert sqrtQ sceneRenderer sceneModelCovering (Face.ofVertices 0 1 2) 1) =
        ⟨200, -60, 1 / 2⟩ ∧
      Renderer.screenVert sceneRenderer
        (Renderer.shaderVert sqrtQ sceneRenderer sceneModelCovering (Face.ofVertices 0 1 2) 2) =
        ⟨-60, 200, 1 / 2⟩) ∧
    (¬ Renderer.vertOnScreen sceneRenderer ⟨-60, -60, 1 / 2⟩ ∧
      ¬ Renderer.vertOnScreen sceneRenderer ⟨200, -60, 1 / 2⟩ ∧
      ¬ Renderer.vertOnScreen sceneRenderer ⟨-60, 200, 1 / 2⟩) ∧
    (Renderer.renderModel sqrtQ powQ sceneRenderer sceneModelCovering).map
        (fun st => (st.2, st.1.framebuffer)) = some (0, sceneRenderer.framebuffer) ∧
    (sceneRenderer.framebuffer.getPixel 0 0 = Color.rgb 0 0 0 ∧
      sceneRenderer.framebuffer.getDepth 0 0 = FLT_MAX) ∧
    (Renderer.drawTriangle sqrtQ powQ sceneRenderer ⟨-60, -60, 1 / 2⟩ ⟨200, -60, 1 / 2⟩
        ⟨-60, 200, 1 / 2⟩
        (Renderer.shaderVert sqrtQ sceneRenderer sceneModelCovering
          (Face.ofVertices 0 1 2) 0)).map
        (fun r => (r.framebuffer.getPixel 0 0, r.framebuffer.getDepth 0 0,
          r.framebuffer.getPixel 3 3, r.framebuffer.getDepth 3 3)) =
      some (Color.rgb 160 160 160, 1 / 2, Color.rgb 160 160 160, 1 / 2) := by
  decide!

/-- C25. Stored depth never increases while drawing: for every well-formed framebuffer and
every in-bounds pixel `(x, y)`, after one call of `setPixel`, of `drawLine` (which returns
for every fuel above `max(|x1-x0|, |y1-y0|)`) or of `drawTriangle` with arbitrary arguments,
`getDepth(x, y)` is less than or equal to its value before the call, and if it is equal then
`getPixel(x, y)` is unchanged; `clear` stores `FLT_MAX`, whatever the depth was.  The same
holds after every call of `drawLine` on 32-bit `int`s that returns, whatever its arguments,
and that call returns for `int` end points with `|x1-x0|` and `|y1-y0|` below `2^29`. -/
theorem depth_never_increases (fb : Framebuffer) (hwf : fb.WF) (x y : Int)
    (hb : fb.inBounds x y) :
    (∀ (px py : Int) (color : Color) (depth : ℚ),
      (fb.setPixel px py color depth).getDepth x y ≤ fb.getDepth x y ∧
      ((fb.setPixel px py color depth).getDepth x y = fb.getDepth x y →
        (fb.setPixel px py color depth).getPixel x y = fb.getPixel x y)) ∧
    (∀ (fuel : Nat) (x0 y0 x1 y1 : Int) (color : Color),
      (max |x1 - x0| |y1 - y0|).toNat < fuel →
      ∃ r, drawLine fuel fb x0 y0 x1 y1 color = some r ∧
        r.1.getDepth x y ≤ fb.getDepth x y ∧
        (r.1.getDepth x y = fb.getDepth x y → r.1.getPixel x y = fb.getPixel x y)) ∧
    (∀ (v0 v1 v2 : Vec3) (color : Color),
      (fb.drawTriangle v0 v1 v2 color).getDepth x y ≤ fb.getDepth x y ∧
      ((fb.drawTriangle v0 v1 v2 color).getDepth x y = fb.getDepth x y →
        (fb.drawTriangle v0 v1 v2 color).getPixel x y = fb.getPixel x y)) ∧
    (∀ color : Color, (fb.clear color).getDepth x y = FLT_MAX) ∧
    (∀ (fuel : Nat) (x0 y0 x1 y1 : Int) (color : Color) (r : Framebuffer × List (Int × Int)),
      drawLine32 fuel fb x0 y0 x1 y1 color = some r →
      r.1.getDepth x y ≤ fb.getDepth x y ∧
      (r.1.getDepth x y = fb.getDepth x y → r.1.getPixel x y = fb.getPixel x y)) ∧
    (∀ (fuel : Nat) (x0 y0 x1 y1 : Int) (color : Color),
      Int32Range x0 → Int32Range y0 → Int32Range x1 → Int32Range y1 →
      |x1 - x0| < 536870912 → |y1 - y0| < 536870912 →
      (max |x1 - x0| |y1 - y0|).toNat < fuel →
      ∃ r, drawLine32 fuel fb x0 y0 x1 y1 color = some r) := by
  refine ⟨?_, ?_, ?_, ?_, ?_, ?_⟩
  · intro px py color depth
    exact paint_depth_le color hwf [(px, py, depth)] hb
  · intro fuel x0 y0 x1 y1 color hfuel
    obtain ⟨r, hr⟩ := drawLine_returns fb x0 y0 x1 y1 color fuel hfuel
    refine ⟨r, hr, ?_⟩
    rw [drawLine_eq_paint fuel fb x0 y0 x1 y1 color r hr]
    exact paint_depth_le color hwf _ hb
  · intro v0 v1 v2 color
    rw [drawTriangle_eq_paint]
    exact paint_depth_le color hwf _ hb
  · intro color
    exact (clear_get hwf color hb).2
  · intro fuel x0 y0 x1 y1 color r hr
    rw [drawLine32_eq_paint fuel fb x0 y0 x1 y1 color r hr]
    exact paint_depth_le color hwf _ hb
  · intro fuel x0 y0 x1 y1 color hx0 hy0 hx1 hy1 hdx hdy hfuel
    exact drawLine32_returns fuel fb x0 y0 x1 y1 color hx0 hy0 hx1 hy1 hdx hdy hfuel

/-- Witness of C25: on a fresh `3 × 3` framebuffer the pixel `(1, 1)` holds depth `FLT_MAX`;
a triangle at depth `1/2` lowers it to `1/2`, a second triangle at depth `3/4` then leaves
depth and colour alone, a line lowers the depth to `0`, and `clear` raises it back to
`FLT_MAX`. -/
theorem depth_never_increases_witness :
    (Framebuffer.new 3 3).WF ∧ (Framebuffer.new 3 3).inBounds 1 1 ∧
    ((Framebuffer.new 3 3).drawTriangle ⟨0, 0, 1 / 2⟩ ⟨4, 0, 1 / 2⟩ ⟨0, 4, 1 / 2⟩
        (Color.rgb 255 0 0)).getDepth 1 1 ≤ (Framebuffer.new 3 3).getDepth 1 1 ∧
    ((Framebuffer.new 3 3).getDepth 1 1 = FLT_MAX ∧
      ((Framebuffer.new 3 3).drawTriangle ⟨0, 0, 1 / 2⟩ ⟨4, 0, 1 / 2⟩ ⟨0, 4, 1 / 2⟩
        (Color.rgb 255 0 0)).cell 1 1 = (Color.rgb 255 0 0, 1 / 2) ∧
      (((Framebuffer.new 3 3).drawTriangle ⟨0, 0, 1 / 2⟩ ⟨4, 0, 1 / 2⟩ ⟨0, 4, 1 / 2⟩
        (Color.rgb 255 0 0)).drawTriangle ⟨0, 0, 3 / 4⟩ ⟨4, 0, 3 / 4⟩ ⟨0, 4, 3 / 4⟩
        (Color.rgb 0 255 0)).cell 1 1 = (Color.rgb 255 0 0, 1 / 2) ∧
      (drawLine 3 ((Framebuffer.new 3 3).drawTriangle ⟨0, 0, 1 / 2⟩ ⟨4, 0, 1 / 2⟩
        ⟨0, 4, 1 / 2⟩ (Color.rgb 255 0 0)) 0 0 2 2 (Color.rgb 0 0 255)).map
        (fun r => r.1.cell 1 1) = some (Color.rgb 0 0 255, 0) ∧
      (((Framebuffer.new 3 3).drawTriangle ⟨0, 0, 1 / 2⟩ ⟨4, 0, 1 / 2⟩ ⟨0, 4, 1 / 2⟩
        (Color.rgb 255 0 0)).clear (Color.rgb 0 0 0)).cell 1 1 =
        (Color.rgb 0 0 0, FLT_MAX)) :=
  ⟨by decide, by decide,
    ((depth_never_increases (Framebuffer.new 3 3) (by decide) 1 1 (by decide)).2.2.1
      ⟨0, 0, 1 / 2⟩ ⟨4, 0, 1 / 2⟩ ⟨0, 4, 1 / 2⟩ (Color.rgb 255 0 0)).1,
    by decide!⟩

/-- C27. Reversing the winding of a face flips the culling decision: for every camera
position and every three vertices `a`, `b`, `c`, the back-face test value
`((b - a) × (c - a)) · (cameraPos - a)` of the face `(a, b, c)` is the exact negation of the
value of the face `(a, c, b)`.  Hence, for a face and its twin (same first corner, second and
third corners exchanged) in one mesh, the loop body of `renderModel` run from any two states
with the same camera position leaves at least one of them undrawn, returning its state
unchanged; it leaves both undrawn when the value is `0`; and a `renderModel` loop over the
face followed by its twin counts at most one triangle. -/
theorem winding_reversal_flips_culling (sqrt : ℚ → ℚ) (pow : ℚ → ℚ → ℚ) (model : Model)
    (face twin : Face) (h0 : twin.v 0 = face.v 0) (h1 : twin.v 1 = face.v 2)
    (h2 : twin.v 2 = face.v 1) :
    (∀ a b c cameraPos : Vec3,
      ((b.sub a).cross (c.sub a)).dot (cameraPos.sub a) =
        -(((c.sub a).cross (b.sub a)).dot (cameraPos.sub a))) ∧
    (∀ cameraPos : Vec3,
      (((Renderer.worldVert model twin 1).sub (Renderer.worldVert model twin 0)).cross
        ((Renderer.worldVert model twin 2).sub (Renderer.worldVert model twin 0))).dot
        (cameraPos.sub (Renderer.worldVert model twin 0)) =
      -((((Renderer.worldVert model face 1).sub (Renderer.worldVert model face 0)).cross
        ((Renderer.worldVert model face 2).sub (Renderer.worldVert model face 0))).dot
        (cameraPos.sub (Renderer.worldVert model face 0)))) ∧
    (∀ st st1 : Renderer × Nat, st1.1.shader.cameraPos = st.1.shader.cameraPos →
      Renderer.renderFace sqrt pow model st face = some st ∨
        Renderer.renderFace sqrt pow model st1 twin = some st1) ∧
    (∀ st : Renderer × Nat,
      (((Renderer.worldVert model face 1).sub (Renderer.worldVert model face 0)).cross
        ((Renderer.worldVert model face 2).sub (Renderer.worldVert model face 0))).dot
        (st.1.shader.cameraPos.sub (Renderer.worldVert model face 0)) = 0 →
      Renderer.renderFace sqrt pow model st face = some st ∧
        Renderer.renderFace sqrt pow model st twin = some st) ∧
    (∀ st r : Renderer × Nat,
      Renderer.renderFaces sqrt pow model [face, twin] st = some r → r.2 ≤ st.2 + 1) := by
  refine ⟨fun a b c cameraPos => Vec3Of.cross_dot_swap _ _ _,
    fun cameraPos => Renderer.backface_value_twin model face twin cameraPos h0 h1 h2,
    fun st st1 hcam => Renderer.renderFace_twin sqrt pow model face twin h0 h1 h2 st st1 hcam,
    ?_, ?_⟩
  · intro st hzero
    constructor
    · apply Renderer.renderFace_of_back
      rw [hzero]
      exact lt_irrefl 0
    · apply Renderer.renderFace_of_back
      rw [Renderer.backface_value_twin model face twin _ h0 h1 h2, hzero]
      norm_num
  · intro st r hr
    simp only [Renderer.renderFaces] at hr
    cases hface : Renderer.renderFace sqrt pow model st face with
    | none => rw [hface] at hr; exact absurd hr (by simp)
    | some st1 =>
      rw [hface] at hr
      simp only [] at hr
      cases htwin : Renderer.renderFace sqrt pow model st1 twin with
      | none => rw [htwin] at hr; exact absurd hr (by simp)
      | some st2 =>
        rw [htwin] at hr
        have hr2 : st2 = r := Option.some.inj hr
        subst hr2
        obtain ⟨hsh1, hc1⟩ := Renderer.renderFace_shader sqrt pow model st st1 face hface
        obtain ⟨_, hc2⟩ := Renderer.renderFace_shader sqrt pow model st1 st2 twin htwin
        rcases Renderer.renderFace_twin sqrt pow model face twin h0 h1 h2 st st1
          (by rw [hsh1]) with hA | hB
        · rw [hface] at hA
          have hst : st1 = st := Option.some.inj hA
          rcases hc2 with hc2 | hc2
          · rw [hc2, hst]; exact Nat.le_succ _
          · rw [hc2, hst]
        · rw [htwin] at hB
          have hst : st2 = st1 := Option.some.inj hB
          rcases hc1 with hc1 | hc1
          · rw [hst, hc1]; exact Nat.le_succ _
          · rw [hst, hc1]

/-- Witness of C27: in the small scene the face `(0, 1, 2)` has the test value `1/2` and is
drawn, its twin `(0, 2, 1)` has the value `-1/2` and is not; the loop over both counts one
triangle. -/
theorem winding_reversal_flips_culling_witness :
    ((Face.ofVertices 0 2 1).v 0 = (Face.ofVertices 0 1 2).v 0 ∧
      (Face.ofVertices 0 2 1).v 1 = (Face.ofVertices 0 1 2).v 2 ∧
      (Face.ofVertices 0 2 1).v 2 = (Face.ofVertices 0 1 2).v 1) ∧
    (Renderer.renderFace sqrtQ powQ sceneModel (sceneRenderer, 0) (Face.ofVertices 0 1 2) =
        some (sceneRenderer, 0) ∨
      Renderer.renderFace sqrtQ powQ sceneModel (sceneRenderer, 0) (Face.ofVertices 0 2 1) =
        some (sceneRenderer, 0)) ∧
    (((Renderer.worldVert sceneModel (Face.ofVertices 0 2 1) 1).sub
        (Renderer.worldVert sceneModel (Face.ofVertices 0 2 1) 0)).cross
      ((Renderer.worldVert sceneModel (Face.ofVertices 0 2 1) 2).sub
        (Renderer.worldVert sceneModel (Face.ofVertices 0 2 1) 0))).dot
      (sceneRenderer.shader.cameraPos.sub
        (Renderer.worldVert sceneModel (Face.ofVertices 0 2 1) 0)) = -1 / 2 ∧
    (Renderer.renderFace sqrtQ powQ sceneModel (sceneRenderer, 0)
      (Face.ofVertices 0 1 2)).map Prod.snd = some 1 ∧
    (Renderer.renderFace sqrtQ powQ sceneModel (sceneRenderer, 0)
      (Face.ofVertices 0 2 1)).map Prod.snd = some 0 ∧
    (Renderer.renderFaces sqrtQ powQ sceneModel [Face.ofVertices 0 1 2, Face.ofVertices 0 2 1]
      (sceneRenderer, 0)).map Prod.snd = some 1 :=
  ⟨⟨rfl, rfl, rfl⟩,
    (winding_reversal_flips_culling sqrtQ powQ sceneModel (Face.ofVertices 0 1 2)
      (Face.ofVertices 0 2 1) rfl rfl rfl).2.2.1 (sceneRenderer, 0) (sceneRenderer, 0) rfl,
    by decide!, by decide!, by decide!, by decide!⟩

end RenderEngine
